import Mathlib

/-!
# Control-policy loader (`JsonicControlPolicyParamLoader.cc`)

A shallow embedding of the JSON control-policy loader of the rule engine and a
verification of the properties its specification states.

Modelling conventions.

* A `Rule*` is the position of the pointed-to record in `heap`, the sequence of
  `Rule` objects allocated with `new` (none is freed before the destructor), so
  two pointers are the same rule exactly when they are equal.  `NULL` is `none`.
* `std::map<Rule*, vector<string>>` iterates in increasing key (address) order.
  The address of the n-th allocated rule is a parameter (`Allocator`).
* A C++ exception leaves the loader object in the state it had at the `throw`;
  a run therefore ends either in a state or in an error together with the state
  reached.  Dereferencing `NULL` (undefined behaviour) is the error `segfault`.
* The guile evaluator and the file system are parameters (`Env`); the calls made
  to the evaluator are recorded in `calls`.
* `Rule`, the field names of `PolicyParams.h` and the `json_spirit` value tree
  are not among the sources; they are modelled from the specification.

The walker is related to the sequence of recognized keys it reaches
(`events`, `read_json_eq_run_events`); the properties of a document are stated
over that sequence.
-/

namespace ControlPolicy

/-! ## The generic value tree -/

mutual
/-- Modelled from the spec: the generic value tree produced by the JSON parser
(`json_spirit::Value`, not among the sources): a tagged union of object, array,
string, bool, integer, real and null.  An object is the sequence of its pairs in
document order.  The payload of a real is kept as its bit pattern; the loader
never reads it. -/
inductive Value where
  | obj (o : Pairs)
  | array (a : Values)
  | str (s : String)
  | bool (b : Bool)
  | int (n : Int)
  | real (bits : Nat)
  | null
/-- Modelled from the spec: `json_spirit::Object`, a vector of `Pair`s
(`name_`, `value_`). -/
inductive Pairs where
  | nil
  | cons (name_ : String) (value_ : Value) (rest : Pairs)
/-- Modelled from the spec: `json_spirit::Array`, a vector of values. -/
inductive Values where
  | nil
  | cons (v : Value) (rest : Values)
end

/-- The exceptions (and fatal outcomes) a load can end with. -/
inductive LoadError where
  /-- The `std::runtime_error` thrown by `json_spirit` when a value has not the
  requested type. -/
  | runtime_error
  /-- The `std::invalid_argument` thrown for a rule name that does not exist. -/
  | invalid_argument (name : String)
  /-- The `opencog::RuntimeException` (file not found, evaluator failure). -/
  | RuntimeException
  /-- The `std::ios_base::failure` of a stream. -/
  | ios_failure
  /-- Dereference of a `Rule*` that points at no rule. -/
  | segfault
  deriving DecidableEq, Repr

/-- Modelled from the spec: `Value::get_value<string>()` returns the payload of
a string value and throws for every other type. -/
def Value.get_str : Value → Except LoadError String
  | .str s => .ok s
  | _ => .error .runtime_error

/-- Narrowing of an integer to the 32-bit `int` of the target. -/
def toInt32 (n : Int) : Int := (n + 2147483648) % 4294967296 - 2147483648

/-- Modelled from the spec: `Value::get_value<int>()` returns the payload of an
integer value, narrowed to `int`, and throws for every other type. -/
def Value.get_int : Value → Except LoadError Int
  | .int n => .ok (toInt32 n)
  | _ => .error .runtime_error

/-- Modelled from the spec: `Value::get_value<bool>()`. -/
def Value.get_bool : Value → Except LoadError Bool
  | .bool b => .ok b
  | _ => .error .runtime_error

/-- Modelled from the spec: `Value::get_array()`. -/
def Value.get_array : Value → Except LoadError Values
  | .array a => .ok a
  | _ => .error .runtime_error

/-- The elements of an array as a list. -/
def Values.toList : Values → List Value
  | .nil => []
  | .cons v rest => v :: rest.toList

/-! ## Field names -/

/-- Modelled from the spec: the field names of `PolicyParams.h` (not among the
sources), §6 of the specification. -/
def RULES : String := "rules"
/-- Modelled from the spec: field name of `PolicyParams.h`. -/
def RULE_NAME : String := "name"
/-- Modelled from the spec: field name of `PolicyParams.h`. -/
def FILE_PATH : String := "file"
/-- Modelled from the spec: field name of `PolicyParams.h`. -/
def PRIORITY : String := "priority"
/-- Modelled from the spec: field name of `PolicyParams.h`. -/
def CATEGORY : String := "category"
/-- Modelled from the spec: field name of `PolicyParams.h`. -/
def ATTENTION_ALLOC : String := "attention-allocation"
/-- Modelled from the spec: field name of `PolicyParams.h`. -/
def LOG_LEVEL : String := "log-level"
/-- Modelled from the spec: field name of `PolicyParams.h`. -/
def MUTEX_RULES : String := "mutex"
/-- Modelled from the spec: field name of `PolicyParams.h`. -/
def MAX_ITER : String := "max-iteration"

/-! ## Rules and the loader state -/

/-- An opaque reference into the knowledge base; `none` is `Handle::UNDEFINED`. -/
abbrev Handle := Option Nat

/-- A `Rule*`: the position of the pointed-to record in the heap of rules (the
n-th rule allocated by `new` has position n), `none` for `NULL`. -/
abbrev RulePtr := Option Nat

/-- Modelled from the spec: the `Rule` record of `Rule.h` (not among the
sources): name, cost (undefined until set), category, source handle and the
ordered sequence of rules it is mutually exclusive with. -/
structure Rule where
  rule_handle_ : Handle
  name_ : String
  category_ : String
  cost_ : Option Int
  disjunct_rules_ : List Nat
  deriving DecidableEq, Repr

/-- Modelled from the spec: `Rule::Rule(Handle)`. -/
def Rule.new (h : Handle) : Rule :=
  { rule_handle_ := h, name_ := "", category_ := "", cost_ := none, disjunct_rules_ := [] }

/-- Modelled from the spec: `Rule::set_name`. -/
def Rule.set_name (r : Rule) (n : String) : Rule := { r with name_ := n }
/-- Modelled from the spec: `Rule::get_name`. -/
def Rule.get_name (r : Rule) : String := r.name_
/-- Modelled from the spec: `Rule::set_rule_handle`. -/
def Rule.set_rule_handle (r : Rule) (h : Handle) : Rule := { r with rule_handle_ := h }
/-- Modelled from the spec: `Rule::set_cost`. -/
def Rule.set_cost (r : Rule) (c : Int) : Rule := { r with cost_ := some c }
/-- Modelled from the spec: `Rule::set_category`. -/
def Rule.set_category (r : Rule) (c : String) : Rule := { r with category_ := c }
/-- Modelled from the spec: `Rule::add_disjunct_rule` appends the referenced
rule to `disjunct_rules_`. -/
def Rule.add_disjunct_rule (r : Rule) (p : Nat) : Rule :=
  { r with disjunct_rules_ := r.disjunct_rules_ ++ [p] }

/-- A call made to the external script evaluator. -/
inductive ExtCall where
  | load_scm_file_relative (path : String)
  | eval_h (expr : String)
  deriving DecidableEq, Repr

/-- The state of a `JsonicControlPolicyParamLoader` object, together with the
`Rule` objects it has allocated. -/
structure Loader where
  /-- The `Rule` objects allocated with `new`, in allocation order. -/
  heap : List Rule
  conf_path_ : String
  cur_read_rule_ : RulePtr
  /-- The registry `vector<Rule*> rules_` (its elements are never `NULL`). -/
  rules_ : List Nat
  rule_mutex_map_ : List (RulePtr × List String)
  mutex_sets_ : List (List Nat)
  max_iter_ : Int
  attention_alloc_ : Bool
  log_level_ : String
  /-- The calls made so far to the evaluator attached to `as_`. -/
  calls : List ExtCall
  deriving DecidableEq, Repr

/-- The outcome of a member function: the state on normal return, or the
exception together with the state at the `throw`. -/
abbrev Run := Except (LoadError × Loader) Loader

/-- Sequencing of statements. -/
def Run.andThen (r : Run) (f : Loader → Run) : Run :=
  match r with
  | .ok s => f s
  | .error e => .error e

/-- Addresses of the heap: the address of the n-th rule allocated by `new`.
Distinct live objects have distinct, non-null addresses. -/
structure Allocator where
  addr : Nat → Nat
  addr_ne_null : ∀ n, addr n ≠ 0
  addr_inj : ∀ m n, addr m = addr n → m = n

/-- The address a `Rule*` holds. -/
def Allocator.keyAddr (al : Allocator) : RulePtr → Nat
  | none => 0
  | some n => al.addr n

/-- The external collaborators of the loader. -/
structure Env where
  alloc : Allocator
  /-- `load_scm_file_relative`: given the calls made before, does loading the
  file return normally (`true`) or throw. -/
  load_scm_file_relative : List ExtCall → String → Bool
  /-- `SchemeEval::eval_h`: the handle an expression evaluates to, `none` when
  the evaluator throws. -/
  eval_h : List ExtCall → String → Option Handle
  /-- `boost::filesystem::exists`. -/
  fs_exists : String → Bool
  /-- `operator/=` of `boost::filesystem::path`. -/
  path_join : String → String → String
  DEFAULT_MODULE_PATHS : List String
  /-- The values `Stream_reader::read_next` yields for the file at a path, and
  whether the stream then fails with `ios_base::failure`. -/
  stream : String → List Value × Bool

/-! ## The loader -/

/-- The constructor: `cur_read_rule_ = NULL`, empty containers.  The members
`max_iter_` and `attention_alloc_` are not initialised; their indeterminate
values are arguments. -/
def JsonicControlPolicyParamLoader (conf_path : String) (max_iter0 : Int)
    (attention_alloc0 : Bool) : Loader :=
  { heap := [], conf_path_ := conf_path, cur_read_rule_ := none, rules_ := [],
    rule_mutex_map_ := [], mutex_sets_ := [], max_iter_ := max_iter0,
    attention_alloc_ := attention_alloc0, log_level_ := "", calls := [] }

/-- The rule a pointer points at, if any. -/
def Loader.deref (s : Loader) : RulePtr → Option Rule
  | none => none
  | some p => s.heap[p]?

/-- The statement `p->f(…)` for a setter `f` of `Rule`. -/
def Loader.update (s : Loader) (p : RulePtr) (f : Rule → Rule) : Run :=
  match p with
  | none => .error (.segfault, s)
  | some i =>
    match s.heap[i]? with
    | none => .error (.segfault, s)
    | some r => .ok { s with heap := s.heap.set i (f r) }

/-- The expression `rule_mutex_map_[k]` of `std::map`: the entry of `k` is
created, empty, when the map has none; entries are kept in address order. -/
def map_index (al : Allocator) (k : RulePtr) :
    List (RulePtr × List String) → List (RulePtr × List String)
  | [] => [(k, [])]
  | (k1, ns) :: rest =>
    if al.keyAddr k < al.keyAddr k1 then (k, []) :: (k1, ns) :: rest
    else if al.keyAddr k1 < al.keyAddr k then (k1, ns) :: map_index al k rest
    else (k1, ns) :: rest

/-- The statement `rule_mutex_map_[k].push_back(name)` once the entry exists. -/
def map_push_back (al : Allocator) (k : RulePtr) (name : String) :
    List (RulePtr × List String) → List (RulePtr × List String)
  | [] => []
  | (k1, ns) :: rest =>
    if al.keyAddr k < al.keyAddr k1 then (k1, ns) :: rest
    else if al.keyAddr k1 < al.keyAddr k then (k1, ns) :: map_push_back al k name rest
    else (k1, ns ++ [name]) :: rest

/-- Body of the `RULE_NAME` branch of `read_obj` (lines 111-113). -/
def read_obj_rule_name (value : Value) (s : Loader) : Run :=
  let p := s.heap.length
  let s1 := { s with heap := s.heap ++ [Rule.new none], cur_read_rule_ := some p }
  match value.get_str with
  | .error e => .error (e, s1)
  | .ok n =>
    (s1.update s1.cur_read_rule_ (fun r => r.set_name n)).andThen fun s2 =>
      .ok { s2 with rules_ := s2.rules_ ++ [p] }

/-- Body of the `FILE_PATH` branch of `read_obj` (lines 115-118). -/
def read_obj_file_path (env : Env) (value : Value) (s : Loader) : Run :=
  match value.get_str with
  | .error e => .error (e, s)
  | .ok path =>
    let s1 := { s with calls := s.calls ++ [.load_scm_file_relative path] }
    if env.load_scm_file_relative s.calls path then
      match s1.deref s1.cur_read_rule_ with
      | none => .error (.segfault, s1)
      | some r =>
        let s2 := { s1 with calls := s1.calls ++ [.eval_h r.get_name] }
        match env.eval_h s1.calls r.get_name with
        | none => .error (.RuntimeException, s2)
        | some rule_handle =>
          s2.update s2.cur_read_rule_ (fun r => r.set_rule_handle rule_handle)
    else .error (.RuntimeException, s1)

/-- Body of the `PRIORITY` branch of `read_obj` (line 121). -/
def read_obj_priority (value : Value) (s : Loader) : Run :=
  match value.get_int with
  | .error e => .error (e, s)
  | .ok c => s.update s.cur_read_rule_ (fun r => r.set_cost c)

/-- Body of the `CATEGORY` branch of `read_obj` (line 124). -/
def read_obj_category (value : Value) (s : Loader) : Run :=
  match value.get_str with
  | .error e => .error (e, s)
  | .ok c => s.update s.cur_read_rule_ (fun r => r.set_category c)

/-- Body of the `ATTENTION_ALLOC` branch of `read_obj` (line 127). -/
def read_obj_attention_alloc (value : Value) (s : Loader) : Run :=
  match value.get_bool with
  | .error e => .error (e, s)
  | .ok b => .ok { s with attention_alloc_ := b }

/-- Body of the `LOG_LEVEL` branch of `read_obj` (line 130). -/
def read_obj_log_level (value : Value) (s : Loader) : Run :=
  match value.get_str with
  | .error e => .error (e, s)
  | .ok l => .ok { s with log_level_ := l }

/-- The loop of the `MUTEX_RULES` branch (lines 134-137): for each element the
entry of the current rule is indexed, the element is read as a string and
pushed to the entry (the object expression `rule_mutex_map_[cur_read_rule_]` is
sequenced before the argument of `push_back`). -/
def read_obj_mutex_loop (env : Env) : List Value → Loader → Run
  | [], s => .ok s
  | v :: rest, s =>
    let s1 := { s with rule_mutex_map_ := map_index env.alloc s.cur_read_rule_ s.rule_mutex_map_ }
    match v.get_str with
    | .error e => .error (e, s1)
    | .ok name =>
      read_obj_mutex_loop env rest
        { s1 with rule_mutex_map_ :=
            map_push_back env.alloc s1.cur_read_rule_ name s1.rule_mutex_map_ }

/-- Body of the `MUTEX_RULES` branch of `read_obj` (lines 133-137). -/
def read_obj_mutex_rules (env : Env) (value : Value) (s : Loader) : Run :=
  match value.get_array with
  | .error e => .error (e, s)
  | .ok a => read_obj_mutex_loop env a.toList s

/-- Body of the `MAX_ITER` branch of `read_obj` (line 140). -/
def read_obj_max_iter (value : Value) (s : Loader) : Run :=
  match value.get_int with
  | .error e => .error (e, s)
  | .ok n => .ok { s with max_iter_ := n }

/-- The test `value.type() != null_type`. -/
def Value.is_null : Value → Bool
  | .null => true
  | _ => false

mutual
/-- The member `read_json` (lines 152-175): objects and arrays are walked,
every other value is a leaf. -/
def read_json (env : Env) : Value → Int → Loader → Run
  | .obj o, level, s => read_obj env o (level + 1) s
  | .array a, level, s => read_array env a (level + 1) s
  | .str _, _, s => .ok s
  | .bool _, _, s => .ok s
  | .int _, _, s => .ok s
  | .real _, _, s => .ok s
  | .null, _, s => .ok s
/-- The member `read_array` (lines 93-98), on the elements from position `i`;
`read_json` calls it with an array only, so `get_array` cannot throw. -/
def read_array (env : Env) : Values → Int → Loader → Run
  | .nil, _, s => .ok s
  | .cons v rest, lev, s =>
    match read_json env v (lev + 1) s with
    | .error e => .error e
    | .ok s1 => read_array env rest lev s1
/-- The member `read_obj` (lines 100-150), on the pairs from position `i`;
`read_json` calls it with an object only, so `get_obj` cannot throw.  The
branches are tested in the order of the source, the unreachable second
`LOG_LEVEL` test included. -/
def read_obj (env : Env) : Pairs → Int → Loader → Run
  | .nil, _, s => .ok s
  | .cons key value rest, lev, s =>
    match
      (if key = RULES then read_json env value (lev + 1) s
       else if key = RULE_NAME then read_obj_rule_name value s
       else if key = FILE_PATH then read_obj_file_path env value s
       else if key = PRIORITY then read_obj_priority value s
       else if key = CATEGORY then read_obj_category value s
       else if key = ATTENTION_ALLOC then read_obj_attention_alloc value s
       else if key = LOG_LEVEL then read_obj_log_level value s
       else if key = MUTEX_RULES ∧ value.is_null = false then
         read_obj_mutex_rules env value s
       else if key = MAX_ITER then read_obj_max_iter value s
       else if key = LOG_LEVEL then read_obj_log_level value s
       else read_json env value (lev + 1) s) with
    | .error e => .error e
    | .ok s1 => read_obj env rest lev s1
end

/-- The member `get_rule` on the registry from some position on: the first
rule whose name is `name`, `NULL` if there is none.  Reading the name of a
pointer that points at no rule is fatal. -/
def get_rule_loop (heap : List Rule) (name : String) : List Nat → Except LoadError RulePtr
  | [] => .ok none
  | p :: rest =>
    match heap[p]? with
    | none => .error .segfault
    | some r => if r.get_name = name then .ok (some p) else get_rule_loop heap name rest

/-- The member `get_rule` (lines 204-211). -/
def get_rule (s : Loader) (name : String) : Except LoadError RulePtr :=
  get_rule_loop s.heap name s.rules_

/-- The inner loop of `set_disjunct_rules` (lines 194-200) for one map entry. -/
def set_disjunct_rules_names (cur_rule : RulePtr) : List String → Loader → Run
  | [], s => .ok s
  | name :: rest, s =>
    match get_rule s name with
    | .error e => .error (e, s)
    | .ok none => .error (.invalid_argument name, s)
    | .ok (some r) =>
      match s.update cur_rule (fun c => c.add_disjunct_rule r) with
      | .error e => .error e
      | .ok s1 => set_disjunct_rules_names cur_rule rest s1

/-- The outer loop of `set_disjunct_rules` (line 191) over the map entries. -/
def set_disjunct_rules_loop : List (RulePtr × List String) → Loader → Run
  | [], s => .ok s
  | (cur_rule, mset) :: rest, s =>
    match set_disjunct_rules_names cur_rule mset s with
    | .error e => .error e
    | .ok s1 => set_disjunct_rules_loop rest s1

/-- The member `set_disjunct_rules` (lines 189-202). -/
def set_disjunct_rules (s : Loader) : Run :=
  set_disjunct_rules_loop s.rule_mutex_map_ s

/-- The member `get_absolute_path` (lines 213-229), the loop over the search
paths. -/
def get_absolute_path_loop (env : Env) (filename : String) :
    List String → Except LoadError String
  | [] => .error .RuntimeException
  | search_path :: rest =>
    let modulePath := env.path_join search_path filename
    if env.fs_exists modulePath then .ok modulePath
    else get_absolute_path_loop env filename rest

/-- The member `get_absolute_path` (lines 213-229). -/
def get_absolute_path (env : Env) (filename : String) (search_paths : List String) :
    Except LoadError String :=
  get_absolute_path_loop env filename
    (if search_paths.isEmpty then env.DEFAULT_MODULE_PATHS else search_paths)

/-- The loop `while (reader.read_next(value)) read_json(value);` of
`load_config`. -/
def load_config_loop (env : Env) : List Value → Loader → Run
  | [], s => .ok s
  | value :: rest, s =>
    match read_json env value (-1) s with
    | .error e => .error e
    | .ok s1 => load_config_loop env rest s1

/-- The `try` block of `load_config` (lines 57-62). -/
def load_config_try (env : Env) (s : Loader) : Run :=
  match get_absolute_path env s.conf_path_ [] with
  | .error e => .error (e, s)
  | .ok path =>
    match load_config_loop env (env.stream path).1 s with
    | .error e => .error e
    | .ok s1 =>
      if (env.stream path).2 then .error (.ios_failure, s1)
      else set_disjunct_rules s1

/-- The member `load_config` (lines 54-66): only `ios_base::failure` is caught. -/
def load_config (env : Env) (s : Loader) : Run :=
  match load_config_try env s with
  | .error (.ios_failure, s1) => .ok s1
  | r => r

/-- The member `get_max_iter`. -/
def get_max_iter (s : Loader) : Int := s.max_iter_
/-- The member `get_rules`. -/
def get_rules (s : Loader) : List Nat := s.rules_
/-- The member `get_attention_alloc`. -/
def get_attention_alloc (s : Loader) : Bool := s.attention_alloc_
/-- The member `get_mutex_sets`. -/
def get_mutex_sets (s : Loader) : List (List Nat) := s.mutex_sets_

/-! ## Documents in document order

The recognized keys the walker reaches, in the order in which it reaches them.
This is the vocabulary in which the specification speaks about a document
("the last occurrence", "the `name` keys", "a rule declares `mutex`"). -/

/-- A recognized key reached by the walker, with its value. -/
inductive Event where
  | rule_name (value : Value)
  | file_path (value : Value)
  | priority (value : Value)
  | category (value : Value)
  | attention_alloc (value : Value)
  | log_level (value : Value)
  /-- A `mutex` key whose value is not null. -/
  | mutex_rules (value : Value)
  | max_iter (value : Value)
  /-- A `mutex` key whose value is null: it is handled by the last branch, which
  walks the null value. -/
  | mutex_null

mutual
/-- The recognized keys of a value in depth-first document order: the walk
descends into arrays, into the value of `rules` and into the values of
unrecognized keys (a null `mutex` included). -/
def events : Value → List Event
  | .obj o => events_obj o
  | .array a => events_array a
  | .str _ => []
  | .bool _ => []
  | .int _ => []
  | .real _ => []
  | .null => []
/-- The recognized keys reached in the elements of an array. -/
def events_array : Values → List Event
  | .nil => []
  | .cons v rest => events v ++ events_array rest
/-- The recognized keys reached in the pairs of an object. -/
def events_obj : Pairs → List Event
  | .nil => []
  | .cons key value rest =>
    (if key = RULES then events value
     else if key = RULE_NAME then [.rule_name value]
     else if key = FILE_PATH then [.file_path value]
     else if key = PRIORITY then [.priority value]
     else if key = CATEGORY then [.category value]
     else if key = ATTENTION_ALLOC then [.attention_alloc value]
     else if key = LOG_LEVEL then [.log_level value]
     else if key = MUTEX_RULES ∧ value.is_null = false then [.mutex_rules value]
     else if key = MAX_ITER then [.max_iter value]
     else if key = MUTEX_RULES then [.mutex_null]
     else events value) ++ events_obj rest
end

/-- The recognized keys reached in a sequence of top-level values. -/
def doc_events : List Value → List Event
  | [] => []
  | v :: rest => events v ++ doc_events rest

/-- The effect of one recognized key: the body of its branch in `read_obj`. -/
def Event.apply (env : Env) : Event → Loader → Run
  | .rule_name v, s => read_obj_rule_name v s
  | .file_path v, s => read_obj_file_path env v s
  | .priority v, s => read_obj_priority v s
  | .category v, s => read_obj_category v s
  | .attention_alloc v, s => read_obj_attention_alloc v s
  | .log_level v, s => read_obj_log_level v s
  | .mutex_rules v, s => read_obj_mutex_rules env v s
  | .max_iter v, s => read_obj_max_iter v s
  | .mutex_null, s => .ok s

/-- The effect of a sequence of recognized keys, stopping at the first error. -/
def run_events (env : Env) : List Event → Loader → Run
  | [], s => .ok s
  | e :: rest, s =>
    match e.apply env s with
    | .error x => .error x
    | .ok s1 => run_events env rest s1

/-- The state a run ends in, whether it returns or throws. -/
def Run.state : Run → Loader
  | .ok s => s
  | .error (_, s) => s

/-! ## Frames -/

/-- A rule without its links to other rules. -/
def Rule.clear_links (r : Rule) : Rule := { r with disjunct_rules_ := [] }

/-- The members of the loader object itself, without the rule objects. -/
def Loader.members (s : Loader) : Loader := { s with heap := [] }

/-- What a run of the resolver may change: it only appends to the
`disjunct_rules_` of allocated rules. -/
def ResolverFrame (s s1 : Loader) : Prop :=
  s1.members = s.members ∧
  s1.heap.map Rule.clear_links = s.heap.map Rule.clear_links ∧
  ∀ (i : Nat) (r : Rule), s.heap[i]? = some r →
    ∃ r1 : Rule, s1.heap[i]? = some r1 ∧ r.disjunct_rules_ <+: r1.disjunct_rules_

/-- The name a registry entry carries. -/
def Loader.name_of (s : Loader) (p : Nat) : Option String :=
  (s.deref (some p)).map Rule.get_name

/-- The links a registry entry carries. -/
def Loader.disjunct_rules_of (s : Loader) (p : Nat) : Option (List Nat) :=
  (s.deref (some p)).map Rule.disjunct_rules_

/-! ## Sample documents and collaborators -/

/-- An object from the list of its pairs. -/
def Pairs.ofList : List (String × Value) → Pairs
  | [] => .nil
  | (k, v) :: rest => .cons k v (Pairs.ofList rest)

/-- An array from the list of its elements. -/
def Values.ofList : List Value → Values
  | [] => .nil
  | v :: rest => .cons v (Values.ofList rest)

/-- An allocator handing out increasing addresses. -/
def sample_alloc : Allocator :=
  ⟨fun n => n + 1, fun n => Nat.succ_ne_zero n, fun _ _ h => Nat.succ.inj h⟩

/-- Collaborators for which every file exists and every evaluation succeeds;
the configuration file holds the values `docs`. -/
def sample_env (docs : List Value) : Env :=
  { alloc := sample_alloc
    load_scm_file_relative := fun _ _ => true
    eval_h := fun _ _ => some (some 7)
    fs_exists := fun _ => true
    path_join := fun a b => a ++ "/" ++ b
    DEFAULT_MODULE_PATHS := ["."]
    stream := fun _ => (docs, false) }

/-- A freshly constructed loader. -/
def sample_loader : Loader := JsonicControlPolicyParamLoader "policy.json" 0 false

/-- The round-trip document of the specification:
`{rules:[{name:"R1",priority:5,category:"fc"},{name:"R2",priority:1,mutex:["R1"]}]}`. -/
def round_trip_doc : Value :=
  .obj (Pairs.ofList [("rules", .array (Values.ofList [
    .obj (Pairs.ofList [("name", .str "R1"), ("priority", .int 5), ("category", .str "fc")]),
    .obj (Pairs.ofList [("name", .str "R2"), ("priority", .int 1),
      ("mutex", .array (Values.ofList [.str "R1"]))])]))])

/-- A document whose rule `R1` names itself and then an undeclared rule:
`{rules:[{name:"R1",mutex:["R1","R9"]}]}`. -/
def dangling_doc : Value :=
  .obj (Pairs.ofList [("rules", .array (Values.ofList [
    .obj (Pairs.ofList [("name", .str "R1"),
      ("mutex", .array (Values.ofList [.str "R1", .str "R9"]))])]))])

/-- A document whose rule `R1` lists its own name:
`{rules:[{name:"R1",mutex:["R1"]}]}`. -/
def self_mutex_doc : Value :=
  .obj (Pairs.ofList [("rules", .array (Values.ofList [
    .obj (Pairs.ofList [("name", .str "R1"),
      ("mutex", .array (Values.ofList [.str "R1"]))])]))])

/-! ## State changes of the recognized keys -/

/-- The statement `rule_mutex_map_[k].push_back(name)`. -/
def map_add (al : Allocator) (k : RulePtr) (m : List (RulePtr × List String))
    (name : String) : List (RulePtr × List String) :=
  map_push_back al k name (map_index al k m)

/-- The state after a `name` key with string value `n`. -/
def Loader.declare (s : Loader) (n : String) : Loader :=
  { s with heap := s.heap ++ [(Rule.new none).set_name n],
           cur_read_rule_ := some s.heap.length,
           rules_ := s.rules_ ++ [s.heap.length] }

/-- The state after a setter `f` was applied to the rule at position `i`,
which is `r`. -/
def Loader.assign (s : Loader) (i : Nat) (r : Rule) : Loader :=
  { s with heap := s.heap.set i r }

/-- Is the key a `name` key. -/
def Event.is_rule_name : Event → Bool
  | .rule_name _ => true
  | _ => false

/-- Is the key a (non-null) `mutex` key. -/
def Event.is_mutex_rules : Event → Bool
  | .mutex_rules _ => true
  | _ => false

/-- Is the key a `max-iteration` key. -/
def Event.is_max_iter : Event → Bool
  | .max_iter _ => true
  | _ => false

/-- Is the key an `attention-allocation` key. -/
def Event.is_attention_alloc : Event → Bool
  | .attention_alloc _ => true
  | _ => false

/-- Is the key a `log-level` key. -/
def Event.is_log_level : Event → Bool
  | .log_level _ => true
  | _ => false

/-- What a recognized key other than `name` leaves alone when it succeeds. -/
structure KeyFrame (e : Event) (s s1 : Loader) : Prop where
  rules_eq : s1.rules_ = s.rules_
  cur_eq : s1.cur_read_rule_ = s.cur_read_rule_
  names_eq : s1.heap.map Rule.name_ = s.heap.map Rule.name_
  links_eq : s1.heap.map Rule.disjunct_rules_ = s.heap.map Rule.disjunct_rules_
  mutex_sets_eq : s1.mutex_sets_ = s.mutex_sets_
  conf_path_eq : s1.conf_path_ = s.conf_path_
  map_eq : e.is_mutex_rules = false → s1.rule_mutex_map_ = s.rule_mutex_map_
  max_iter_eq : e.is_max_iter = false → s1.max_iter_ = s.max_iter_
  attention_alloc_eq : e.is_attention_alloc = false → s1.attention_alloc_ = s.attention_alloc_
  log_level_eq : e.is_log_level = false → s1.log_level_ = s.log_level_

/-- The values of the `name` keys the walker reaches, in document order. -/
def name_values : List Event → List Value
  | [] => []
  | .rule_name v :: rest => v :: name_values rest
  | _ :: rest => name_values rest

/-! ## The exclusion declaration map -/

/-- The entry of a key in the map (`std::map::find`), by pointer identity. -/
def map_find (k : RulePtr) : List (RulePtr × List String) → Option (List String)
  | [] => none
  | (k1, ns) :: rest => if k1 = k then some ns else map_find k rest

/-- The entries of a `std::map` are in strictly increasing key order. -/
def MapSorted (al : Allocator) (m : List (RulePtr × List String)) : Prop :=
  m.Pairwise (fun a b => al.keyAddr a.1 < al.keyAddr b.1)

/-! ## Declarations of a document, rule by rule -/

/-- The string payload of a value, if it is a string. -/
def Value.str? : Value → Option String
  | .str s => some s
  | _ => none

/-- The names a `mutex` value lists: the strings of its array. -/
def mutex_names : Value → List String
  | .array a => a.toList.filterMap Value.str?
  | _ => []

/-- The names listed by a (non-null) `mutex` key; empty for every other key. -/
def Event.mutex_names : Event → List String
  | .mutex_rules v => ControlPolicy.mutex_names v
  | _ => []

/-- All names listed by the `mutex` keys of a document. -/
def all_mutex_names : List Event → List String
  | [] => []
  | e :: rest => e.mutex_names ++ all_mutex_names rest

/-- The keys met while the rule declared by the `a`-th `name` key (counting from
zero) is the current rule: those that follow that key, up to the next `name`
key. -/
def rule_keys : List Event → Nat → List Event
  | [], _ => []
  | .rule_name _ :: rest, 0 => rest.takeWhile (fun e => !e.is_rule_name)
  | .rule_name _ :: rest, a + 1 => rule_keys rest a
  | _ :: rest, a => rule_keys rest a

/-- The names pushed to the map entry of `k` by a walk that starts with current
rule `cur` and `n` allocated rules. -/
def pushed : List Event → RulePtr → Nat → RulePtr → List String
  | [], _, _, _ => []
  | .rule_name _ :: rest, _, n, k => pushed rest (some n) (n + 1) k
  | .mutex_rules v :: rest, cur, n, k =>
    (if cur = k then mutex_names v else []) ++ pushed rest cur n k
  | _ :: rest, cur, n, k => pushed rest cur n k

/-- An entry after more names were pushed to it. -/
def entry_extend (old : Option (List String)) (names : List String) :
    Option (List String) :=
  if names = [] then old else some (old.getD [] ++ names)

/-- The rules a list of names resolves to, in order (names that do not resolve
are skipped). -/
def link_targets (s : Loader) (ns : List String) : List Nat :=
  ns.filterMap (fun n =>
    match get_rule s n with
    | .ok (some p) => some p
    | _ => none)

/-- Is the error the stream failure, the only one `load_config` catches. -/
def LoadError.is_ios_failure : LoadError → Bool
  | .ios_failure => true
  | _ => false

/-- A document in which the rule `R1` declares `mutex: ["R2", "R3"]`:
`{rules:[{name:"R1",mutex:["R2","R3"]},{name:"R2"},{name:"R3"}]}`. -/
def two_mutex_doc : Value :=
  .obj (Pairs.ofList [("rules", .array (Values.ofList [
    .obj (Pairs.ofList [("name", .str "R1"),
      ("mutex", .array (Values.ofList [.str "R2", .str "R3"]))]),
    .obj (Pairs.ofList [("name", .str "R2")]),
    .obj (Pairs.ofList [("name", .str "R3")])]))])

/-- The loader after `load_config` on `two_mutex_doc`. -/
def two_mutex_loaded : Loader :=
  { heap := [Rule.mk none "R1" "" none [1, 2], Rule.mk none "R2" "" none [],
      Rule.mk none "R3" "" none []]
    conf_path_ := "policy.json"
    cur_read_rule_ := some 2
    rules_ := [0, 1, 2]
    rule_mutex_map_ := [(some 0, ["R2", "R3"])]
    mutex_sets_ := []
    max_iter_ := 0
    attention_alloc_ := false
    log_level_ := ""
    calls := [] }

/-- Outcomes can be compared. -/
instance instDecidableEqRun : DecidableEq Run := fun a b =>
  match a, b with
  | .ok x, .ok y =>
    if h : x = y then isTrue (by rw [h]) else isFalse (by intro h1; cases h1; exact h rfl)
  | .error x, .error y =>
    if h : x = y then isTrue (by rw [h]) else isFalse (by intro h1; cases h1; exact h rfl)
  | .ok _, .error _ => isFalse (by intro h; cases h)
  | .error _, .ok _ => isFalse (by intro h; cases h)

/-- The loader after the walk of `dangling_doc`. -/
def dangling_walked : Loader :=
  { heap := [Rule.mk none "R1" "" none []]
    conf_path_ := "policy.json"
    cur_read_rule_ := some 0
    rules_ := [0]
    rule_mutex_map_ := [(some 0, ["R1", "R9"])]
    mutex_sets_ := []
    max_iter_ := 0
    attention_alloc_ := false
    log_level_ := ""
    calls := [] }

/-- The loader at the `throw` of `load_config` on `dangling_doc`. -/
def dangling_failed : Loader :=
  { heap := [Rule.mk none "R1" "" none [0]]
    conf_path_ := "policy.json"
    cur_read_rule_ := some 0
    rules_ := [0]
    rule_mutex_map_ := [(some 0, ["R1", "R9"])]
    mutex_sets_ := []
    max_iter_ := 0
    attention_alloc_ := false
    log_level_ := ""
    calls := [] }

/-- The loader after `load_config` on `round_trip_doc`. -/
def round_trip_loaded : Loader :=
  { heap := [Rule.mk none "R1" "fc" (some 5) [], Rule.mk none "R2" "" (some 1) [0]]
    conf_path_ := "policy.json"
    cur_read_rule_ := some 1
    rules_ := [0, 1]
    rule_mutex_map_ := [(some 1, ["R1"])]
    mutex_sets_ := []
    max_iter_ := 0
    attention_alloc_ := false
    log_level_ := ""
    calls := [] }

/-- The loader after `load_config` on `self_mutex_doc`. -/
def self_mutex_loaded : Loader :=
  { heap := [Rule.mk none "R1" "" none [0]]
    conf_path_ := "policy.json"
    cur_read_rule_ := some 0
    rules_ := [0]
    rule_mutex_map_ := [(some 0, ["R1"])]
    mutex_sets_ := []
    max_iter_ := 0
    attention_alloc_ := false
    log_level_ := ""
    calls := [] }

/-- A document that sets each global parameter twice:
`{max-iteration:3, log-level:"info", attention-allocation:false,
  max-iteration:7, attention-allocation:true, log-level:"debug"}`. -/
def twice_doc : Value :=
  .obj (Pairs.ofList [("max-iteration", .int 3), ("log-level", .str "info"),
    ("attention-allocation", .bool false), ("max-iteration", .int 7),
    ("attention-allocation", .bool true), ("log-level", .str "debug")])

/-- The loader after the walk of `twice_doc`. -/
def twice_walked : Loader :=
  { heap := []
    conf_path_ := "policy.json"
    cur_read_rule_ := none
    rules_ := []
    rule_mutex_map_ := []
    mutex_sets_ := []
    max_iter_ := 7
    attention_alloc_ := true
    log_level_ := "debug"
    calls := [] }

/-- The nine recognized field names. -/
def recognized_keys : List String :=
  [RULES, RULE_NAME, FILE_PATH, PRIORITY, CATEGORY, ATTENTION_ALLOC, LOG_LEVEL, MUTEX_RULES,
    MAX_ITER]

/-- Is the value a scalar (string, bool, integer, real) or null. -/
def Value.is_scalar : Value → Bool
  | .obj _ => false
  | .array _ => false
  | _ => true

/-- Is the key a `mutex` key (with a null or a non-null value). -/
def Event.is_mutex_key : Event → Bool
  | .mutex_rules _ => true
  | .mutex_null => true
  | _ => false

/-- Is the key a `mutex` key whose value is the empty array or null. -/
def Event.is_empty_or_null_mutex : Event → Bool
  | .mutex_rules (.array .nil) => true
  | .mutex_null => true
  | _ => false

/-- A document whose rule `R1` declares `mutex: []` and `mutex: null`:
`{rules:[{name:"R1",mutex:[],mutex:null},{name:"R2",mutex:["R1"]}]}`. -/
def empty_mutex_doc : Value :=
  .obj (Pairs.ofList [("rules", .array (Values.ofList [
    .obj (Pairs.ofList [("name", .str "R1"), ("mutex", .array .nil), ("mutex", .null)]),
    .obj (Pairs.ofList [("name", .str "R2"),
      ("mutex", .array (Values.ofList [.str "R1"]))])]))])

/-- The loader after the walk of `empty_mutex_doc`. -/
def empty_mutex_walked : Loader :=
  { heap := [Rule.mk none "R1" "" none [], Rule.mk none "R2" "" none []]
    conf_path_ := "policy.json"
    cur_read_rule_ := some 1
    rules_ := [0, 1]
    rule_mutex_map_ := [(some 1, ["R1"])]
    mutex_sets_ := []
    max_iter_ := 0
    attention_alloc_ := false
    log_level_ := ""
    calls := [] }

/-- No allocated rule has a link yet. -/
def NoLinks (s : Loader) : Prop := ∀ r ∈ s.heap, r.disjunct_rules_ = []

/-- A loader whose registry holds two rules named `A`, the second declared
after a rule named `B`. -/
def duplicate_loader : Loader :=
  { heap := [Rule.mk none "A" "" (some 1) [], Rule.mk none "B" "" none [],
      Rule.mk none "A" "" (some 2) []]
    conf_path_ := "policy.json"
    cur_read_rule_ := some 2
    rules_ := [0, 1, 2]
    rule_mutex_map_ := []
    mutex_sets_ := []
    max_iter_ := 0
    attention_alloc_ := false
    log_level_ := ""
    calls := [] }

/-- The search directories of a call of `get_absolute_path`: the default module
paths stand in for an empty list. -/
def effective_search_paths (env : Env) (search_paths : List String) : List String :=
  if search_paths.isEmpty then env.DEFAULT_MODULE_PATHS else search_paths

/-- The loader after the walk of `round_trip_doc`, before reference
resolution. -/
def round_trip_walked : Loader :=
  { heap := [Rule.mk none "R1" "fc" (some 5) [], Rule.mk none "R2" "" (some 1) []]
    conf_path_ := "policy.json"
    cur_read_rule_ := some 1
    rules_ := [0, 1]
    rule_mutex_map_ := [(some 1, ["R1"])]
    mutex_sets_ := []
    max_iter_ := 0
    attention_alloc_ := false
    log_level_ := ""
    calls := [] }

/-- A loader in which the rule `R1` has just been declared. -/
def one_rule_loader : Loader :=
  { heap := [Rule.mk none "R1" "" none []]
    conf_path_ := "policy.json"
    cur_read_rule_ := some 0
    rules_ := [0]
    rule_mutex_map_ := []
    mutex_sets_ := []
    max_iter_ := 0
    attention_alloc_ := false
    log_level_ := ""
    calls := [] }

/-- The invariant of the walker: the current rule is `NULL` exactly when the
registry is empty and otherwise is the last rule of the registry, and every key
of the exclusion map is `NULL` or a rule of the registry. -/
def WalkerInv (s : Loader) : Prop :=
  (s.cur_read_rule_ = none ↔ s.rules_ = []) ∧
  (s.rules_ ≠ [] → s.cur_read_rule_ = s.rules_.getLast?) ∧
  (∀ e ∈ s.rule_mutex_map_, e.1 = none ∨ ∃ p, e.1 = some p ∧ p ∈ s.rules_)

/-- A document whose second rule object starts with `priority`:
`{rules:[{name:"R1"},{priority:7,name:"R2"}]}`. -/
def priority_first_doc : Value :=
  .obj (Pairs.ofList [("rules", .array (Values.ofList [
    .obj (Pairs.ofList [("name", .str "R1")]),
    .obj (Pairs.ofList [("priority", .int 7), ("name", .str "R2")])]))])

/-- The loader after the walk of `priority_first_doc`: the cost went to `R1`. -/
def priority_first_walked : Loader :=
  { heap := [Rule.mk none "R1" "" (some 7) [], Rule.mk none "R2" "" none []]
    conf_path_ := "policy.json"
    cur_read_rule_ := some 1
    rules_ := [0, 1]
    rule_mutex_map_ := []
    mutex_sets_ := []
    max_iter_ := 0
    attention_alloc_ := false
    log_level_ := ""
    calls := [] }

/-- A document that declares the name `R1` twice and the empty name once:
`{rules:[{name:"R1"},{name:"R1"},{name:""}]}`. -/
def duplicate_doc : Value :=
  .obj (Pairs.ofList [("rules", .array (Values.ofList [
    .obj (Pairs.ofList [("name", .str "R1")]),
    .obj (Pairs.ofList [("name", .str "R1")]),
    .obj (Pairs.ofList [("name", .str "")])]))])

/-- The loader after `load_config` on `duplicate_doc`. -/
def duplicate_loaded : Loader :=
  { heap := [Rule.mk none "R1" "" none [], Rule.mk none "R1" "" none [],
      Rule.mk none "" "" none []]
    conf_path_ := "policy.json"
    cur_read_rule_ := some 2
    rules_ := [0, 1, 2]
    rule_mutex_map_ := []
    mutex_sets_ := []
    max_iter_ := 0
    attention_alloc_ := false
    log_level_ := ""
    calls := [] }

/-- Does the key use the current rule: `file`, `priority`, `category`, and a
`mutex` key whose value is anything but the empty array (over the empty array
the loop of the `mutex` branch does not run). -/
def Event.needs_rule : Event → Bool
  | .file_path _ => true
  | .priority _ => true
  | .category _ => true
  | .mutex_rules (.array .nil) => false
  | .mutex_rules _ => true
  | _ => false

/-- A document with an empty `mutex` array before any rule is declared:
`{mutex:[], rules:[{name:"R1"}]}`. -/
def mutex_first_doc : Value :=
  .obj (Pairs.ofList [("mutex", .array .nil), ("rules", .array (Values.ofList [
    .obj (Pairs.ofList [("name", .str "R1")])]))])

/-- A document with a `priority` key before any rule is declared:
`{priority:3, rules:[{name:"R1"}]}`. -/
def priority_before_name_doc : Value :=
  .obj (Pairs.ofList [("priority", .int 3), ("rules", .array (Values.ofList [
    .obj (Pairs.ofList [("name", .str "R1")])]))])

/-- Two loaders agree on the rule objects, the registry, the current rule and
the calls made to the evaluator (they may differ in the order of the exclusion
map and in the global parameters). -/
def SameRules (s t : Loader) : Prop :=
  t.heap = s.heap ∧ t.rules_ = s.rules_ ∧ t.cur_read_rule_ = s.cur_read_rule_ ∧
  t.calls = s.calls

/-- An allocator that places the even-numbered rules above their odd-numbered
successors (rule 0 at address 2, rule 1 at address 1, ...). -/
def swapped_alloc : Allocator :=
  ⟨fun n => if n % 2 = 0 then n + 2 else n,
   fun n => by
     by_cases h : n % 2 = 0
     · simp only [if_pos h]; omega
     · simp only [if_neg h]; omega,
   fun m n => by
     by_cases hm : m % 2 = 0 <;> by_cases hn : n % 2 = 0 <;>
       simp only [hm, hn, if_true, if_false] <;> omega⟩

/-- A document in which two rules list each other:
`{rules:[{name:"R1",mutex:["R2"]},{name:"R2",mutex:["R1"]}]}`. -/
def mutual_doc : Value :=
  .obj (Pairs.ofList [("rules", .array (Values.ofList [
    .obj (Pairs.ofList [("name", .str "R1"),
      ("mutex", .array (Values.ofList [.str "R2"]))]),
    .obj (Pairs.ofList [("name", .str "R2"),
      ("mutex", .array (Values.ofList [.str "R1"]))])]))])

/-- The loader after `load_config` on `mutual_doc` with `sample_alloc`. -/
def mutual_loaded : Loader :=
  { heap := [Rule.mk none "R1" "" none [1], Rule.mk none "R2" "" none [0]]
    conf_path_ := "policy.json"
    cur_read_rule_ := some 1
    rules_ := [0, 1]
    rule_mutex_map_ := [(some 0, ["R2"]), (some 1, ["R1"])]
    mutex_sets_ := []
    max_iter_ := 0
    attention_alloc_ := false
    log_level_ := ""
    calls := [] }

/-! ## The walker is the fold of its recognized keys -/

theorem run_events_append (env : Env) (a b : List Event) (s : Loader) :
    run_events env (a ++ b) s =
      match run_events env a s with
      | .error x => .error x
      | .ok s1 => run_events env b s1 := by
  induction a generalizing s with
  | nil => rfl
  | cons e a ih =>
    simp only [List.cons_append, run_events]
    cases e.apply env s with
    | error x => rfl
    | ok s1 => exact ih s1

theorem run_events_singleton (env : Env) (e : Event) (s : Loader) :
    run_events env [e] s = e.apply env s := by
  simp only [run_events]
  cases e.apply env s <;> rfl

theorem read_obj_cons (env : Env) (key : String) (value : Value) (rest : Pairs) (lev : Int)
    (s : Loader) :
    read_obj env (.cons key value rest) lev s =
    match
      (if key = RULES then read_json env value (lev + 1) s
       else if key = RULE_NAME then read_obj_rule_name value s
       else if key = FILE_PATH then read_obj_file_path env value s
       else if key = PRIORITY then read_obj_priority value s
       else if key = CATEGORY then read_obj_category value s
       else if key = ATTENTION_ALLOC then read_obj_attention_alloc value s
       else if key = LOG_LEVEL then read_obj_log_level value s
       else if key = MUTEX_RULES ∧ value.is_null = false then
         read_obj_mutex_rules env value s
       else if key = MAX_ITER then read_obj_max_iter value s
       else if key = LOG_LEVEL then read_obj_log_level value s
       else read_json env value (lev + 1) s) with
    | .error e => .error e
    | .ok s1 => read_obj env rest lev s1 := by
  rw [read_obj]

theorem events_obj_cons (key : String) (value : Value) (rest : Pairs) :
    events_obj (.cons key value rest) =
    (if key = RULES then events value
     else if key = RULE_NAME then [.rule_name value]
     else if key = FILE_PATH then [.file_path value]
     else if key = PRIORITY then [.priority value]
     else if key = CATEGORY then [.category value]
     else if key = ATTENTION_ALLOC then [.attention_alloc value]
     else if key = LOG_LEVEL then [.log_level value]
     else if key = MUTEX_RULES ∧ value.is_null = false then [.mutex_rules value]
     else if key = MAX_ITER then [.max_iter value]
     else if key = MUTEX_RULES then [.mutex_null]
     else events value) ++ events_obj rest := by
  rw [events_obj]


theorem read_obj_dispatch (env : Env) (key : String) (value : Value) (lev : Int) (s : Loader)
    (ih : read_json env value (lev + 1) s = run_events env (events value) s) :
    (if key = RULES then read_json env value (lev + 1) s
       else if key = RULE_NAME then read_obj_rule_name value s
       else if key = FILE_PATH then read_obj_file_path env value s
       else if key = PRIORITY then read_obj_priority value s
       else if key = CATEGORY then read_obj_category value s
       else if key = ATTENTION_ALLOC then read_obj_attention_alloc value s
       else if key = LOG_LEVEL then read_obj_log_level value s
       else if key = MUTEX_RULES ∧ value.is_null = false then
         read_obj_mutex_rules env value s
       else if key = MAX_ITER then read_obj_max_iter value s
       else if key = LOG_LEVEL then read_obj_log_level value s
       else read_json env value (lev + 1) s) =
    run_events env (if key = RULES then events value
     else if key = RULE_NAME then [.rule_name value]
     else if key = FILE_PATH then [.file_path value]
     else if key = PRIORITY then [.priority value]
     else if key = CATEGORY then [.category value]
     else if key = ATTENTION_ALLOC then [.attention_alloc value]
     else if key = LOG_LEVEL then [.log_level value]
     else if key = MUTEX_RULES ∧ value.is_null = false then [.mutex_rules value]
     else if key = MAX_ITER then [.max_iter value]
     else if key = MUTEX_RULES then [.mutex_null]
     else events value) s := by
  by_cases h1 : key = RULES
  · simp only [if_pos h1, ih]
  simp only [if_neg h1]
  by_cases h2 : key = RULE_NAME
  · simp only [if_pos h2, run_events_singleton, Event.apply]
  simp only [if_neg h2]
  by_cases h3 : key = FILE_PATH
  · simp only [if_pos h3, run_events_singleton, Event.apply]
  simp only [if_neg h3]
  by_cases h4 : key = PRIORITY
  · simp only [if_pos h4, run_events_singleton, Event.apply]
  simp only [if_neg h4]
  by_cases h5 : key = CATEGORY
  · simp only [if_pos h5, run_events_singleton, Event.apply]
  simp only [if_neg h5]
  by_cases h6 : key = ATTENTION_ALLOC
  · simp only [if_pos h6, run_events_singleton, Event.apply]
  simp only [if_neg h6]
  by_cases h7 : key = LOG_LEVEL
  · simp only [if_pos h7, run_events_singleton, Event.apply]
  simp only [if_neg h7]
  by_cases h8 : key = MUTEX_RULES ∧ value.is_null = false
  · simp only [if_pos h8, run_events_singleton, Event.apply]
  simp only [if_neg h8]
  by_cases h9 : key = MAX_ITER
  · simp only [if_pos h9, run_events_singleton, Event.apply]
  simp only [if_neg h9]
  by_cases h10 : key = MUTEX_RULES
  · simp only [if_pos h10, run_events_singleton, Event.apply]
    have hnull : value = .null := by
      cases value <;> first | rfl | exact absurd ⟨h10, rfl⟩ h8
    rw [hnull, read_json]
  simp only [if_neg h10]
  exact ih

mutual
theorem read_json_eq_run_events (env : Env) :
    ∀ (v : Value) (lev : Int) (s : Loader),
      read_json env v lev s = run_events env (events v) s
  | .obj o, lev, s => by
    rw [read_json, events]; exact read_obj_eq_run_events env o (lev + 1) s
  | .array a, lev, s => by
    rw [read_json, events]; exact read_array_eq_run_events env a (lev + 1) s
  | .str _, _, _ => by rw [read_json, events, run_events]
  | .bool _, _, _ => by rw [read_json, events, run_events]
  | .int _, _, _ => by rw [read_json, events, run_events]
  | .real _, _, _ => by rw [read_json, events, run_events]
  | .null, _, _ => by rw [read_json, events, run_events]
theorem read_array_eq_run_events (env : Env) :
    ∀ (a : Values) (lev : Int) (s : Loader),
      read_array env a lev s = run_events env (events_array a) s
  | .nil, _, _ => by rw [read_array, events_array, run_events]
  | .cons v rest, lev, s => by
    rw [read_array, events_array, run_events_append,
      read_json_eq_run_events env v (lev + 1) s]
    cases run_events env (events v) s with
    | error x => rfl
    | ok s1 => exact read_array_eq_run_events env rest lev s1
theorem read_obj_eq_run_events (env : Env) :
    ∀ (o : Pairs) (lev : Int) (s : Loader),
      read_obj env o lev s = run_events env (events_obj o) s
  | .nil, _, _ => by rw [read_obj, events_obj, run_events]
  | .cons key value rest, lev, s => by
    have ih := read_json_eq_run_events env value (lev + 1) s
    rw [read_obj_cons, events_obj_cons, run_events_append,
      read_obj_dispatch env key value lev s ih]
    cases run_events env _ s with
    | error x => rfl
    | ok s1 => exact read_obj_eq_run_events env rest lev s1
end

theorem load_config_loop_eq_run_events (env : Env) (docs : List Value) (s : Loader) :
    load_config_loop env docs s = run_events env (doc_events docs) s := by
  induction docs generalizing s with
  | nil => rfl
  | cons v rest ih =>
    rw [load_config_loop, doc_events, run_events_append,
      read_json_eq_run_events env v (-1) s]
    cases run_events env (events v) s with
    | error x => rfl
    | ok s1 => exact ih s1

/-! ## Setters -/

theorem map_set_of_proj_eq {α β : Type} (g : α → β) (l : List α) (i : Nat) (r x : α)
    (h : l[i]? = some r) (hg : g x = g r) : (l.set i x).map g = l.map g := by
  rw [List.map_set, hg]
  apply List.ext_getElem?
  intro j
  rw [List.getElem?_set]
  by_cases hij : i = j
  · subst hij
    rcases List.getElem?_eq_some_iff.mp h with ⟨hlt, heq⟩
    simp [hlt, ← heq]
  · simp [hij]

theorem Loader.update_ok {s s1 : Loader} {p : RulePtr} {f : Rule → Rule}
    (h : s.update p f = .ok s1) :
    ∃ i r, p = some i ∧ s.heap[i]? = some r ∧ s1 = { s with heap := s.heap.set i (f r) } := by
  unfold Loader.update at h
  cases p with
  | none => simp at h
  | some i =>
    cases hr : s.heap[i]? with
    | none => simp [hr] at h
    | some r =>
      simp only [hr, Except.ok.injEq] at h
      exact ⟨i, r, rfl, hr, h.symm⟩

theorem Loader.update_error {s : Loader} {p : RulePtr} {f : Rule → Rule}
    {x : LoadError × Loader} (h : s.update p f = .error x) : x = (.segfault, s) := by
  unfold Loader.update at h
  cases p with
  | none => simp at h; exact h.symm
  | some i =>
    cases hr : s.heap[i]? with
    | none => simp [hr] at h; exact h.symm
    | some r => simp [hr] at h

/-! ## The resolver only appends links -/

theorem ResolverFrame.refl (s : Loader) : ResolverFrame s s :=
  ⟨rfl, rfl, fun _ r h => ⟨r, h, List.prefix_refl _⟩⟩

theorem ResolverFrame.trans {s s1 s2 : Loader} (h1 : ResolverFrame s s1)
    (h2 : ResolverFrame s1 s2) : ResolverFrame s s2 := by
  refine ⟨h2.1.trans h1.1, h2.2.1.trans h1.2.1, ?_⟩
  intro i r hr
  rcases h1.2.2 i r hr with ⟨r1, hr1, hp1⟩
  rcases h2.2.2 i r1 hr1 with ⟨r2, hr2, hp2⟩
  exact ⟨r2, hr2, hp1.trans hp2⟩

theorem ResolverFrame.of_update {s s1 : Loader} {k : RulePtr} {p : Nat}
    (h : s.update k (fun c => c.add_disjunct_rule p) = .ok s1) : ResolverFrame s s1 := by
  rcases Loader.update_ok h with ⟨i, r, _, hr, rfl⟩
  refine ⟨rfl, ?_, ?_⟩
  · exact map_set_of_proj_eq Rule.clear_links s.heap i r _ hr rfl
  · intro j r0 hr0
    simp only [List.getElem?_set]
    by_cases hij : i = j
    · subst hij
      rcases List.getElem?_eq_some_iff.mp hr with ⟨hlt, _⟩
      rw [hr] at hr0
      cases hr0
      exact ⟨r.add_disjunct_rule p, by simp [hlt], by simp [Rule.add_disjunct_rule]⟩
    · exact ⟨r0, by simp [hij, hr0], List.prefix_refl _⟩

theorem set_disjunct_rules_names_frame (k : RulePtr) (ns : List String) (s : Loader) :
    ResolverFrame s (set_disjunct_rules_names k ns s).state := by
  induction ns generalizing s with
  | nil => exact ResolverFrame.refl s
  | cons name rest ih =>
    rw [set_disjunct_rules_names]
    cases hg : get_rule s name with
    | error e => exact ResolverFrame.refl s
    | ok r =>
      cases r with
      | none => exact ResolverFrame.refl s
      | some p =>
        simp only
        cases hu : s.update k (fun c => c.add_disjunct_rule p) with
        | error x =>
          rw [Loader.update_error hu]
          exact ResolverFrame.refl s
        | ok s1 => exact (ResolverFrame.of_update hu).trans (ih s1)

theorem set_disjunct_rules_loop_frame (m : List (RulePtr × List String)) (s : Loader) :
    ResolverFrame s (set_disjunct_rules_loop m s).state := by
  induction m generalizing s with
  | nil => exact ResolverFrame.refl s
  | cons entry rest ih =>
    rcases entry with ⟨k, ns⟩
    rw [set_disjunct_rules_loop]
    have h1 := set_disjunct_rules_names_frame k ns s
    cases hn : set_disjunct_rules_names k ns s with
    | error x =>
      rw [hn] at h1
      exact h1
    | ok s1 =>
      rw [hn] at h1
      exact h1.trans (ih s1)

theorem set_disjunct_rules_frame (s : Loader) :
    ResolverFrame s (set_disjunct_rules s).state :=
  set_disjunct_rules_loop_frame s.rule_mutex_map_ s

/-! ## What each recognized key does when it succeeds -/

theorem read_obj_rule_name_ok {v : Value} {s s1 : Loader}
    (h : read_obj_rule_name v s = .ok s1) :
    ∃ n, v = .str n ∧ s1 = s.declare n := by
  unfold read_obj_rule_name at h
  cases v with
  | str n =>
    refine ⟨n, rfl, ?_⟩
    simp only [Value.get_str, Loader.update, Run.andThen, List.getElem?_concat_length,
      Except.ok.injEq] at h
    rw [← h]
    simp [Loader.declare, List.set_append_right]
  | _ => simp [Value.get_str] at h

theorem read_obj_priority_ok {v : Value} {s s1 : Loader}
    (h : read_obj_priority v s = .ok s1) :
    ∃ n i r, v = .int n ∧ s.cur_read_rule_ = some i ∧ s.heap[i]? = some r ∧
      s1 = s.assign i (r.set_cost (toInt32 n)) := by
  unfold read_obj_priority at h
  cases v with
  | int n =>
    simp only [Value.get_int] at h
    rcases Loader.update_ok h with ⟨i, r, hi, hr, rfl⟩
    exact ⟨n, i, r, rfl, hi, hr, rfl⟩
  | _ => simp [Value.get_int] at h

theorem read_obj_category_ok {v : Value} {s s1 : Loader}
    (h : read_obj_category v s = .ok s1) :
    ∃ c i r, v = .str c ∧ s.cur_read_rule_ = some i ∧ s.heap[i]? = some r ∧
      s1 = s.assign i (r.set_category c) := by
  unfold read_obj_category at h
  cases v with
  | str c =>
    simp only [Value.get_str] at h
    rcases Loader.update_ok h with ⟨i, r, hi, hr, rfl⟩
    exact ⟨c, i, r, rfl, hi, hr, rfl⟩
  | _ => simp [Value.get_str] at h

theorem read_obj_file_path_ok {env : Env} {v : Value} {s s1 : Loader}
    (h : read_obj_file_path env v s = .ok s1) :
    ∃ path i r hd, v = .str path ∧ s.cur_read_rule_ = some i ∧ s.heap[i]? = some r ∧
      env.load_scm_file_relative s.calls path = true ∧
      env.eval_h (s.calls ++ [.load_scm_file_relative path]) r.get_name = some hd ∧
      s1 = { s with heap := s.heap.set i (r.set_rule_handle hd),
                    calls := s.calls ++ [.load_scm_file_relative path, .eval_h r.get_name] } := by
  unfold read_obj_file_path at h
  cases v with
  | str path =>
    simp only [Value.get_str] at h
    by_cases hl : env.load_scm_file_relative s.calls path = true
    · simp only [hl, if_true] at h
      cases hc : s.cur_read_rule_ with
      | none => simp [hc, Loader.deref] at h
      | some i =>
        cases hr : s.heap[i]? with
        | none => simp [hc, hr, Loader.deref] at h
        | some r =>
          simp only [hc, hr, Loader.deref] at h
          cases he : env.eval_h (s.calls ++ [.load_scm_file_relative path]) r.get_name with
          | none => simp [he] at h
          | some hd =>
            simp only [he] at h
            rcases Loader.update_ok h with ⟨j, r', hj, hr', rfl⟩
            simp only [Option.some.injEq] at hj
            subst hj
            simp only [hr, Option.some.injEq] at hr'
            subst hr'
            exact ⟨path, i, r, hd, rfl, rfl, hr, hl, he, by simp⟩
    · simp [hl] at h
  | _ => simp [Value.get_str] at h

theorem read_obj_attention_alloc_ok {v : Value} {s s1 : Loader}
    (h : read_obj_attention_alloc v s = .ok s1) :
    ∃ b, v = .bool b ∧ s1 = { s with attention_alloc_ := b } := by
  unfold read_obj_attention_alloc at h
  cases v with
  | bool b => exact ⟨b, rfl, by simpa [Value.get_bool, eq_comm] using h⟩
  | _ => simp [Value.get_bool] at h

theorem read_obj_log_level_ok {v : Value} {s s1 : Loader}
    (h : read_obj_log_level v s = .ok s1) :
    ∃ l, v = .str l ∧ s1 = { s with log_level_ := l } := by
  unfold read_obj_log_level at h
  cases v with
  | str l => exact ⟨l, rfl, by simpa [Value.get_str, eq_comm] using h⟩
  | _ => simp [Value.get_str] at h

theorem read_obj_max_iter_ok {v : Value} {s s1 : Loader}
    (h : read_obj_max_iter v s = .ok s1) :
    ∃ n, v = .int n ∧ s1 = { s with max_iter_ := toInt32 n } := by
  unfold read_obj_max_iter at h
  cases v with
  | int n => exact ⟨n, rfl, by simpa [Value.get_int, eq_comm] using h⟩
  | _ => simp [Value.get_int] at h

theorem read_obj_mutex_loop_ok {env : Env} {a : List Value} {s s1 : Loader}
    (h : read_obj_mutex_loop env a s = .ok s1) :
    ∃ names, a = names.map Value.str ∧
      s1 = { s with rule_mutex_map_ :=
        (List.foldl (map_add env.alloc s.cur_read_rule_) s.rule_mutex_map_ names) } := by
  induction a generalizing s with
  | nil =>
    simp only [read_obj_mutex_loop, Except.ok.injEq] at h
    exact ⟨[], rfl, by simp [← h]⟩
  | cons v rest ih =>
    rw [read_obj_mutex_loop] at h
    cases v with
    | str name =>
      simp only [Value.get_str] at h
      rcases ih h with ⟨names, hn, hs⟩
      refine ⟨name :: names, by simp [hn], ?_⟩
      rw [hs]
      simp [map_add]
    | _ => simp [Value.get_str] at h

theorem read_obj_mutex_rules_ok {env : Env} {v : Value} {s s1 : Loader}
    (h : read_obj_mutex_rules env v s = .ok s1) :
    ∃ a names, v = .array a ∧ a.toList = names.map Value.str ∧
      s1 = { s with rule_mutex_map_ :=
        (List.foldl (map_add env.alloc s.cur_read_rule_) s.rule_mutex_map_ names) } := by
  unfold read_obj_mutex_rules at h
  cases v with
  | array a =>
    simp only [Value.get_array] at h
    rcases read_obj_mutex_loop_ok h with ⟨names, hn, hs⟩
    exact ⟨a, names, rfl, hn, hs⟩
  | _ => simp [Value.get_array] at h

theorem KeyFrame.of_assign (e : Event) (s : Loader) (i : Nat) (r x : Rule)
    (hr : s.heap[i]? = some r) (hn : x.name_ = r.name_)
    (hl : x.disjunct_rules_ = r.disjunct_rules_) : KeyFrame e s (s.assign i x) where
  rules_eq := rfl
  cur_eq := rfl
  names_eq := map_set_of_proj_eq Rule.name_ s.heap i r x hr hn
  links_eq := map_set_of_proj_eq Rule.disjunct_rules_ s.heap i r x hr hl
  mutex_sets_eq := rfl
  conf_path_eq := rfl
  map_eq := fun _ => rfl
  max_iter_eq := fun _ => rfl
  attention_alloc_eq := fun _ => rfl
  log_level_eq := fun _ => rfl

theorem Event.apply_ok_frame {env : Env} {e : Event} {s s1 : Loader}
    (h : e.apply env s = .ok s1) :
    (∃ n, e = .rule_name (.str n) ∧ s1 = s.declare n) ∨
    (e.is_rule_name = false ∧ KeyFrame e s s1) := by
  cases e with
  | rule_name v =>
    left
    rcases read_obj_rule_name_ok h with ⟨n, rfl, hs⟩
    exact ⟨n, rfl, hs⟩
  | file_path v =>
    right
    rcases read_obj_file_path_ok h with ⟨path, i, r, hd, -, -, hr, -, -, rfl⟩
    refine ⟨rfl, ?_⟩
    have := KeyFrame.of_assign (.file_path v) s i r (r.set_rule_handle hd) hr rfl rfl
    exact ⟨rfl, rfl, this.names_eq, this.links_eq, rfl, rfl, fun _ => rfl, fun _ => rfl,
      fun _ => rfl, fun _ => rfl⟩
  | priority v =>
    right
    rcases read_obj_priority_ok h with ⟨n, i, r, -, -, hr, rfl⟩
    exact ⟨rfl, KeyFrame.of_assign _ s i r _ hr rfl rfl⟩
  | category v =>
    right
    rcases read_obj_category_ok h with ⟨c, i, r, -, -, hr, rfl⟩
    exact ⟨rfl, KeyFrame.of_assign _ s i r _ hr rfl rfl⟩
  | attention_alloc v =>
    right
    rcases read_obj_attention_alloc_ok h with ⟨b, -, rfl⟩
    exact ⟨rfl, rfl, rfl, rfl, rfl, rfl, rfl, fun _ => rfl, fun _ => rfl,
      fun hh => by simp [Event.is_attention_alloc] at hh, fun _ => rfl⟩
  | log_level v =>
    right
    rcases read_obj_log_level_ok h with ⟨l, -, rfl⟩
    exact ⟨rfl, rfl, rfl, rfl, rfl, rfl, rfl, fun _ => rfl, fun _ => rfl,
      fun _ => rfl, fun hh => by simp [Event.is_log_level] at hh⟩
  | mutex_rules v =>
    right
    rcases read_obj_mutex_rules_ok h with ⟨a, names, -, -, rfl⟩
    exact ⟨rfl, rfl, rfl, rfl, rfl, rfl, rfl, fun hh => by simp [Event.is_mutex_rules] at hh,
      fun _ => rfl, fun _ => rfl, fun _ => rfl⟩
  | max_iter v =>
    right
    rcases read_obj_max_iter_ok h with ⟨n, -, rfl⟩
    exact ⟨rfl, rfl, rfl, rfl, rfl, rfl, rfl, fun _ => rfl,
      fun hh => by simp [Event.is_max_iter] at hh, fun _ => rfl, fun _ => rfl⟩
  | mutex_null =>
    right
    simp only [Event.apply, Except.ok.injEq] at h
    subst h
    exact ⟨rfl, rfl, rfl, rfl, rfl, rfl, rfl, fun _ => rfl, fun _ => rfl, fun _ => rfl,
      fun _ => rfl⟩

/-! ## The registry after the walk -/

theorem name_values_cons_of_not_rule_name (e : Event) (rest : List Event)
    (h : e.is_rule_name = false) : name_values (e :: rest) = name_values rest := by
  cases e <;> first | rfl | simp [Event.is_rule_name] at h

theorem run_events_registry {env : Env} {evs : List Event} {s s1 : Loader}
    (h : run_events env evs s = .ok s1) :
    ∃ strs : List String, name_values evs = strs.map Value.str ∧
      s1.rules_ = s.rules_ ++ List.range' s.heap.length strs.length ∧
      s1.heap.map Rule.name_ = s.heap.map Rule.name_ ++ strs ∧
      s1.heap.map Rule.disjunct_rules_ =
        s.heap.map Rule.disjunct_rules_ ++ List.replicate strs.length [] := by
  induction evs generalizing s with
  | nil =>
    simp only [run_events, Except.ok.injEq] at h
    subst h
    exact ⟨[], rfl, by simp, by simp, by simp⟩
  | cons e rest ih =>
    rw [run_events] at h
    cases he : e.apply env s with
    | error x => simp [he] at h
    | ok s2 =>
      simp only [he] at h
      rcases ih h with ⟨strs, hv, hr, hn, hl⟩
      rcases Event.apply_ok_frame he with ⟨n, rfl, rfl⟩ | ⟨hne, hf⟩
      · refine ⟨n :: strs, by simp [name_values, hv], ?_, ?_, ?_⟩
        · rw [hr]
          simp [Loader.declare, List.range'_succ]
        · rw [hn]
          simp [Loader.declare, Rule.new, Rule.set_name]
        · rw [hl]
          simp [Loader.declare, Rule.new, Rule.set_name, List.replicate_succ]
      · have hlen : s2.heap.length = s.heap.length := by
          have := congrArg List.length hf.names_eq
          simpa using this
        refine ⟨strs, by rw [name_values_cons_of_not_rule_name e rest hne, hv], ?_, ?_, ?_⟩
        · rw [hr, hf.rules_eq, hlen]
        · rw [hn, hf.names_eq]
        · rw [hl, hf.links_eq]

theorem map_getElem?_range' {α : Type} (l : List α) :
    (List.range' 0 l.length).map (fun i => l[i]?) = l.map some := by
  apply List.ext_getElem?
  intro i
  simp only [List.getElem?_map]
  by_cases hi : i < l.length
  · rw [List.getElem?_range' _ _ hi]
    simp [List.getElem?_eq_getElem hi]
  · have hle : l.length ≤ i := Nat.le_of_not_lt hi
    rw [List.getElem?_eq_none (by simpa using hle), List.getElem?_eq_none hle]
    rfl

theorem load_config_state (env : Env) (s : Loader) :
    (load_config env s).state = (load_config_try env s).state := by
  unfold load_config
  cases h : load_config_try env s with
  | ok s1 => rfl
  | error x =>
    rcases x with ⟨e, s1⟩
    cases e <;> rfl

theorem load_config_try_after_walk {env : Env} {s s1 : Loader} {path : String}
    (hpath : get_absolute_path env s.conf_path_ [] = .ok path)
    (hwalk : load_config_loop env (env.stream path).1 s = .ok s1) :
    load_config_try env s =
      if (env.stream path).2 then .error (.ios_failure, s1) else set_disjunct_rules s1 := by
  unfold load_config_try
  simp only [hpath, hwalk]

theorem load_config_frame_after_walk {env : Env} {s s1 : Loader} {path : String}
    (hpath : get_absolute_path env s.conf_path_ [] = .ok path)
    (hwalk : load_config_loop env (env.stream path).1 s = .ok s1) :
    ResolverFrame s1 (load_config env s).state := by
  rw [load_config_state, load_config_try_after_walk hpath hwalk]
  by_cases hio : (env.stream path).2 = true
  · simp only [hio, if_true]
    exact ResolverFrame.refl s1
  · simp only [hio]
    exact set_disjunct_rules_frame s1

theorem ResolverFrame.names_eq {s s1 : Loader} (h : ResolverFrame s s1) :
    s1.heap.map Rule.name_ = s.heap.map Rule.name_ := by
  have := congrArg (List.map Rule.name_) h.2.1
  simpa [List.map_map, Function.comp_def, Rule.clear_links] using this

theorem ResolverFrame.rules_eq {s s1 : Loader} (h : ResolverFrame s s1) :
    s1.rules_ = s.rules_ := by
  have := congrArg Loader.rules_ h.1
  simpa [Loader.members] using this

theorem Loader.name_of_eq (s : Loader) (p : Nat) :
    s.name_of p = (s.heap.map Rule.name_)[p]? := by
  simp only [Loader.name_of, Loader.deref, List.getElem?_map]
  cases s.heap[p]? <;> rfl

/-- C1: when the walk of the configuration succeeds and the `name` keys it
reaches carry the N pairwise distinct strings `names` (in document order), the
registry after `load_config` has exactly N rules and their names are `names`,
in that order (whether or not reference resolution then succeeds). -/
theorem C1_registry_holds_declared_names (env : Env) (conf path : String) (mi : Int)
    (aa : Bool) (s1 : Loader) (names : List String) (N : Nat)
    (hpath : get_absolute_path env conf [] = .ok path)
    (hwalk : load_config_loop env (env.stream path).1
      (JsonicControlPolicyParamLoader conf mi aa) = .ok s1)
    (hnames : name_values (doc_events (env.stream path).1) = names.map Value.str)
    (hN : names.length = N) (_hdistinct : names.Nodup) :
    (get_rules (load_config env (JsonicControlPolicyParamLoader conf mi aa)).state).length = N ∧
    (get_rules (load_config env (JsonicControlPolicyParamLoader conf mi aa)).state).map
      (load_config env (JsonicControlPolicyParamLoader conf mi aa)).state.name_of
      = names.map some := by
  have hframe := load_config_frame_after_walk (s := JsonicControlPolicyParamLoader conf mi aa)
    hpath hwalk
  rw [load_config_loop_eq_run_events] at hwalk
  rcases run_events_registry hwalk with ⟨strs, hv, hr, hn, -⟩
  have hstrs : strs = names := by
    rw [hnames] at hv
    exact (List.map_injective_iff.mpr (fun a b hab => by cases hab; rfl) hv).symm
  subst hstrs
  simp only [JsonicControlPolicyParamLoader, List.map_nil, List.nil_append,
    List.length_nil] at hr hn
  have hnames' := hframe.names_eq
  have hrules' := hframe.rules_eq
  simp only [get_rules]
  rw [hrules', hr]
  refine ⟨by simp [hN], ?_⟩
  have hfun : (load_config env (JsonicControlPolicyParamLoader conf mi aa)).state.name_of
      = fun i => strs[i]? := by
    funext p
    rw [Loader.name_of_eq, hnames', hn]
  rw [hfun]
  exact map_getElem?_range' strs

/-- C1 at the round-trip document: two rules, `R1` then `R2`. -/
theorem C1_registry_holds_declared_names_witness :
    (get_rules (load_config (sample_env [round_trip_doc])
      (JsonicControlPolicyParamLoader "policy.json" 0 false)).state).length = 2 ∧
    (get_rules (load_config (sample_env [round_trip_doc])
      (JsonicControlPolicyParamLoader "policy.json" 0 false)).state).map
      (load_config (sample_env [round_trip_doc])
        (JsonicControlPolicyParamLoader "policy.json" 0 false)).state.name_of
      = ["R1", "R2"].map some :=
  C1_registry_holds_declared_names (sample_env [round_trip_doc]) "policy.json"
    "./policy.json" 0 false _ ["R1", "R2"] 2 rfl rfl rfl rfl (by decide)

/-! ## The exclusion declaration map behaves as a map -/

theorem Allocator.keyAddr_inj (al : Allocator) {k k1 : RulePtr}
    (h : al.keyAddr k = al.keyAddr k1) : k = k1 := by
  cases k with
  | none =>
    cases k1 with
    | none => rfl
    | some j => exact absurd h.symm (al.addr_ne_null j)
  | some i =>
    cases k1 with
    | none => exact absurd h (al.addr_ne_null i)
    | some j => exact congrArg some (al.addr_inj i j h)

theorem map_find_eq_none_of_lt (al : Allocator) (k : RulePtr)
    (m : List (RulePtr × List String))
    (h : ∀ e ∈ m, al.keyAddr k < al.keyAddr e.1) : map_find k m = none := by
  induction m with
  | nil => rfl
  | cons e rest ih =>
    rcases e with ⟨k1, ns⟩
    have h1 : k1 ≠ k := by
      intro hk
      have := h (k1, ns) (List.mem_cons_self _ _)
      rw [hk] at this
      exact Nat.lt_irrefl _ this
    simp only [map_find, if_neg h1]
    exact ih (fun e he => h e (List.mem_cons_of_mem _ he))

theorem mem_map_index (al : Allocator) (k : RulePtr) (m : List (RulePtr × List String))
    (x : RulePtr × List String) (hx : x ∈ map_index al k m) : x = (k, []) ∨ x ∈ m := by
  induction m with
  | nil => simpa [map_index] using hx
  | cons e rest ih =>
    rcases e with ⟨k1, ns⟩
    simp only [map_index] at hx
    by_cases h1 : al.keyAddr k < al.keyAddr k1
    · simp only [if_pos h1, List.mem_cons] at hx
      rcases hx with hx | hx | hx
      · exact Or.inl hx
      · exact Or.inr (by simp [hx])
      · exact Or.inr (by simp [hx])
    · simp only [if_neg h1] at hx
      by_cases h2 : al.keyAddr k1 < al.keyAddr k
      · simp only [if_pos h2, List.mem_cons] at hx
        rcases hx with hx | hx
        · exact Or.inr (by simp [hx])
        · rcases ih hx with h | h
          · exact Or.inl h
          · exact Or.inr (List.mem_cons_of_mem _ h)
      · simp only [if_neg h2] at hx
        exact Or.inr hx

theorem mapSorted_map_index (al : Allocator) (k : RulePtr)
    (m : List (RulePtr × List String)) (h : MapSorted al m) :
    MapSorted al (map_index al k m) := by
  induction m with
  | nil => simp [MapSorted, map_index]
  | cons e rest ih =>
    rcases e with ⟨k1, ns⟩
    unfold MapSorted at h ih ⊢
    rw [List.pairwise_cons] at h
    simp only [map_index]
    by_cases h1 : al.keyAddr k < al.keyAddr k1
    · simp only [if_pos h1]
      refine List.pairwise_cons.mpr ⟨?_, List.pairwise_cons.mpr h⟩
      intro x hx
      rcases List.mem_cons.mp hx with hx | hx
      · rw [hx]; exact h1
      · exact Nat.lt_trans h1 (h.1 x hx)
    · simp only [if_neg h1]
      by_cases h2 : al.keyAddr k1 < al.keyAddr k
      · simp only [if_pos h2]
        refine List.pairwise_cons.mpr ⟨?_, ih h.2⟩
        intro x hx
        rcases mem_map_index al k rest x hx with hx | hx
        · rw [hx]; exact h2
        · exact h.1 x hx
      · simp only [if_neg h2]
        exact List.pairwise_cons.mpr h

theorem map_push_back_keys (al : Allocator) (k : RulePtr) (n : String)
    (m : List (RulePtr × List String)) :
    (map_push_back al k n m).map Prod.fst = m.map Prod.fst := by
  induction m with
  | nil => rfl
  | cons e rest ih =>
    rcases e with ⟨k1, ns⟩
    simp only [map_push_back]
    by_cases h1 : al.keyAddr k < al.keyAddr k1
    · simp [if_pos h1]
    · by_cases h2 : al.keyAddr k1 < al.keyAddr k
      · simp [if_neg h1, if_pos h2, ih]
      · simp [if_neg h1, if_neg h2]

theorem mapSorted_iff_keys (al : Allocator) (m : List (RulePtr × List String)) :
    MapSorted al m ↔ (m.map Prod.fst).Pairwise (fun a b => al.keyAddr a < al.keyAddr b) := by
  unfold MapSorted
  rw [List.pairwise_map]

theorem mapSorted_map_push_back (al : Allocator) (k : RulePtr) (n : String)
    (m : List (RulePtr × List String)) (h : MapSorted al m) :
    MapSorted al (map_push_back al k n m) := by
  rw [mapSorted_iff_keys] at h ⊢
  rw [map_push_back_keys]
  exact h

theorem map_find_map_index (al : Allocator) (k k2 : RulePtr)
    (m : List (RulePtr × List String)) (h : MapSorted al m) :
    map_find k2 (map_index al k m) =
      if k2 = k then some ((map_find k m).getD []) else map_find k2 m := by
  induction m with
  | nil =>
    by_cases hk : k2 = k
    · simp [map_index, map_find, hk]
    · have hk' : ¬ k = k2 := fun h => hk h.symm
      simp [map_index, map_find, hk, hk']
  | cons e rest ih =>
    rcases e with ⟨k1, ns⟩
    unfold MapSorted at h ih
    rw [List.pairwise_cons] at h
    simp only [map_index]
    by_cases h1 : al.keyAddr k < al.keyAddr k1
    · simp only [if_pos h1]
      have hnone : map_find k ((k1, ns) :: rest) = none := by
        apply map_find_eq_none_of_lt al
        intro x hx
        rcases List.mem_cons.mp hx with hx | hx
        · rw [hx]; exact h1
        · exact Nat.lt_trans h1 (h.1 x hx)
      by_cases hk : k2 = k
      · subst hk
        rw [hnone]
        simp [map_find]
      · have hk' : ¬ k = k2 := fun h => hk h.symm
        simp [map_find, hk, hk']
    · simp only [if_neg h1]
      by_cases h2 : al.keyAddr k1 < al.keyAddr k
      · simp only [if_pos h2]
        have hne : k1 ≠ k := by
          intro hk; rw [hk] at h2; exact Nat.lt_irrefl _ h2
        simp only [map_find, ih h.2, if_neg hne]
        by_cases hk : k2 = k
        · subst hk
          simp [hne]
        · simp [hk]
      · simp only [if_neg h2]
        have heq : k1 = k := al.keyAddr_inj (by omega)
        subst heq
        by_cases hk : k2 = k1
        · subst hk
          simp [map_find]
        · simp [hk]

theorem map_find_map_push_back (al : Allocator) (k k2 : RulePtr) (n : String)
    (m : List (RulePtr × List String)) (h : MapSorted al m) :
    map_find k2 (map_push_back al k n m) =
      if k2 = k then (map_find k m).map (fun ns => ns ++ [n]) else map_find k2 m := by
  induction m with
  | nil => simp [map_push_back, map_find]
  | cons e rest ih =>
    rcases e with ⟨k1, ns⟩
    unfold MapSorted at h ih
    rw [List.pairwise_cons] at h
    simp only [map_push_back]
    by_cases h1 : al.keyAddr k < al.keyAddr k1
    · simp only [if_pos h1]
      have hnone : map_find k ((k1, ns) :: rest) = none := by
        apply map_find_eq_none_of_lt al
        intro x hx
        rcases List.mem_cons.mp hx with hx | hx
        · rw [hx]; exact h1
        · exact Nat.lt_trans h1 (h.1 x hx)
      by_cases hk : k2 = k
      · subst hk
        simp [hnone]
      · simp [hk]
    · simp only [if_neg h1]
      by_cases h2 : al.keyAddr k1 < al.keyAddr k
      · simp only [if_pos h2]
        have hne : k1 ≠ k := by
          intro hk; rw [hk] at h2; exact Nat.lt_irrefl _ h2
        simp only [map_find, ih h.2, if_neg hne]
        by_cases hk : k2 = k
        · subst hk
          simp [hne]
        · simp [hk]
      · simp only [if_neg h2]
        have heq : k1 = k := al.keyAddr_inj (by omega)
        subst heq
        by_cases hk : k2 = k1
        · subst hk
          simp [map_find]
        · have hk' : ¬ k1 = k2 := fun h => hk h.symm
          simp [map_find, hk, hk']

theorem mapSorted_map_add (al : Allocator) (k : RulePtr) (n : String)
    (m : List (RulePtr × List String)) (h : MapSorted al m) :
    MapSorted al (map_add al k m n) :=
  mapSorted_map_push_back al k n _ (mapSorted_map_index al k m h)

theorem map_find_map_add (al : Allocator) (k k2 : RulePtr) (n : String)
    (m : List (RulePtr × List String)) (h : MapSorted al m) :
    map_find k2 (map_add al k m n) =
      if k2 = k then some ((map_find k m).getD [] ++ [n]) else map_find k2 m := by
  unfold map_add
  rw [map_find_map_push_back al k k2 n _ (mapSorted_map_index al k m h),
    map_find_map_index al k k2 m h, map_find_map_index al k k m h]
  by_cases hk : k2 = k
  · simp [hk]
  · simp [hk]

theorem mapSorted_foldl_map_add (al : Allocator) (k : RulePtr) (names : List String)
    (m : List (RulePtr × List String)) (h : MapSorted al m) :
    MapSorted al (names.foldl (map_add al k) m) := by
  induction names generalizing m with
  | nil => exact h
  | cons n rest ih => exact ih _ (mapSorted_map_add al k n m h)

theorem map_find_foldl_map_add (al : Allocator) (k k2 : RulePtr) (names : List String)
    (m : List (RulePtr × List String)) (h : MapSorted al m) :
    map_find k2 (names.foldl (map_add al k) m) =
      if k2 = k ∧ names ≠ [] then some ((map_find k m).getD [] ++ names)
      else map_find k2 m := by
  induction names generalizing m with
  | nil => simp
  | cons n rest ih =>
    rw [List.foldl_cons, ih _ (mapSorted_map_add al k n m h), map_find_map_add al k k2 n m h,
      map_find_map_add al k k n m h]
    by_cases hk : k2 = k
    · subst hk
      by_cases hr : rest = []
      · simp [hr]
      · simp [hr]
    · simp [hk]

/-! ## The exclusion declaration map after the walk -/

theorem entry_extend_extend (old : Option (List String)) (a b : List String) :
    entry_extend (entry_extend old a) b = entry_extend old (a ++ b) := by
  unfold entry_extend
  by_cases ha : a = []
  · subst ha
    simp
  · by_cases hb : b = []
    · subst hb
      simp [ha]
    · simp [ha, hb]

theorem Values.toList_ofList (l : List Value) : (Values.ofList l).toList = l := by
  induction l with
  | nil => rfl
  | cons v rest ih => simp [Values.ofList, Values.toList, ih]

theorem filterMap_str?_map_str (names : List String) :
    (names.map Value.str).filterMap Value.str? = names := by
  induction names with
  | nil => rfl
  | cons n rest ih => simp [Value.str?, ih]

theorem pushed_cons_of_frame (e : Event) (rest : List Event) (cur : RulePtr) (n : Nat)
    (k : RulePtr) (h1 : e.is_rule_name = false) (h2 : e.is_mutex_rules = false) :
    pushed (e :: rest) cur n k = pushed rest cur n k := by
  cases e with
  | rule_name v => simp [Event.is_rule_name] at h1
  | mutex_rules v => simp [Event.is_mutex_rules] at h2
  | _ => rfl

theorem run_events_map {env : Env} {evs : List Event} {s s1 : Loader}
    (h : run_events env evs s = .ok s1) (hs : MapSorted env.alloc s.rule_mutex_map_) :
    MapSorted env.alloc s1.rule_mutex_map_ ∧
    ∀ k, map_find k s1.rule_mutex_map_ =
      entry_extend (map_find k s.rule_mutex_map_)
        (pushed evs s.cur_read_rule_ s.heap.length k) := by
  induction evs generalizing s with
  | nil =>
    simp only [run_events, Except.ok.injEq] at h
    subst h
    exact ⟨hs, fun k => by simp [pushed, entry_extend]⟩
  | cons e rest ih =>
    rw [run_events] at h
    cases he : e.apply env s with
    | error x => simp [he] at h
    | ok s2 =>
      simp only [he] at h
      by_cases hm : e.is_mutex_rules = true
      · cases e with
        | mutex_rules v =>
          rcases read_obj_mutex_rules_ok he with ⟨a, names, rfl, hn, rfl⟩
          have hs2 := mapSorted_foldl_map_add env.alloc s.cur_read_rule_ names _ hs
          rcases ih h hs2 with ⟨hsorted, hfind⟩
          refine ⟨hsorted, fun k => ?_⟩
          rw [hfind k]
          simp only [map_find_foldl_map_add env.alloc s.cur_read_rule_ k names _ hs]
          have hnames : mutex_names (.array a) = names := by
            show a.toList.filterMap Value.str? = names
            rw [hn, filterMap_str?_map_str]
          simp only [pushed, hnames]
          by_cases hk : k = s.cur_read_rule_
          · subst hk
            by_cases hne : names = []
            · simp [hne, entry_extend]
            · have : entry_extend (map_find s.cur_read_rule_ s.rule_mutex_map_) names =
                  some ((map_find s.cur_read_rule_ s.rule_mutex_map_).getD [] ++ names) := by
                simp [entry_extend, hne]
              simp only [hne, ne_eq, not_false_eq_true, and_self, if_true, ← this,
                entry_extend_extend]
          · have hk' : ¬ s.cur_read_rule_ = k := fun h => hk h.symm
            simp [hk, hk']
        | _ => simp [Event.is_mutex_rules] at hm
      · have hm' : e.is_mutex_rules = false := by simpa using hm
        rcases Event.apply_ok_frame he with ⟨n, rfl, rfl⟩ | ⟨hne, hf⟩
        · rcases ih h (by simpa [Loader.declare] using hs) with ⟨hsorted, hfind⟩
          refine ⟨hsorted, fun k => ?_⟩
          rw [hfind k]
          simp [Loader.declare, pushed]
        · have hlen : s2.heap.length = s.heap.length := by
            have := congrArg List.length hf.names_eq
            simpa using this
          rcases ih h (by rw [hf.map_eq hm']; exact hs) with ⟨hsorted, hfind⟩
          refine ⟨hsorted, fun k => ?_⟩
          rw [hfind k, hf.map_eq hm', hf.cur_eq, hlen, pushed_cons_of_frame e rest _ _ k hne hm']

/-! ## Names pushed to an entry, read off the document -/

theorem pushed_eq_nil_of_lt (evs : List Event) (cur : RulePtr) (n k : Nat)
    (hcur : cur ≠ some k) (hk : k < n) : pushed evs cur n (some k) = [] := by
  induction evs generalizing cur n with
  | nil => rfl
  | cons e rest ih =>
    cases e with
    | rule_name v =>
      simp only [pushed]
      exact ih (some n) (n + 1) (by simp; omega) (by omega)
    | mutex_rules v =>
      simp only [pushed, if_neg hcur, List.nil_append]
      exact ih cur n hcur hk
    | _ =>
      simp only [pushed]
      exact ih cur n hcur hk

theorem pushed_current (rest : List Event) (n : Nat) :
    pushed rest (some n) (n + 1) (some n) =
      all_mutex_names (rest.takeWhile (fun e => !e.is_rule_name)) := by
  induction rest with
  | nil => rfl
  | cons e rest ih =>
    cases e with
    | rule_name v =>
      simp only [pushed, List.takeWhile, Event.is_rule_name, Bool.not_true, all_mutex_names]
      exact pushed_eq_nil_of_lt rest (some (n + 1)) (n + 1 + 1) n (by simp) (by omega)
    | mutex_rules v =>
      simp only [pushed, List.takeWhile, Event.is_rule_name, Bool.not_false, all_mutex_names,
        Event.mutex_names, if_true, ih]
    | _ =>
      simp only [pushed, List.takeWhile, Event.is_rule_name, Bool.not_false, all_mutex_names,
        Event.mutex_names, List.nil_append, ih]

theorem pushed_rule_keys (evs : List Event) (cur : RulePtr) (n a : Nat)
    (hcur : ∀ i, cur = some i → i < n) :
    pushed evs cur n (some (n + a)) = all_mutex_names (rule_keys evs a) := by
  induction evs generalizing cur n a with
  | nil => rfl
  | cons e rest ih =>
    have hne : cur ≠ some (n + a) := by
      intro h
      have := hcur _ h
      omega
    cases e with
    | rule_name v =>
      cases a with
      | zero =>
        simp only [pushed, rule_keys, Nat.add_zero]
        exact pushed_current rest n
      | succ a =>
        simp only [pushed, rule_keys]
        have := ih (some n) (n + 1) a (by intro i hi; cases hi; omega)
        rw [← this]
        congr 2
        omega
    | mutex_rules v =>
      simp only [pushed, rule_keys, if_neg hne, List.nil_append]
      exact ih cur n a hcur
    | _ =>
      simp only [pushed, rule_keys]
      exact ih cur n a hcur

theorem pushed_before_first_rule (evs : List Event) (n : Nat) :
    pushed evs none n none =
      all_mutex_names (evs.takeWhile (fun e => !e.is_rule_name)) := by
  induction evs with
  | nil => rfl
  | cons e rest ih =>
    cases e with
    | rule_name v =>
      simp only [pushed, List.takeWhile, Event.is_rule_name, Bool.not_true, all_mutex_names]
      have hgen : ∀ (l : List Event) (cur : RulePtr) (m : Nat), cur ≠ none →
          pushed l cur m none = [] := by
        intro l
        induction l with
        | nil => intros; rfl
        | cons e l ihl =>
          intro cur m hc
          cases e with
          | rule_name v => simp only [pushed]; exact ihl (some m) (m + 1) (by simp)
          | mutex_rules v => simp only [pushed, if_neg hc, List.nil_append]; exact ihl cur m hc
          | _ => simp only [pushed]; exact ihl cur m hc
      exact hgen rest (some n) (n + 1) (by simp)
    | mutex_rules v =>
      simp only [pushed, List.takeWhile, Event.is_rule_name, Bool.not_false, all_mutex_names,
        Event.mutex_names, if_true, ih]
    | _ =>
      simp only [pushed, List.takeWhile, Event.is_rule_name, Bool.not_false, all_mutex_names,
        Event.mutex_names, List.nil_append, ih]

theorem mem_all_mutex_names_of_mem_pushed (evs : List Event) (cur : RulePtr) (n : Nat)
    (k : RulePtr) (x : String) (h : x ∈ pushed evs cur n k) : x ∈ all_mutex_names evs := by
  induction evs generalizing cur n with
  | nil => simp [pushed] at h
  | cons e rest ih =>
    cases e with
    | rule_name v =>
      simp only [pushed] at h
      simp only [all_mutex_names, Event.mutex_names, List.nil_append]
      exact ih _ _ h
    | mutex_rules v =>
      simp only [pushed, List.mem_append] at h
      simp only [all_mutex_names, Event.mutex_names, List.mem_append]
      rcases h with h | h
      · by_cases hc : cur = k
        · simp only [if_pos hc] at h
          exact Or.inl h
        · simp [if_neg hc] at h
      · exact Or.inr (ih _ _ h)
    | _ =>
      simp only [pushed] at h
      simp only [all_mutex_names, Event.mutex_names, List.nil_append]
      exact ih _ _ h

theorem exists_mem_pushed_of_mem_all_mutex_names (evs : List Event) (cur : RulePtr) (n : Nat)
    (x : String) (h : x ∈ all_mutex_names evs) : ∃ k, x ∈ pushed evs cur n k := by
  induction evs generalizing cur n with
  | nil => simp [all_mutex_names] at h
  | cons e rest ih =>
    cases e with
    | rule_name v =>
      simp only [all_mutex_names, Event.mutex_names, List.nil_append] at h
      simp only [pushed]
      exact ih _ _ h
    | mutex_rules v =>
      simp only [all_mutex_names, Event.mutex_names, List.mem_append] at h
      rcases h with h | h
      · exact ⟨cur, by simp [pushed, h]⟩
      · rcases ih cur n h with ⟨k, hk⟩
        exact ⟨k, by simp [pushed, hk]⟩
    | _ =>
      simp only [all_mutex_names, Event.mutex_names, List.nil_append] at h
      simp only [pushed]
      exact ih _ _ h

theorem pushed_key (evs : List Event) (cur : RulePtr) (n : Nat) (k : RulePtr)
    (h : pushed evs cur n k ≠ []) :
    k = cur ∨ ∃ i, k = some i ∧ n ≤ i ∧ i < n + (name_values evs).length := by
  induction evs generalizing cur n with
  | nil => simp [pushed] at h
  | cons e rest ih =>
    cases e with
    | rule_name v =>
      simp only [pushed] at h
      simp only [name_values, List.length_cons]
      rcases ih _ _ h with hk | ⟨i, hi, h1, h2⟩
      · exact Or.inr ⟨n, hk, by omega, by omega⟩
      · exact Or.inr ⟨i, hi, by omega, by omega⟩
    | mutex_rules v =>
      simp only [pushed] at h
      simp only [name_values]
      by_cases hc : cur = k
      · exact Or.inl hc.symm
      · simp only [if_neg hc, List.nil_append] at h
        exact ih _ _ h
    | _ =>
      simp only [pushed] at h
      simp only [name_values]
      exact ih _ _ h

/-! ## Name lookup -/

theorem get_rule_loop_congr {heap heap1 : List Rule}
    (h : heap1.map Rule.name_ = heap.map Rule.name_) (name : String) (ps : List Nat) :
    get_rule_loop heap1 name ps = get_rule_loop heap name ps := by
  induction ps with
  | nil => rfl
  | cons p rest ih =>
    have hp : (heap1[p]?).map Rule.name_ = (heap[p]?).map Rule.name_ := by
      rw [← List.getElem?_map, ← List.getElem?_map, h]
    simp only [get_rule_loop]
    cases h1 : heap1[p]? with
    | none =>
      cases h0 : heap[p]? with
      | none => rfl
      | some r => simp [h1, h0] at hp
    | some r1 =>
      cases h0 : heap[p]? with
      | none => simp [h1, h0] at hp
      | some r =>
        simp only [h1, h0, Option.map_some', Option.some.injEq] at hp
        simp only [Rule.get_name, hp, ih]

theorem get_rule_congr {s s1 : Loader} (hn : s1.heap.map Rule.name_ = s.heap.map Rule.name_)
    (hr : s1.rules_ = s.rules_) (name : String) : get_rule s1 name = get_rule s name := by
  unfold get_rule
  rw [hr]
  exact get_rule_loop_congr hn name s.rules_

theorem ResolverFrame.get_rule_eq {s s1 : Loader} (h : ResolverFrame s s1) (name : String) :
    get_rule s1 name = get_rule s name :=
  get_rule_congr h.names_eq h.rules_eq name

theorem get_rule_loop_some {heap : List Rule} {name : String} {ps : List Nat} {p : Nat}
    (h : get_rule_loop heap name ps = .ok (some p)) :
    p ∈ ps ∧ (heap[p]?).map Rule.name_ = some name := by
  induction ps with
  | nil => simp [get_rule_loop] at h
  | cons q rest ih =>
    simp only [get_rule_loop] at h
    cases hq : heap[q]? with
    | none => simp [hq] at h
    | some r =>
      simp only [hq] at h
      by_cases hn : r.get_name = name
      · simp only [if_pos hn, Except.ok.injEq, Option.some.injEq] at h
        subst h
        exact ⟨List.mem_cons_self _ _, by simp [hq, ← hn, Rule.get_name]⟩
      · simp only [if_neg hn] at h
        exact ⟨List.mem_cons_of_mem _ (ih h).1, (ih h).2⟩

theorem get_rule_loop_none {heap : List Rule} {name : String} {ps : List Nat}
    (h : get_rule_loop heap name ps = .ok none) :
    ∀ p ∈ ps, (heap[p]?).map Rule.name_ ≠ some name := by
  induction ps with
  | nil => simp
  | cons q rest ih =>
    simp only [get_rule_loop] at h
    cases hq : heap[q]? with
    | none => simp [hq] at h
    | some r =>
      simp only [hq] at h
      by_cases hn : r.get_name = name
      · simp [if_pos hn] at h
      · simp only [if_neg hn] at h
        intro p hp
        rcases List.mem_cons.mp hp with hp | hp
        · subst hp
          simpa [hq, Rule.get_name] using hn
        · exact ih h p hp

theorem get_rule_loop_total {heap : List Rule} (name : String) {ps : List Nat}
    (h : ∀ p ∈ ps, p < heap.length) : ∃ r, get_rule_loop heap name ps = .ok r := by
  induction ps with
  | nil => exact ⟨none, rfl⟩
  | cons q rest ih =>
    have hq : q < heap.length := h q (List.mem_cons_self _ _)
    simp only [get_rule_loop, List.getElem?_eq_getElem hq]
    by_cases hn : (heap[q]).get_name = name
    · exact ⟨some q, by simp [hn]⟩
    · simp only [if_neg hn]
      exact ih (fun p hp => h p (List.mem_cons_of_mem _ hp))

/-! ## What the resolver appends -/

theorem link_targets_congr {s s1 : Loader} (h : ResolverFrame s s1) (ns : List String) :
    link_targets s1 ns = link_targets s ns := by
  unfold link_targets
  simp only [h.get_rule_eq]

theorem set_disjunct_rules_names_links (k : RulePtr) (ns : List String) (s : Loader) :
    ∃ done, done <+: ns ∧
      ((∃ s1, set_disjunct_rules_names k ns s = .ok s1) →
        done = ns ∧ ∀ n ∈ ns, ∃ p, get_rule s n = .ok (some p)) ∧
      ∀ (i : Nat) (r : Rule), s.heap[i]? = some r →
        ∃ r1 : Rule, (set_disjunct_rules_names k ns s).state.heap[i]? = some r1 ∧
          r1.disjunct_rules_ =
            r.disjunct_rules_ ++ (if k = some i then link_targets s done else []) := by
  induction ns generalizing s with
  | nil =>
    refine ⟨[], List.prefix_refl _, fun _ => ⟨rfl, by simp⟩, ?_⟩
    intro i r hr
    exact ⟨r, by simpa [set_disjunct_rules_names, Run.state] using hr,
      by simp [link_targets]⟩
  | cons name rest ih =>
    rw [set_disjunct_rules_names]
    cases hg : get_rule s name with
    | error e =>
      refine ⟨[], List.nil_prefix, fun h => by simp at h, ?_⟩
      intro i r hr
      exact ⟨r, by simpa [Run.state] using hr, by simp [link_targets]⟩
    | ok q =>
      cases q with
      | none =>
        refine ⟨[], List.nil_prefix, fun h => by simp at h, ?_⟩
        intro i r hr
        exact ⟨r, by simpa [Run.state] using hr, by simp [link_targets]⟩
      | some p =>
        simp only
        cases hu : s.update k (fun c => c.add_disjunct_rule p) with
        | error x =>
          rw [Loader.update_error hu]
          refine ⟨[], List.nil_prefix, fun h => by simp at h, ?_⟩
          intro i r hr
          exact ⟨r, by simpa [Run.state] using hr, by simp [link_targets]⟩
        | ok s1 =>
          simp only
          have hframe := ResolverFrame.of_update hu
          rcases Loader.update_ok hu with ⟨j, rj, hk, hrj, hs1⟩
          rcases ih s1 with ⟨done, hpre, hok, hlinks⟩
          refine ⟨name :: done, ?_, ?_, ?_⟩
          · exact List.prefix_cons_inj name |>.mpr hpre
          · intro hex
            rcases hok hex with ⟨hd, hall⟩
            refine ⟨by rw [hd], ?_⟩
            intro n hn
            rcases List.mem_cons.mp hn with hn | hn
            · subst hn
              exact ⟨p, hg⟩
            · rcases hall n hn with ⟨p1, hp1⟩
              exact ⟨p1, by rw [← hframe.get_rule_eq]; exact hp1⟩
          · intro i r hr
            have hlt : link_targets s (name :: done) = p :: link_targets s done := by
              simp [link_targets, hg]
            by_cases hij : j = i
            · subst hij
              rw [hrj] at hr
              cases hr
              have hs1j : s1.heap[j]? = some (rj.add_disjunct_rule p) := by
                rcases List.getElem?_eq_some_iff.mp hrj with ⟨hl, _⟩
                rw [hs1]
                simp [hl]
              rcases hlinks j _ hs1j with ⟨r1, hr1, hd1⟩
              refine ⟨r1, hr1, ?_⟩
              rw [hd1, hk]
              simp [Rule.add_disjunct_rule, hlt, link_targets_congr hframe]
            · have hs1i : s1.heap[i]? = some r := by
                rw [hs1]
                simp [hij, hr]
              rcases hlinks i r hs1i with ⟨r1, hr1, hd1⟩
              refine ⟨r1, hr1, ?_⟩
              rw [hd1, hk]
              have hne : ¬ (some j : RulePtr) = some i := by
                intro h; cases h; exact hij rfl
              simp [hne]

theorem set_disjunct_rules_loop_links (al : Allocator) (m : List (RulePtr × List String))
    (s : Loader) (hm : MapSorted al m) :
    ((∃ s1, set_disjunct_rules_loop m s = .ok s1) →
      ∀ e ∈ m, ∀ n ∈ e.2, ∃ p, get_rule s n = .ok (some p)) ∧
    ∀ (i : Nat) (r : Rule), s.heap[i]? = some r →
      ∃ r1 : Rule, (set_disjunct_rules_loop m s).state.heap[i]? = some r1 ∧
        ∃ done, done <+: (map_find (some i) m).getD [] ∧
          ((∃ s1, set_disjunct_rules_loop m s = .ok s1) →
            done = (map_find (some i) m).getD []) ∧
          r1.disjunct_rules_ = r.disjunct_rules_ ++ link_targets s done := by
  induction m generalizing s with
  | nil =>
    refine ⟨fun _ e he => by simp at he, ?_⟩
    intro i r hr
    exact ⟨r, by simpa [set_disjunct_rules_loop, Run.state] using hr, [],
      by simp [map_find], fun _ => by simp [map_find], by simp [link_targets]⟩
  | cons entry rest ih =>
    rcases entry with ⟨k, ns⟩
    have hm' := hm
    unfold MapSorted at hm'
    rw [List.pairwise_cons] at hm'
    have hrest : MapSorted al rest := hm'.2
    have hknone : map_find k rest = none :=
      map_find_eq_none_of_lt al k rest (fun e he => hm'.1 e he)
    rcases set_disjunct_rules_names_links k ns s with ⟨done1, hpre1, hok1, hlinks1⟩
    have hframe1 := set_disjunct_rules_names_frame k ns s
    rw [set_disjunct_rules_loop]
    cases hn : set_disjunct_rules_names k ns s with
    | error x =>
      refine ⟨fun h => by simp at h, ?_⟩
      intro i r hr
      rcases hlinks1 i r hr with ⟨r1, hr1, hd1⟩
      rw [hn] at hr1
      refine ⟨r1, by simpa [Run.state] using hr1, ?_⟩
      by_cases hk : k = some i
      · refine ⟨done1, ?_, fun h => by simp at h, by simpa [hk] using hd1⟩
        simpa [map_find, hk] using hpre1
      · exact ⟨[], List.nil_prefix, fun h => by simp at h,
          by simpa [hk, link_targets] using hd1⟩
    | ok s1 =>
      simp only
      rw [hn] at hframe1
      simp only [Run.state] at hframe1
      rcases hok1 ⟨s1, hn⟩ with ⟨hdone1, hall1⟩
      rcases ih s1 hrest with ⟨hallr, hlinksr⟩
      refine ⟨?_, ?_⟩
      · intro hex e he n hne
        rcases List.mem_cons.mp he with he | he
        · subst he
          exact hall1 n hne
        · rcases hallr hex e he n hne with ⟨p, hp⟩
          exact ⟨p, by rw [← hframe1.get_rule_eq]; exact hp⟩
      · intro i r hr
        rcases hlinks1 i r hr with ⟨r1, hr1, hd1⟩
        rw [hn] at hr1
        simp only [Run.state] at hr1
        rcases hlinksr i r1 hr1 with ⟨r2, hr2, done2, hpre2, hok2, hd2⟩
        refine ⟨r2, hr2, ?_⟩
        by_cases hk : k = some i
        · subst hk
          rw [hknone] at hpre2
          have hd2nil : done2 = [] := List.prefix_nil.mp hpre2
          refine ⟨ns, by simp [map_find], fun _ => by simp [map_find], ?_⟩
          rw [hd2, hd1, hd2nil, hdone1]
          simp [link_targets]
        · refine ⟨done2, by simpa [map_find, hk] using hpre2,
            fun hex => by simpa [map_find, hk] using hok2 hex, ?_⟩
          rw [hd2, hd1]
          simp [hk, link_targets_congr hframe1]

/-! ## The errors of the walker and of the resolver -/

theorem Value.get_str_error {v : Value} {x : LoadError} (h : v.get_str = .error x) :
    x = .runtime_error := by
  cases v <;> simp [Value.get_str] at h <;> exact h.symm

theorem Value.get_int_error {v : Value} {x : LoadError} (h : v.get_int = .error x) :
    x = .runtime_error := by
  cases v <;> simp [Value.get_int] at h <;> exact h.symm

theorem Value.get_bool_error {v : Value} {x : LoadError} (h : v.get_bool = .error x) :
    x = .runtime_error := by
  cases v <;> simp [Value.get_bool] at h <;> exact h.symm

theorem Value.get_array_error {v : Value} {x : LoadError} (h : v.get_array = .error x) :
    x = .runtime_error := by
  cases v <;> simp [Value.get_array] at h <;> exact h.symm

theorem Loader.update_error_kind {s s2 : Loader} {p : RulePtr} {f : Rule → Rule}
    {x : LoadError} (h : s.update p f = .error (x, s2)) : x.is_ios_failure = false := by
  have := Loader.update_error h
  simp only [Prod.mk.injEq] at this
  rw [this.1]
  rfl

theorem read_obj_mutex_loop_error_kind {env : Env} {a : List Value} {s s2 : Loader}
    {x : LoadError} (h : read_obj_mutex_loop env a s = .error (x, s2)) :
    x.is_ios_failure = false := by
  induction a generalizing s with
  | nil => simp [read_obj_mutex_loop] at h
  | cons v rest ih =>
    rw [read_obj_mutex_loop] at h
    cases hv : v.get_str with
    | error e =>
      simp only [hv, Except.error.injEq, Prod.mk.injEq] at h
      rw [← h.1, Value.get_str_error hv]
      rfl
    | ok name =>
      simp only [hv] at h
      exact ih h

theorem Event.apply_error_kind {env : Env} {e : Event} {s s2 : Loader} {x : LoadError}
    (h : e.apply env s = .error (x, s2)) : x.is_ios_failure = false := by
  cases e with
  | rule_name v =>
    simp only [Event.apply, read_obj_rule_name] at h
    cases hv : v.get_str with
    | error e =>
      simp only [hv, Except.error.injEq, Prod.mk.injEq] at h
      rw [← h.1, Value.get_str_error hv]
      rfl
    | ok n =>
      simp only [hv, Loader.update, Run.andThen, List.getElem?_concat_length] at h
      simp at h
  | file_path v =>
    simp only [Event.apply, read_obj_file_path] at h
    cases hv : v.get_str with
    | error e =>
      simp only [hv, Except.error.injEq, Prod.mk.injEq] at h
      rw [← h.1, Value.get_str_error hv]
      rfl
    | ok path =>
      simp only [hv] at h
      split at h
      · split at h
        · simp only [Except.error.injEq, Prod.mk.injEq] at h
          rw [← h.1]; rfl
        · split at h
          · simp only [Except.error.injEq, Prod.mk.injEq] at h
            rw [← h.1]; rfl
          · exact Loader.update_error_kind h
      · simp only [Except.error.injEq, Prod.mk.injEq] at h
        rw [← h.1]; rfl
  | priority v =>
    simp only [Event.apply, read_obj_priority] at h
    cases hv : v.get_int with
    | error e =>
      simp only [hv, Except.error.injEq, Prod.mk.injEq] at h
      rw [← h.1, Value.get_int_error hv]
      rfl
    | ok n =>
      simp only [hv] at h
      exact Loader.update_error_kind h
  | category v =>
    simp only [Event.apply, read_obj_category] at h
    cases hv : v.get_str with
    | error e =>
      simp only [hv, Except.error.injEq, Prod.mk.injEq] at h
      rw [← h.1, Value.get_str_error hv]
      rfl
    | ok n =>
      simp only [hv] at h
      exact Loader.update_error_kind h
  | attention_alloc v =>
    simp only [Event.apply, read_obj_attention_alloc] at h
    cases hv : v.get_bool with
    | error e =>
      simp only [hv, Except.error.injEq, Prod.mk.injEq] at h
      rw [← h.1, Value.get_bool_error hv]
      rfl
    | ok n => simp [hv] at h
  | log_level v =>
    simp only [Event.apply, read_obj_log_level] at h
    cases hv : v.get_str with
    | error e =>
      simp only [hv, Except.error.injEq, Prod.mk.injEq] at h
      rw [← h.1, Value.get_str_error hv]
      rfl
    | ok n => simp [hv] at h
  | mutex_rules v =>
    simp only [Event.apply, read_obj_mutex_rules] at h
    cases hv : v.get_array with
    | error e =>
      simp only [hv, Except.error.injEq, Prod.mk.injEq] at h
      rw [← h.1, Value.get_array_error hv]
      rfl
    | ok a =>
      simp only [hv] at h
      exact read_obj_mutex_loop_error_kind h
  | max_iter v =>
    simp only [Event.apply, read_obj_max_iter] at h
    cases hv : v.get_int with
    | error e =>
      simp only [hv, Except.error.injEq, Prod.mk.injEq] at h
      rw [← h.1, Value.get_int_error hv]
      rfl
    | ok n => simp [hv] at h
  | mutex_null => simp [Event.apply] at h

theorem run_events_error_kind {env : Env} {evs : List Event} {s s2 : Loader} {x : LoadError}
    (h : run_events env evs s = .error (x, s2)) : x.is_ios_failure = false := by
  induction evs generalizing s with
  | nil => simp [run_events] at h
  | cons e rest ih =>
    rw [run_events] at h
    cases he : e.apply env s with
    | error y =>
      simp only [he, Except.error.injEq] at h
      subst h
      exact Event.apply_error_kind he
    | ok s1 =>
      simp only [he] at h
      exact ih h

theorem get_rule_loop_error {heap : List Rule} {name : String} {ps : List Nat}
    {x : LoadError} (h : get_rule_loop heap name ps = .error x) : x = .segfault := by
  induction ps with
  | nil => simp [get_rule_loop] at h
  | cons q rest ih =>
    simp only [get_rule_loop] at h
    cases hq : heap[q]? with
    | none => simp [hq] at h; exact h.symm
    | some r =>
      simp only [hq] at h
      by_cases hn : r.get_name = name
      · simp [if_pos hn] at h
      · simp only [if_neg hn] at h
        exact ih h

theorem set_disjunct_rules_names_error {k : RulePtr} {ns : List String} {s s2 : Loader}
    {x : LoadError} (h : set_disjunct_rules_names k ns s = .error (x, s2)) :
    x = .segfault ∨ ∃ n ∈ ns, x = .invalid_argument n ∧ get_rule s2 n = .ok none := by
  induction ns generalizing s with
  | nil => simp [set_disjunct_rules_names] at h
  | cons name rest ih =>
    rw [set_disjunct_rules_names] at h
    cases hg : get_rule s name with
    | error e =>
      simp only [hg, Except.error.injEq, Prod.mk.injEq] at h
      left
      rw [← h.1]
      exact get_rule_loop_error hg
    | ok q =>
      cases q with
      | none =>
        simp only [hg, Except.error.injEq, Prod.mk.injEq] at h
        right
        exact ⟨name, List.mem_cons_self _ _, h.1.symm, by rw [← h.2]; exact hg⟩
      | some p =>
        simp only [hg] at h
        cases hu : s.update k (fun c => c.add_disjunct_rule p) with
        | error y =>
          simp only [hu, Except.error.injEq] at h
          subst h
          have := Loader.update_error hu
          simp only [Prod.mk.injEq] at this
          exact Or.inl this.1
        | ok s1 =>
          simp only [hu] at h
          rcases ih h with h1 | ⟨n, hn, h1, h2⟩
          · exact Or.inl h1
          · exact Or.inr ⟨n, List.mem_cons_of_mem _ hn, h1, h2⟩

theorem set_disjunct_rules_loop_error {m : List (RulePtr × List String)} {s s2 : Loader}
    {x : LoadError} (h : set_disjunct_rules_loop m s = .error (x, s2)) :
    x = .segfault ∨
      ∃ e ∈ m, ∃ n ∈ e.2, x = .invalid_argument n ∧ get_rule s2 n = .ok none := by
  induction m generalizing s with
  | nil => simp [set_disjunct_rules_loop] at h
  | cons entry rest ih =>
    rcases entry with ⟨k, ns⟩
    rw [set_disjunct_rules_loop] at h
    cases hn : set_disjunct_rules_names k ns s with
    | error y =>
      simp only [hn, Except.error.injEq] at h
      subst h
      rcases set_disjunct_rules_names_error hn with h1 | ⟨n, hnn, h1, h2⟩
      · exact Or.inl h1
      · exact Or.inr ⟨(k, ns), List.mem_cons_self _ _, n, hnn, h1, h2⟩
    | ok s1 =>
      simp only [hn] at h
      rcases ih h with h1 | ⟨e, he, n, hnn, h1, h2⟩
      · exact Or.inl h1
      · exact Or.inr ⟨e, List.mem_cons_of_mem _ he, n, hnn, h1, h2⟩

theorem load_config_ok {env : Env} {s s' : Loader} {path : String}
    (hpath : get_absolute_path env s.conf_path_ [] = .ok path)
    (hio : (env.stream path).2 = false)
    (hload : load_config env s = .ok s') :
    ∃ s1, load_config_loop env (env.stream path).1 s = .ok s1 ∧
      set_disjunct_rules s1 = .ok s' := by
  unfold load_config at hload
  have htry : load_config_try env s =
      match load_config_loop env (env.stream path).1 s with
      | .error e => .error e
      | .ok s1 => set_disjunct_rules s1 := by
    unfold load_config_try
    simp only [hpath, hio]
    cases load_config_loop env (env.stream path).1 s <;> simp
  rw [htry] at hload
  cases hw : load_config_loop env (env.stream path).1 s with
  | error x =>
    rcases x with ⟨e, s2⟩
    have hk : e.is_ios_failure = false := by
      rw [load_config_loop_eq_run_events] at hw
      exact run_events_error_kind hw
    simp only [hw] at hload
    cases e <;> simp [LoadError.is_ios_failure] at hk hload
  | ok s1 =>
    simp only [hw] at hload
    refine ⟨s1, rfl, ?_⟩
    cases hr : set_disjunct_rules s1 with
    | error x =>
      rcases x with ⟨e, s2⟩
      rw [hr] at hload
      rcases set_disjunct_rules_loop_error hr with h1 | ⟨_, _, n, _, h1, _⟩
      · subst h1
        simp at hload
      · subst h1
        simp at hload
    | ok s2 =>
      rw [hr] at hload
      simpa using hload

/-! ## The walk of a freshly constructed loader -/

theorem fresh_walk {env : Env} {conf : String} {mi : Int} {aa : Bool} {evs : List Event}
    {s1 : Loader}
    (h : run_events env evs (JsonicControlPolicyParamLoader conf mi aa) = .ok s1) :
    ∃ strs : List String, name_values evs = strs.map Value.str ∧
      s1.rules_ = List.range' 0 strs.length ∧
      s1.heap.map Rule.name_ = strs ∧
      s1.heap.map Rule.disjunct_rules_ = List.replicate strs.length [] ∧
      MapSorted env.alloc s1.rule_mutex_map_ ∧
      ∀ k, map_find k s1.rule_mutex_map_ = entry_extend none (pushed evs none 0 k) := by
  rcases run_events_registry h with ⟨strs, hv, hr, hn, hl⟩
  have hsorted : MapSorted env.alloc
      (JsonicControlPolicyParamLoader conf mi aa).rule_mutex_map_ := by
    simp [JsonicControlPolicyParamLoader, MapSorted]
  rcases run_events_map h hsorted with ⟨hs, hf⟩
  refine ⟨strs, hv, ?_, ?_, ?_, hs, ?_⟩
  · simpa [JsonicControlPolicyParamLoader] using hr
  · simpa [JsonicControlPolicyParamLoader] using hn
  · simpa [JsonicControlPolicyParamLoader] using hl
  · intro k
    rw [hf k]
    simp [JsonicControlPolicyParamLoader, map_find]

theorem all_mutex_names_filter (l : List Event) :
    all_mutex_names (l.filter Event.is_mutex_rules) = all_mutex_names l := by
  induction l with
  | nil => rfl
  | cons e rest ih =>
    cases e <;> simp [List.filter, Event.is_mutex_rules, all_mutex_names, Event.mutex_names, ih]

theorem map_find_eq_some_of_mem (al : Allocator) {m : List (RulePtr × List String)}
    (hm : MapSorted al m) {k : RulePtr} {ns : List String} (h : (k, ns) ∈ m) :
    map_find k m = some ns := by
  induction m with
  | nil => simp at h
  | cons e rest ih =>
    rcases e with ⟨k1, ns1⟩
    unfold MapSorted at hm ih
    rw [List.pairwise_cons] at hm
    rcases List.mem_cons.mp h with h | h
    · cases h
      simp [map_find]
    · have hlt := hm.1 (k, ns) h
      have hne : k1 ≠ k := by
        intro hk
        rw [hk] at hlt
        exact Nat.lt_irrefl _ hlt
      simp only [map_find, if_neg hne]
      exact ih hm.2 h

theorem mem_of_map_find_eq_some {m : List (RulePtr × List String)} {k : RulePtr}
    {ns : List String} (h : map_find k m = some ns) : (k, ns) ∈ m := by
  induction m with
  | nil => simp [map_find] at h
  | cons e rest ih =>
    rcases e with ⟨k1, ns1⟩
    simp only [map_find] at h
    by_cases hk : k1 = k
    · simp only [if_pos hk, Option.some.injEq] at h
      subst hk; subst h
      exact List.mem_cons_self _ _
    · simp only [if_neg hk] at h
      exact List.mem_cons_of_mem _ (ih h)

/-- C2: when the load succeeds, the rule declared by the `a`-th `name` key has
name `A`, and the only `mutex` key met while it is the current rule is
`mutex: [B, C]`, then `B` and `C` resolve to rules `b` and `c` of the registry
and the `disjunct_rules_` of that rule is exactly `[b, c]` (pointers into the
registry, not copies). -/
theorem C2_mutex_pair_resolved (env : Env) (conf path : String) (mi : Int) (aa : Bool)
    (s' : Loader) (a : Nat) (A B C : String)
    (hpath : get_absolute_path env conf [] = .ok path)
    (hio : (env.stream path).2 = false)
    (hload : load_config env (JsonicControlPolicyParamLoader conf mi aa) = .ok s')
    (hA : (name_values (doc_events (env.stream path).1))[a]? = some (.str A))
    (hmutex : (rule_keys (doc_events (env.stream path).1) a).filter Event.is_mutex_rules =
      [.mutex_rules (.array (Values.ofList [.str B, .str C]))]) :
    ∃ pa b c, (get_rules s')[a]? = some pa ∧ s'.name_of pa = some A ∧
      get_rule s' B = .ok (some b) ∧ get_rule s' C = .ok (some c) ∧
      b ∈ get_rules s' ∧ c ∈ get_rules s' ∧
      s'.name_of b = some B ∧ s'.name_of c = some C ∧
      s'.disjunct_rules_of pa = some [b, c] := by
  rcases load_config_ok (s := JsonicControlPolicyParamLoader conf mi aa) hpath hio hload
    with ⟨s1, hwalk, hres⟩
  rw [load_config_loop_eq_run_events] at hwalk
  rcases fresh_walk hwalk with ⟨strs, hv, hr, hn, hl, hsorted, hfind⟩
  -- the names pushed to the entry of the rule
  have hnames : all_mutex_names (rule_keys (doc_events (env.stream path).1) a) = [B, C] := by
    rw [← all_mutex_names_filter, hmutex]
    simp [all_mutex_names, Event.mutex_names, mutex_names, Values.toList_ofList, Value.str?]
  have hpushed : pushed (doc_events (env.stream path).1) none 0 (some a) = [B, C] := by
    have := pushed_rule_keys (doc_events (env.stream path).1) none 0 a (by simp)
    rw [Nat.zero_add] at this
    rw [this, hnames]
  have hentry : map_find (some a) s1.rule_mutex_map_ = some [B, C] := by
    rw [hfind, hpushed]
    simp [entry_extend]
  -- the rule exists
  have ha : a < strs.length := by
    have hlen : (name_values (doc_events (env.stream path).1)).length = strs.length := by
      rw [hv, List.length_map]
    rw [← hlen]
    by_contra hcon
    rw [List.getElem?_eq_none (Nat.le_of_not_lt hcon)] at hA
    cases hA
  have hAname : strs[a]? = some A := by
    rw [hv, List.getElem?_map] at hA
    cases hs : strs[a]? with
    | none => simp [hs] at hA
    | some x => simpa [hs] using hA
  have hheaplen : s1.heap.length = strs.length := by
    have := congrArg List.length hn
    simpa using this
  have hra : ∃ r, s1.heap[a]? = some r := ⟨s1.heap[a], List.getElem?_eq_getElem (by omega)⟩
  rcases hra with ⟨r, hr1⟩
  have hrl : r.disjunct_rules_ = [] := by
    have h1 : (s1.heap.map Rule.disjunct_rules_)[a]? = some r.disjunct_rules_ := by
      simp [hr1]
    rw [hl] at h1
    rw [List.getElem?_replicate] at h1
    simp [ha] at h1
    exact h1
  -- the resolver
  have hframe : ResolverFrame s1 s' := by
    have := set_disjunct_rules_frame s1
    rw [hres] at this
    exact this
  unfold set_disjunct_rules at hres
  rcases set_disjunct_rules_loop_links env.alloc s1.rule_mutex_map_ s1 hsorted with
    ⟨hall, hlinks⟩
  rcases hlinks a r hr1 with ⟨r1, hr1', done, -, hdone, hd⟩
  rw [hres] at hr1'
  simp only [Run.state] at hr1'
  have hdone' := hdone ⟨s', hres⟩
  rw [hentry] at hdone'
  simp only [Option.getD_some] at hdone'
  have hmem := mem_of_map_find_eq_some hentry
  rcases hall ⟨s', hres⟩ _ hmem B (by simp) with ⟨b, hb⟩
  rcases hall ⟨s', hres⟩ _ hmem C (by simp) with ⟨c, hc⟩
  have hb' := get_rule_loop_some hb
  have hc' := get_rule_loop_some hc
  refine ⟨a, b, c, ?_, ?_, ?_, ?_, ?_, ?_, ?_, ?_, ?_⟩
  · simp only [get_rules, hframe.rules_eq, hr]
    rw [List.getElem?_range' _ _ ha]
    simp
  · rw [Loader.name_of_eq, hframe.names_eq, hn, hAname]
  · rw [hframe.get_rule_eq]; exact hb
  · rw [hframe.get_rule_eq]; exact hc
  · simp only [get_rules, hframe.rules_eq]; exact hb'.1
  · simp only [get_rules, hframe.rules_eq]; exact hc'.1
  · rw [Loader.name_of_eq, hframe.names_eq, List.getElem?_map]; exact hb'.2
  · rw [Loader.name_of_eq, hframe.names_eq, List.getElem?_map]; exact hc'.2
  · simp only [Loader.disjunct_rules_of, Loader.deref, hr1', Option.map_some', hd, hrl,
      hdone', List.nil_append, link_targets, List.filterMap_cons, hb, hc,
      List.filterMap_nil]

/-- C2 at a document in which `R1` declares `mutex: ["R2", "R3"]`. -/
theorem C2_mutex_pair_resolved_witness :
    ∃ pa b c, (get_rules two_mutex_loaded)[0]? = some pa ∧
      two_mutex_loaded.name_of pa = some "R1" ∧
      get_rule two_mutex_loaded "R2" = .ok (some b) ∧
      get_rule two_mutex_loaded "R3" = .ok (some c) ∧
      b ∈ get_rules two_mutex_loaded ∧ c ∈ get_rules two_mutex_loaded ∧
      two_mutex_loaded.name_of b = some "R2" ∧ two_mutex_loaded.name_of c = some "R3" ∧
      two_mutex_loaded.disjunct_rules_of pa = some [b, c] :=
  C2_mutex_pair_resolved (sample_env [two_mutex_doc]) "policy.json" "./policy.json" 0 false
    two_mutex_loaded 0 "R1" "R2" "R3" rfl rfl (by decide!) rfl rfl

/-! ## When the resolver fails -/

theorem Loader.update_total {s : Loader} {i : Nat} (f : Rule → Rule) (h : i < s.heap.length) :
    ∃ s1, s.update (some i) f = .ok s1 ∧ s1.heap.length = s.heap.length ∧
      s1.rules_ = s.rules_ := by
  unfold Loader.update
  simp only [List.getElem?_eq_getElem h]
  exact ⟨_, rfl, by simp, rfl⟩

theorem set_disjunct_rules_names_total (k : RulePtr) (ns : List String) (s : Loader)
    (hr : ∀ p ∈ s.rules_, p < s.heap.length)
    (hk : ∃ i, k = some i ∧ i < s.heap.length) :
    (∃ s1, set_disjunct_rules_names k ns s = .ok s1) ∨
      ∃ n s1, set_disjunct_rules_names k ns s = .error (.invalid_argument n, s1) := by
  induction ns generalizing s with
  | nil => exact Or.inl ⟨s, rfl⟩
  | cons name rest ih =>
    rw [set_disjunct_rules_names]
    rcases get_rule_loop_total name hr with ⟨q, hq⟩
    have hq' : get_rule s name = .ok q := hq
    rw [hq']
    cases q with
    | none => exact Or.inr ⟨name, s, rfl⟩
    | some p =>
      simp only
      rcases hk with ⟨i, hki, hi⟩
      subst hki
      rcases Loader.update_total (fun c => c.add_disjunct_rule p) hi with ⟨s1, hu, hlen, hrules⟩
      rw [hu]
      simp only
      exact ih s1 (by rw [hrules, hlen]; exact hr) ⟨i, rfl, by rw [hlen]; exact hi⟩

theorem ResolverFrame.heap_length_eq {s s1 : Loader} (h : ResolverFrame s s1) :
    s1.heap.length = s.heap.length := by
  have := congrArg List.length h.names_eq
  simpa using this

theorem set_disjunct_rules_loop_total (m : List (RulePtr × List String)) (s : Loader)
    (hr : ∀ p ∈ s.rules_, p < s.heap.length)
    (hk : ∀ e ∈ m, ∃ i, e.1 = some i ∧ i < s.heap.length) :
    (∃ s1, set_disjunct_rules_loop m s = .ok s1) ∨
      ∃ n s1, set_disjunct_rules_loop m s = .error (.invalid_argument n, s1) := by
  induction m generalizing s with
  | nil => exact Or.inl ⟨s, rfl⟩
  | cons entry rest ih =>
    rcases entry with ⟨k, ns⟩
    rw [set_disjunct_rules_loop]
    have hframe := set_disjunct_rules_names_frame k ns s
    rcases set_disjunct_rules_names_total k ns s hr (hk (k, ns) (List.mem_cons_self _ _)) with
      ⟨s1, h1⟩ | ⟨n, s1, h1⟩
    · rw [h1] at hframe ⊢
      simp only [Run.state] at hframe
      simp only
      apply ih s1
      · rw [hframe.rules_eq, hframe.heap_length_eq]; exact hr
      · intro e he
        rcases hk e (List.mem_cons_of_mem _ he) with ⟨i, hi1, hi2⟩
        exact ⟨i, hi1, by rw [hframe.heap_length_eq]; exact hi2⟩
    · rw [h1]
      exact Or.inr ⟨n, s1, rfl⟩

theorem load_config_eq_resolver {env : Env} {s s1 : Loader} {path : String}
    (hpath : get_absolute_path env s.conf_path_ [] = .ok path)
    (hio : (env.stream path).2 = false)
    (hwalk : load_config_loop env (env.stream path).1 s = .ok s1) :
    load_config env s = set_disjunct_rules s1 := by
  unfold load_config
  rw [load_config_try_after_walk hpath hwalk]
  simp only [hio, Bool.false_eq_true, if_false]
  cases hr : set_disjunct_rules s1 with
  | ok s2 => rfl
  | error x =>
    rcases x with ⟨e, s2⟩
    rcases set_disjunct_rules_loop_error hr with h1 | ⟨_, _, n, _, h1, _⟩
    · subst h1; rfl
    · subst h1; rfl

theorem all_mutex_names_eq_nil (l : List Event) (h : ∀ e ∈ l, e.is_mutex_rules = false) :
    all_mutex_names l = [] := by
  induction l with
  | nil => rfl
  | cons e rest ih =>
    have he := h e (List.mem_cons_self _ _)
    have hr := ih (fun x hx => h x (List.mem_cons_of_mem _ hx))
    cases e with
    | mutex_rules v => simp [Event.is_mutex_rules] at he
    | _ => simpa [all_mutex_names, Event.mutex_names] using hr

theorem entry_extend_none_eq_some {names ns : List String}
    (h : entry_extend none names = some ns) : names = ns ∧ names ≠ [] := by
  unfold entry_extend at h
  by_cases hn : names = []
  · simp [hn] at h
  · simp only [if_neg hn, Option.getD_none, List.nil_append, Option.some.injEq] at h
    exact ⟨h, hn⟩

/-- C3: when the walk succeeds, the stream does not fail and no `mutex` key
precedes the first `name` key, `load_config` throws the dangling-reference
error (`invalid_argument`) exactly when some name listed by a `mutex` key is
the name of no rule of the registry; the error leaves `load_config`. -/
theorem C3_dangling_reference_iff (env : Env) (conf path : String) (mi : Int) (aa : Bool)
    (s1 : Loader)
    (hpath : get_absolute_path env conf [] = .ok path)
    (hio : (env.stream path).2 = false)
    (hwalk : load_config_loop env (env.stream path).1
      (JsonicControlPolicyParamLoader conf mi aa) = .ok s1)
    (hunder : ∀ e ∈ (doc_events (env.stream path).1).takeWhile (fun e => !e.is_rule_name),
      e.is_mutex_rules = false) :
    (∃ n s', load_config env (JsonicControlPolicyParamLoader conf mi aa)
        = .error (.invalid_argument n, s')) ↔
    ∃ n ∈ all_mutex_names (doc_events (env.stream path).1),
      ∀ p ∈ get_rules s1, s1.name_of p ≠ some n := by
  rw [load_config_eq_resolver (s := JsonicControlPolicyParamLoader conf mi aa) hpath hio hwalk]
  rw [load_config_loop_eq_run_events] at hwalk
  rcases fresh_walk hwalk with ⟨strs, hv, hr, hn, hl, hsorted, hfind⟩
  have hheaplen : s1.heap.length = strs.length := by
    have := congrArg List.length hn
    simpa using this
  have hvalid : ∀ p ∈ s1.rules_, p < s1.heap.length := by
    intro p hp
    rw [hr] at hp
    rw [hheaplen]
    simpa using (List.mem_range'_1.mp hp).2
  have hnone : pushed (doc_events (env.stream path).1) none 0 none = [] := by
    rw [pushed_before_first_rule]
    exact all_mutex_names_eq_nil _ hunder
  have hentry : ∀ e ∈ s1.rule_mutex_map_,
      pushed (doc_events (env.stream path).1) none 0 e.1 = e.2 ∧ e.2 ≠ [] := by
    intro e he
    have he' : (e.1, e.2) ∈ s1.rule_mutex_map_ := he
    have h1 := map_find_eq_some_of_mem env.alloc hsorted he'
    rw [hfind] at h1
    have h2 := entry_extend_none_eq_some h1
    exact ⟨h2.1, by rw [← h2.1]; exact h2.2⟩
  have hkeys : ∀ e ∈ s1.rule_mutex_map_, ∃ i, e.1 = some i ∧ i < s1.heap.length := by
    intro e he
    have h1 := hentry e he
    have hne : pushed (doc_events (env.stream path).1) none 0 e.1 ≠ [] := by
      rw [h1.1]; exact h1.2
    rcases pushed_key _ _ _ _ hne with hk | ⟨i, hi, -, hlt⟩
    · rw [hk, hnone] at hne
      exact absurd rfl hne
    · refine ⟨i, hi, ?_⟩
      rw [hheaplen]
      have hlen : (name_values (doc_events (env.stream path).1)).length = strs.length := by
        rw [hv, List.length_map]
      omega
  constructor
  · rintro ⟨n, s', herr⟩
    have hframe : ResolverFrame s1 s' := by
      have := set_disjunct_rules_frame s1
      rw [herr] at this
      exact this
    rcases set_disjunct_rules_loop_error herr with h1 | ⟨e, he, n', hn', h1, h2⟩
    · cases h1
    · cases h1
      refine ⟨n, ?_, ?_⟩
      · have := (hentry e he).1
        apply mem_all_mutex_names_of_mem_pushed _ none 0 e.1
        rw [this]
        exact hn'
      · rw [hframe.get_rule_eq] at h2
        intro p hp
        rw [Loader.name_of_eq, List.getElem?_map]
        exact get_rule_loop_none h2 p hp
  · rintro ⟨n, hmem, hdangling⟩
    rcases set_disjunct_rules_loop_total s1.rule_mutex_map_ s1 hvalid hkeys with
      ⟨s', hok⟩ | ⟨n', s', herr⟩
    · exfalso
      rcases exists_mem_pushed_of_mem_all_mutex_names _ none 0 n hmem with ⟨k, hk⟩
      have hfk := hfind k
      have hne : pushed (doc_events (env.stream path).1) none 0 k ≠ [] := by
        intro h0; rw [h0] at hk; simp at hk
      simp only [entry_extend, if_neg hne, Option.getD_none, List.nil_append] at hfk
      have hmemk := mem_of_map_find_eq_some hfk
      rcases (set_disjunct_rules_loop_links env.alloc s1.rule_mutex_map_ s1 hsorted).1
        ⟨s', hok⟩ _ hmemk n hk with ⟨p, hp⟩
      have hp' := get_rule_loop_some hp
      apply hdangling p hp'.1
      rw [Loader.name_of_eq, List.getElem?_map]
      exact hp'.2
    · exact ⟨n', s', herr⟩

/-- C3 at a document whose rule `R1` lists the undeclared name `R9`. -/
theorem C3_dangling_reference_iff_witness :
    (∃ n s', load_config (sample_env [dangling_doc])
        (JsonicControlPolicyParamLoader "policy.json" 0 false)
        = .error (.invalid_argument n, s')) ↔
    ∃ n ∈ all_mutex_names (doc_events ((sample_env [dangling_doc]).stream "./policy.json").1),
      ∀ p ∈ get_rules dangling_walked, dangling_walked.name_of p ≠ some n :=
  C3_dangling_reference_iff (sample_env [dangling_doc]) "policy.json" "./policy.json" 0 false
    dangling_walked rfl rfl (by decide!) (by decide)

/-! ## Partial results of a failed resolution, and `mutex_sets_` -/

theorem run_events_mutex_sets {env : Env} {evs : List Event} {s s1 : Loader}
    (h : run_events env evs s = .ok s1) : s1.mutex_sets_ = s.mutex_sets_ := by
  induction evs generalizing s with
  | nil =>
    simp only [run_events, Except.ok.injEq] at h
    rw [h]
  | cons e rest ih =>
    rw [run_events] at h
    cases he : e.apply env s with
    | error x => simp [he] at h
    | ok s2 =>
      simp only [he] at h
      rw [ih h]
      rcases Event.apply_ok_frame he with ⟨n, -, rfl⟩ | ⟨-, hf⟩
      · rfl
      · exact hf.mutex_sets_eq

theorem ResolverFrame.mutex_sets_eq {s s1 : Loader} (h : ResolverFrame s s1) :
    s1.mutex_sets_ = s.mutex_sets_ := by
  have := congrArg Loader.mutex_sets_ h.1
  simpa [Loader.members] using this

theorem ResolverFrame.map_eq {s s1 : Loader} (h : ResolverFrame s s1) :
    s1.rule_mutex_map_ = s.rule_mutex_map_ := by
  have := congrArg Loader.rule_mutex_map_ h.1
  simpa [Loader.members] using this

/-- C4, as stated, fails: on `{rules:[{name:"R1",mutex:["R1","R9"]}]}` the load
throws for the dangling name `R9`, yet the link resolved from the earlier name
`R1` has already been appended to the `disjunct_rules_` of `R1`. -/
theorem C4_partial_links_counterexample :
    load_config_loop (sample_env [dangling_doc]) [dangling_doc] sample_loader
      = .ok dangling_walked ∧
    load_config (sample_env [dangling_doc]) sample_loader
      = .error (.invalid_argument "R9", dangling_failed) ∧
    dangling_walked.disjunct_rules_of 0 = some [] ∧
    dangling_failed.disjunct_rules_of 0 = some [0] ∧
    dangling_failed.disjunct_rules_of 0 ≠ dangling_walked.disjunct_rules_of 0 := by
  refine ⟨by decide!, by decide!, by decide, by decide, by decide⟩

/-- C4, amended: when `load_config` fails on a dangling mutex name, the
registry, the exclusion map, the global parameters and every rule's name, cost,
category and source handle are as the walk left them; each rule's
`disjunct_rules_` is its value before the resolver ran followed by the rules
resolved from a prefix of its own mutex list (links resolved before the failure
stay); and `get_mutex_sets` holds no group. -/
theorem C4_failed_resolution_frame (env : Env) (conf path : String) (mi : Int) (aa : Bool)
    (s1 s' : Loader) (n : String)
    (hpath : get_absolute_path env conf [] = .ok path)
    (hwalk : load_config_loop env (env.stream path).1
      (JsonicControlPolicyParamLoader conf mi aa) = .ok s1)
    (hfail : load_config env (JsonicControlPolicyParamLoader conf mi aa)
      = .error (.invalid_argument n, s')) :
    s'.members = s1.members ∧
    s'.heap.map Rule.clear_links = s1.heap.map Rule.clear_links ∧
    (∀ (i : Nat) (r : Rule), s1.heap[i]? = some r →
      ∃ r1 : Rule, s'.heap[i]? = some r1 ∧
        ∃ done, done <+: (map_find (some i) s1.rule_mutex_map_).getD [] ∧
          r1.disjunct_rules_ = r.disjunct_rules_ ++ link_targets s1 done) ∧
    get_mutex_sets s' = [] := by
  have hstate : (load_config env (JsonicControlPolicyParamLoader conf mi aa)).state = s' := by
    rw [hfail]; rfl
  have hframe := load_config_frame_after_walk (s := JsonicControlPolicyParamLoader conf mi aa)
    hpath hwalk
  rw [hstate] at hframe
  have htry : (load_config_try env (JsonicControlPolicyParamLoader conf mi aa)).state = s' := by
    rw [← load_config_state]; exact hstate
  rw [load_config_try_after_walk (s := JsonicControlPolicyParamLoader conf mi aa) hpath hwalk]
    at htry
  rw [load_config_loop_eq_run_events] at hwalk
  rcases fresh_walk hwalk with ⟨strs, -, -, -, -, hsorted, -⟩
  refine ⟨hframe.1, hframe.2.1, ?_, ?_⟩
  · intro i r hr
    by_cases hio : (env.stream path).2 = true
    · simp only [hio, if_true, Run.state] at htry
      subst htry
      exact ⟨r, hr, [], List.nil_prefix, by simp [link_targets]⟩
    · simp only [hio, Bool.false_eq_true, if_false] at htry
      rcases (set_disjunct_rules_loop_links env.alloc s1.rule_mutex_map_ s1 hsorted).2 i r hr
        with ⟨r1, hr1, done, hpre, -, hd⟩
      unfold set_disjunct_rules at htry
      rw [htry] at hr1
      exact ⟨r1, hr1, done, hpre, hd⟩
  · simp only [get_mutex_sets]
    rw [hframe.mutex_sets_eq, run_events_mutex_sets hwalk]
    rfl

/-- C4, amended, at the document whose rule `R1` lists `R1` and the undeclared
`R9`. -/
theorem C4_failed_resolution_frame_witness :
    dangling_failed.members = dangling_walked.members ∧
    dangling_failed.heap.map Rule.clear_links = dangling_walked.heap.map Rule.clear_links ∧
    (∃ r1 : Rule, dangling_failed.heap[0]? = some r1 ∧
      ∃ done, done <+: (map_find (some 0) dangling_walked.rule_mutex_map_).getD [] ∧
        r1.disjunct_rules_ =
          (Rule.mk none "R1" "" none []).disjunct_rules_ ++ link_targets dangling_walked done) ∧
    get_mutex_sets dangling_failed = [] :=
  have h := C4_failed_resolution_frame (sample_env [dangling_doc]) "policy.json"
    "./policy.json" 0 false dangling_walked dangling_failed "R9" rfl (by decide!) (by decide!)
  ⟨h.1, h.2.1, h.2.2.1 0 (Rule.mk none "R1" "" none []) rfl, h.2.2.2⟩

/-- C5 fails on the code: for the round-trip document the load succeeds and
resolves `R2`'s mutex declaration to `R1`, but `get_mutex_sets` returns no
group at all (`mutex_sets_` is never written). -/
theorem C5_mutex_sets_empty_on_round_trip :
    load_config (sample_env [round_trip_doc]) sample_loader = .ok round_trip_loaded ∧
    round_trip_loaded.disjunct_rules_of 1 = some [0] ∧
    get_mutex_sets round_trip_loaded = [] := by
  refine ⟨by decide!, by decide, by decide⟩

/-- C10, as stated, fails: after the successful load of the round-trip
document the exclusion declaration map still holds the entry of `R2`. -/
theorem C10_map_not_emptied_counterexample :
    load_config (sample_env [round_trip_doc]) sample_loader = .ok round_trip_loaded ∧
    round_trip_loaded.rule_mutex_map_ = [(some 1, ["R1"])] ∧
    round_trip_loaded.rule_mutex_map_ ≠ [] := by
  refine ⟨by decide!, by decide, by decide⟩

/-- C10, amended: after a successful load the exclusion declaration map is
exactly the map the walk recorded (the resolver reads it and does not clear
it); it is empty exactly when no `mutex` key of the document lists a name. -/
theorem C10_map_kept_after_load (env : Env) (conf path : String) (mi : Int) (aa : Bool)
    (s' : Loader)
    (hpath : get_absolute_path env conf [] = .ok path)
    (hio : (env.stream path).2 = false)
    (hload : load_config env (JsonicControlPolicyParamLoader conf mi aa) = .ok s') :
    (∃ s1, load_config_loop env (env.stream path).1
        (JsonicControlPolicyParamLoader conf mi aa) = .ok s1 ∧
      s'.rule_mutex_map_ = s1.rule_mutex_map_) ∧
    (s'.rule_mutex_map_ = [] ↔ all_mutex_names (doc_events (env.stream path).1) = []) := by
  rcases load_config_ok (s := JsonicControlPolicyParamLoader conf mi aa) hpath hio hload
    with ⟨s1, hwalk, hres⟩
  have hframe : ResolverFrame s1 s' := by
    have := set_disjunct_rules_frame s1
    rw [hres] at this
    exact this
  refine ⟨⟨s1, hwalk, hframe.map_eq⟩, ?_⟩
  rw [hframe.map_eq]
  rw [load_config_loop_eq_run_events] at hwalk
  rcases fresh_walk hwalk with ⟨strs, -, -, -, -, hsorted, hfind⟩
  constructor
  · intro hempty
    by_contra hne
    rcases List.exists_mem_of_ne_nil _ hne with ⟨x, hx⟩
    rcases exists_mem_pushed_of_mem_all_mutex_names _ none 0 x hx with ⟨k, hk⟩
    have hfk := hfind k
    have hpne : pushed (doc_events (env.stream path).1) none 0 k ≠ [] := by
      intro h0; rw [h0] at hk; simp at hk
    rw [hempty] at hfk
    simp [map_find, entry_extend, hpne] at hfk
  · intro hnil
    cases hm : s1.rule_mutex_map_ with
    | nil => rfl
    | cons e rest =>
      exfalso
      have hmem : (e.1, e.2) ∈ s1.rule_mutex_map_ := by
        rw [hm]; exact List.mem_cons_self _ _
      have h1 := map_find_eq_some_of_mem env.alloc hsorted hmem
      rw [hfind] at h1
      have h2 := entry_extend_none_eq_some h1
      rcases List.exists_mem_of_ne_nil _ h2.2 with ⟨x, hx⟩
      have := mem_all_mutex_names_of_mem_pushed _ _ _ _ x hx
      rw [hnil] at this
      simp at this

/-- C10, amended, at the round-trip document. -/
theorem C10_map_kept_after_load_witness :
    (∃ s1, load_config_loop (sample_env [round_trip_doc])
        ((sample_env [round_trip_doc]).stream "./policy.json").1
        (JsonicControlPolicyParamLoader "policy.json" 0 false) = .ok s1 ∧
      round_trip_loaded.rule_mutex_map_ = s1.rule_mutex_map_) ∧
    (round_trip_loaded.rule_mutex_map_ = [] ↔
      all_mutex_names (doc_events ((sample_env [round_trip_doc]).stream "./policy.json").1)
        = []) :=
  C10_map_kept_after_load (sample_env [round_trip_doc]) "policy.json" "./policy.json" 0 false
    round_trip_loaded rfl rfl (by decide!)

/-! ## Global parameters: the last write wins -/

theorem run_events_split {env : Env} {pre post : List Event} {e : Event} {s s1 : Loader}
    (h : run_events env (pre ++ e :: post) s = .ok s1) :
    ∃ s2 s3, run_events env pre s = .ok s2 ∧ e.apply env s2 = .ok s3 ∧
      run_events env post s3 = .ok s1 := by
  rw [run_events_append] at h
  cases hp : run_events env pre s with
  | error x => simp [hp] at h
  | ok s2 =>
    simp only [hp] at h
    rw [run_events] at h
    cases he : e.apply env s2 with
    | error x => simp [he] at h
    | ok s3 =>
      simp only [he] at h
      exact ⟨s2, s3, rfl, he, h⟩

theorem Event.apply_globals {env : Env} {e : Event} {s s1 : Loader}
    (h : e.apply env s = .ok s1) :
    (e.is_max_iter = false → s1.max_iter_ = s.max_iter_) ∧
    (e.is_attention_alloc = false → s1.attention_alloc_ = s.attention_alloc_) ∧
    (e.is_log_level = false → s1.log_level_ = s.log_level_) := by
  rcases Event.apply_ok_frame h with ⟨n, -, rfl⟩ | ⟨-, hf⟩
  · exact ⟨fun _ => rfl, fun _ => rfl, fun _ => rfl⟩
  · exact ⟨hf.max_iter_eq, hf.attention_alloc_eq, hf.log_level_eq⟩

theorem run_events_max_iter {env : Env} {evs : List Event} {s s1 : Loader}
    (h : run_events env evs s = .ok s1) (hno : ∀ e ∈ evs, e.is_max_iter = false) :
    s1.max_iter_ = s.max_iter_ := by
  induction evs generalizing s with
  | nil =>
    simp only [run_events, Except.ok.injEq] at h
    rw [h]
  | cons e rest ih =>
    rw [run_events] at h
    cases he : e.apply env s with
    | error x => simp [he] at h
    | ok s2 =>
      simp only [he] at h
      rw [ih h (fun x hx => hno x (List.mem_cons_of_mem _ hx))]
      exact (Event.apply_globals he).1 (hno e (List.mem_cons_self _ _))

theorem run_events_attention_alloc {env : Env} {evs : List Event} {s s1 : Loader}
    (h : run_events env evs s = .ok s1) (hno : ∀ e ∈ evs, e.is_attention_alloc = false) :
    s1.attention_alloc_ = s.attention_alloc_ := by
  induction evs generalizing s with
  | nil =>
    simp only [run_events, Except.ok.injEq] at h
    rw [h]
  | cons e rest ih =>
    rw [run_events] at h
    cases he : e.apply env s with
    | error x => simp [he] at h
    | ok s2 =>
      simp only [he] at h
      rw [ih h (fun x hx => hno x (List.mem_cons_of_mem _ hx))]
      exact (Event.apply_globals he).2.1 (hno e (List.mem_cons_self _ _))

theorem run_events_log_level {env : Env} {evs : List Event} {s s1 : Loader}
    (h : run_events env evs s = .ok s1) (hno : ∀ e ∈ evs, e.is_log_level = false) :
    s1.log_level_ = s.log_level_ := by
  induction evs generalizing s with
  | nil =>
    simp only [run_events, Except.ok.injEq] at h
    rw [h]
  | cons e rest ih =>
    rw [run_events] at h
    cases he : e.apply env s with
    | error x => simp [he] at h
    | ok s2 =>
      simp only [he] at h
      rw [ih h (fun x hx => hno x (List.mem_cons_of_mem _ hx))]
      exact (Event.apply_globals he).2.2 (hno e (List.mem_cons_self _ _))

theorem toInt32_of_int_range (n : Int) (h1 : -2147483648 ≤ n) (h2 : n < 2147483648) :
    toInt32 n = n := by
  unfold toInt32
  omega

/-- C6: when the walk of a document succeeds, each global parameter holds the
value of the last occurrence of its key in document order, whatever earlier
occurrences said: `max_iter_` is the integer of the last `max-iteration` key (as
an `int`), `attention_alloc_` the boolean of the last `attention-allocation`
key and `log_level_` the string of the last `log-level` key. -/
theorem C6_globals_last_write_wins (env : Env) (docs : List Value) (s s1 : Loader)
    (hwalk : load_config_loop env docs s = .ok s1) :
    (∀ pre v post, doc_events docs = pre ++ .max_iter v :: post →
      (∀ e ∈ post, e.is_max_iter = false) →
      ∃ n, v = .int n ∧ get_max_iter s1 = toInt32 n ∧
        (-2147483648 ≤ n → n < 2147483648 → get_max_iter s1 = n)) ∧
    (∀ pre v post, doc_events docs = pre ++ .attention_alloc v :: post →
      (∀ e ∈ post, e.is_attention_alloc = false) →
      v = .bool (get_attention_alloc s1)) ∧
    (∀ pre v post, doc_events docs = pre ++ .log_level v :: post →
      (∀ e ∈ post, e.is_log_level = false) →
      v = .str s1.log_level_) := by
  rw [load_config_loop_eq_run_events] at hwalk
  refine ⟨?_, ?_, ?_⟩
  · intro pre v post hev hno
    rw [hev] at hwalk
    rcases run_events_split hwalk with ⟨s2, s3, -, he, hpost⟩
    rcases read_obj_max_iter_ok he with ⟨n, hv, hs3⟩
    have hm := run_events_max_iter hpost hno
    rw [hs3] at hm
    simp only at hm
    refine ⟨n, hv, hm, fun h1 h2 => ?_⟩
    simp only [get_max_iter, hm]
    exact toInt32_of_int_range n h1 h2
  · intro pre v post hev hno
    rw [hev] at hwalk
    rcases run_events_split hwalk with ⟨s2, s3, -, he, hpost⟩
    rcases read_obj_attention_alloc_ok he with ⟨b, hv, hs3⟩
    have hm := run_events_attention_alloc hpost hno
    rw [hs3] at hm
    simp only at hm
    simp only [get_attention_alloc, hm, hv]
  · intro pre v post hev hno
    rw [hev] at hwalk
    rcases run_events_split hwalk with ⟨s2, s3, -, he, hpost⟩
    rcases read_obj_log_level_ok he with ⟨l, hv, hs3⟩
    have hm := run_events_log_level hpost hno
    rw [hs3] at hm
    simp only at hm
    simp only [hm, hv]

/-- C6 at a document that sets each global parameter twice: the second values
`7`, `true` and `"debug"` are the final ones. -/
theorem C6_globals_last_write_wins_witness :
    (∃ n, Value.int 7 = .int n ∧ get_max_iter twice_walked = toInt32 n ∧
        (-2147483648 ≤ n → n < 2147483648 → get_max_iter twice_walked = n)) ∧
    Value.bool true = .bool (get_attention_alloc twice_walked) ∧
    Value.str "debug" = .str twice_walked.log_level_ :=
  have h := C6_globals_last_write_wins (sample_env [twice_doc]) [twice_doc] sample_loader
    twice_walked (by decide!)
  ⟨h.1 [.max_iter (.int 3), .log_level (.str "info"), .attention_alloc (.bool false)]
      (.int 7) [.attention_alloc (.bool true), .log_level (.str "debug")] rfl (by decide),
   h.2.1 [.max_iter (.int 3), .log_level (.str "info"), .attention_alloc (.bool false),
      .max_iter (.int 7)] (.bool true) [.log_level (.str "debug")] rfl (by decide),
   h.2.2 [.max_iter (.int 3), .log_level (.str "info"), .attention_alloc (.bool false),
      .max_iter (.int 7), .attention_alloc (.bool true)] (.str "debug") [] rfl (by decide)⟩

/-! ## Unknown keys with scalar values -/

theorem events_of_scalar (v : Value) (h : v.is_scalar = true) : events v = [] := by
  cases v <;> first | rfl | simp [Value.is_scalar] at h

theorem events_obj_unknown_scalar (key : String) (value : Value) (rest : Pairs)
    (hkey : key ∉ recognized_keys) (hval : value.is_scalar = true) :
    events_obj (.cons key value rest) = events_obj rest := by
  simp only [recognized_keys, List.mem_cons, List.mem_singleton, not_or, List.not_mem_nil,
    not_false_eq_true, and_true] at hkey
  rcases hkey with ⟨h1, h2, h3, h4, h5, h6, h7, h8, h9⟩
  have h8' : ¬ (key = MUTEX_RULES ∧ value.is_null = false) := fun h => h8 h.1
  rw [events_obj_cons]
  simp only [if_neg h1, if_neg h2, if_neg h3, if_neg h4, if_neg h5, if_neg h6, if_neg h7,
    if_neg h8', if_neg h9, if_neg h8, events_of_scalar value hval, List.nil_append]

theorem events_obj_insert_unknown_scalar (key : String) (value : Value)
    (l1 l2 : List (String × Value))
    (hkey : key ∉ recognized_keys) (hval : value.is_scalar = true) :
    events_obj (Pairs.ofList (l1 ++ (key, value) :: l2)) = events_obj (Pairs.ofList (l1 ++ l2)) := by
  induction l1 with
  | nil =>
    simp only [List.nil_append, Pairs.ofList]
    exact events_obj_unknown_scalar key value _ hkey hval
  | cons p rest ih =>
    rcases p with ⟨k, v⟩
    show events_obj (.cons k v (Pairs.ofList (rest ++ (key, value) :: l2))) =
      events_obj (.cons k v (Pairs.ofList (rest ++ l2)))
    rw [events_obj_cons, events_obj_cons, ih]

theorem doc_events_append (d1 d2 : List Value) :
    doc_events (d1 ++ d2) = doc_events d1 ++ doc_events d2 := by
  induction d1 with
  | nil => rfl
  | cons v rest ih => simp [doc_events, ih]

theorem read_obj_mutex_loop_stream (env : Env) (f : String → List Value × Bool)
    (a : List Value) (s : Loader) :
    read_obj_mutex_loop { env with stream := f } a s = read_obj_mutex_loop env a s := by
  induction a generalizing s with
  | nil => rfl
  | cons v rest ih =>
    rw [read_obj_mutex_loop, read_obj_mutex_loop]
    cases v.get_str with
    | error e => rfl
    | ok name => exact ih _

theorem Event.apply_stream (env : Env) (f : String → List Value × Bool) (e : Event)
    (s : Loader) : e.apply { env with stream := f } s = e.apply env s := by
  cases e with
  | mutex_rules v =>
    simp only [Event.apply, read_obj_mutex_rules]
    cases v.get_array with
    | error x => rfl
    | ok a => exact read_obj_mutex_loop_stream env f a.toList s
  | _ => rfl

theorem run_events_stream (env : Env) (f : String → List Value × Bool) (evs : List Event)
    (s : Loader) : run_events { env with stream := f } evs s = run_events env evs s := by
  induction evs generalizing s with
  | nil => rfl
  | cons e rest ih =>
    rw [run_events, run_events, Event.apply_stream]
    cases e.apply env s with
    | error x => rfl
    | ok s1 => exact ih s1

theorem get_absolute_path_loop_stream (env : Env) (f : String → List Value × Bool)
    (filename : String) (paths : List String) :
    get_absolute_path_loop { env with stream := f } filename paths =
      get_absolute_path_loop env filename paths := by
  induction paths with
  | nil => rfl
  | cons p rest ih =>
    simp only [get_absolute_path_loop]
    rw [ih]

/-- C7: adding a key that is none of the nine recognized field names, with a
scalar (or null) value, anywhere among the pairs of a top-level object changes
nothing: from every loader state the walk of the document with the key ends
exactly as the walk of the document without it, with the same error or with the
same registry, rules, exclusion map and global parameters; and `load_config` on
a configuration file that differs only by that key ends in the same way. -/
theorem C7_unknown_scalar_key_ignored (env : Env) (key : String) (value : Value)
    (l1 l2 : List (String × Value)) (before after : List Value) (s : Loader)
    (hkey : key ∉ recognized_keys) (hval : value.is_scalar = true) :
    load_config_loop env
        (before ++ .obj (Pairs.ofList (l1 ++ (key, value) :: l2)) :: after) s =
      load_config_loop env (before ++ .obj (Pairs.ofList (l1 ++ l2)) :: after) s ∧
    (∀ lev, read_json env (.obj (Pairs.ofList (l1 ++ (key, value) :: l2))) lev s =
      read_json env (.obj (Pairs.ofList (l1 ++ l2))) lev s) ∧
    (∀ (f : String → List Value × Bool) (path : String),
      get_absolute_path env s.conf_path_ [] = .ok path →
      (env.stream path).1 = before ++ .obj (Pairs.ofList (l1 ++ l2)) :: after →
      f path = (before ++ .obj (Pairs.ofList (l1 ++ (key, value) :: l2)) :: after,
        (env.stream path).2) →
      load_config { env with stream := f } s = load_config env s) := by
  have hev := events_obj_insert_unknown_scalar key value l1 l2 hkey hval
  have hloop : ∀ e : Env, load_config_loop e
        (before ++ .obj (Pairs.ofList (l1 ++ (key, value) :: l2)) :: after) s =
      load_config_loop e (before ++ .obj (Pairs.ofList (l1 ++ l2)) :: after) s := by
    intro e
    rw [load_config_loop_eq_run_events, load_config_loop_eq_run_events, doc_events_append,
      doc_events_append]
    simp only [doc_events, events, hev]
  refine ⟨hloop env, ?_, ?_⟩
  · intro lev
    rw [read_json_eq_run_events, read_json_eq_run_events]
    simp only [events, hev]
  · intro f path hpath hdoc hf
    have hpath' : get_absolute_path { env with stream := f } s.conf_path_ [] = .ok path := by
      rw [← hpath]
      unfold get_absolute_path
      exact get_absolute_path_loop_stream env f _ _
    have hwalk : load_config_loop { env with stream := f } (f path).1 s =
        load_config_loop env (env.stream path).1 s := by
      rw [hf, hdoc, hloop, load_config_loop_eq_run_events, load_config_loop_eq_run_events,
        run_events_stream]
    have htry : load_config_try { env with stream := f } s = load_config_try env s := by
      unfold load_config_try
      simp only [hpath, hpath']
      rw [hwalk]
      simp only [hf]
    unfold load_config
    rw [htry]

/-- C7 at a one-rule document with `"comment": "x"` added in front. -/
theorem C7_unknown_scalar_key_ignored_witness :
    load_config_loop (sample_env [])
        ([] ++ .obj (Pairs.ofList ([] ++ ("comment", .str "x") ::
          [("rules", .array (Values.ofList [
            .obj (Pairs.ofList [("name", .str "R1"), ("priority", .int 5)])]))])) :: [])
        sample_loader = .ok
      { heap := [Rule.mk none "R1" "" (some 5) []], conf_path_ := "policy.json",
        cur_read_rule_ := some 0, rules_ := [0], rule_mutex_map_ := [], mutex_sets_ := [],
        max_iter_ := 0, attention_alloc_ := false, log_level_ := "", calls := [] } :=
  (C7_unknown_scalar_key_ignored (sample_env []) "comment" (.str "x") []
    [("rules", .array (Values.ofList [
      .obj (Pairs.ofList [("name", .str "R1"), ("priority", .int 5)])]))] [] [] sample_loader
    (by decide) (by decide)).1.trans (by decide!)

/-! ## Empty and null `mutex` declarations -/

theorem all_mutex_names_eq_nil_of_empty (l : List Event)
    (h : ∀ e ∈ l, e.is_mutex_key = true → e.is_empty_or_null_mutex = true) :
    all_mutex_names l = [] := by
  induction l with
  | nil => rfl
  | cons e rest ih =>
    have he := h e (List.mem_cons_self _ _)
    have hr := ih (fun x hx => h x (List.mem_cons_of_mem _ hx))
    cases e with
    | mutex_rules v =>
      have hv := he rfl
      cases v with
      | array a =>
        cases a with
        | nil => simpa [all_mutex_names, Event.mutex_names, mutex_names, Values.toList] using hr
        | cons x xs => simp [Event.is_empty_or_null_mutex] at hv
      | _ => simp [Event.is_empty_or_null_mutex] at hv
    | _ => simpa [all_mutex_names, Event.mutex_names] using hr

/-- C8: when the walk of a freshly constructed loader succeeds and every `mutex`
key met while the `a`-th declared rule is the current rule has the empty array
or null as its value, the exclusion declaration map has no entry keyed by that
rule, not even one with an empty name list. -/
theorem C8_empty_mutex_no_entry (env : Env) (docs : List Value) (conf : String) (mi : Int)
    (aa : Bool) (s1 : Loader) (a : Nat)
    (hwalk : load_config_loop env docs (JsonicControlPolicyParamLoader conf mi aa) = .ok s1)
    (hempty : ∀ e ∈ rule_keys (doc_events docs) a,
      e.is_mutex_key = true → e.is_empty_or_null_mutex = true)
    (pa : Nat) (hpa : (get_rules s1)[a]? = some pa) :
    ¬ ∃ ns, (some pa, ns) ∈ s1.rule_mutex_map_ := by
  rw [load_config_loop_eq_run_events] at hwalk
  rcases fresh_walk hwalk with ⟨strs, -, hr, -, -, hsorted, hfind⟩
  rintro ⟨ns, hmem⟩
  have hpa' : pa = a := by
    simp only [get_rules, hr] at hpa
    by_cases ha : a < strs.length
    · rw [List.getElem?_range' _ _ ha] at hpa
      simpa using hpa.symm
    · rw [List.getElem?_eq_none (by simpa using Nat.le_of_not_lt ha)] at hpa
      cases hpa
  subst hpa'
  have h1 := map_find_eq_some_of_mem env.alloc hsorted hmem
  rw [hfind] at h1
  have hp := pushed_rule_keys (doc_events docs) none 0 pa (by simp)
  rw [Nat.zero_add] at hp
  rw [hp, all_mutex_names_eq_nil_of_empty _ hempty] at h1
  simp [entry_extend] at h1

/-- C8 at a document whose first rule declares `mutex: []` and `mutex: null`:
the map has no entry for it. -/
theorem C8_empty_mutex_no_entry_witness :
    ¬ ∃ ns, (some 0, ns) ∈ empty_mutex_walked.rule_mutex_map_ :=
  C8_empty_mutex_no_entry (sample_env []) [empty_mutex_doc] "policy.json" 0 false
    empty_mutex_walked 0 (by decide!) (by decide) 0 (by decide)

/-! ## The walker never writes links -/

theorem NoLinks.of_heap_eq {s s1 : Loader} (h : NoLinks s) (hh : s1.heap = s.heap) :
    NoLinks s1 := by
  unfold NoLinks
  rw [hh]
  exact h

theorem NoLinks.update {s : Loader} (h : NoLinks s) (p : RulePtr) (f : Rule → Rule)
    (hf : ∀ r, (f r).disjunct_rules_ = r.disjunct_rules_) : NoLinks (s.update p f).state := by
  cases hu : s.update p f with
  | error x =>
    rw [Loader.update_error hu]
    exact h
  | ok s1 =>
    rcases Loader.update_ok hu with ⟨i, r, -, hr, rfl⟩
    intro x hx
    simp only [Run.state] at hx
    rcases List.mem_or_eq_of_mem_set hx with hx | hx
    · exact h x hx
    · rw [hx, hf]
      exact h r (List.getElem?_mem hr)

theorem NoLinks.append_new {s : Loader} (h : NoLinks s) (cur : RulePtr) :
    NoLinks { s with heap := s.heap ++ [Rule.new none], cur_read_rule_ := cur } := by
  intro r hr
  simp only [List.mem_append, List.mem_singleton] at hr
  rcases hr with hr | hr
  · exact h r hr
  · rw [hr]; rfl

theorem read_obj_mutex_loop_state_heap (env : Env) (a : List Value) (s : Loader) :
    (read_obj_mutex_loop env a s).state.heap = s.heap := by
  induction a generalizing s with
  | nil => rfl
  | cons v rest ih =>
    rw [read_obj_mutex_loop]
    cases v.get_str with
    | error e => rfl
    | ok name =>
      simp only
      rw [ih]

theorem Event.apply_state_no_links (env : Env) (e : Event) (s : Loader) (h : NoLinks s) :
    NoLinks (e.apply env s).state := by
  cases e with
  | rule_name v =>
    simp only [Event.apply, read_obj_rule_name]
    have h1 := NoLinks.append_new h (some s.heap.length)
    cases v.get_str with
    | error x => exact h1
    | ok n =>
      simp only [Loader.update, List.getElem?_concat_length, Run.andThen, Run.state]
      intro r hr
      rcases List.mem_or_eq_of_mem_set hr with hr | hr
      · exact h1 r hr
      · rw [hr]; rfl
  | file_path v =>
    simp only [Event.apply, read_obj_file_path]
    cases v.get_str with
    | error x => exact h
    | ok path =>
      simp only
      split
      · split
        · exact h
        · split
          · exact h
          · refine NoLinks.update ?_ _ _ (fun _ => rfl)
            exact h
      · exact h
  | priority v =>
    simp only [Event.apply, read_obj_priority]
    cases v.get_int with
    | error x => exact h
    | ok n => exact NoLinks.update h _ _ (fun _ => rfl)
  | category v =>
    simp only [Event.apply, read_obj_category]
    cases v.get_str with
    | error x => exact h
    | ok n => exact NoLinks.update h _ _ (fun _ => rfl)
  | attention_alloc v =>
    simp only [Event.apply, read_obj_attention_alloc]
    cases v.get_bool with
    | error x => exact h
    | ok n => exact h
  | log_level v =>
    simp only [Event.apply, read_obj_log_level]
    cases v.get_str with
    | error x => exact h
    | ok n => exact h
  | mutex_rules v =>
    simp only [Event.apply, read_obj_mutex_rules]
    cases v.get_array with
    | error x => exact h
    | ok a => exact h.of_heap_eq (read_obj_mutex_loop_state_heap env a.toList s)
  | max_iter v =>
    simp only [Event.apply, read_obj_max_iter]
    cases v.get_int with
    | error x => exact h
    | ok n => exact h
  | mutex_null => exact h

theorem run_events_state_no_links (env : Env) (evs : List Event) (s : Loader)
    (h : NoLinks s) : NoLinks (run_events env evs s).state := by
  induction evs generalizing s with
  | nil => exact h
  | cons e rest ih =>
    rw [run_events]
    have he := Event.apply_state_no_links env e s h
    cases hr : e.apply env s with
    | error x =>
      rw [hr] at he
      exact he
    | ok s1 =>
      rw [hr] at he
      exact ih s1 he

theorem mem_link_targets {s : Loader} {ns : List String} {p : Nat}
    (h : p ∈ link_targets s ns) : ∃ n ∈ ns, get_rule s n = .ok (some p) := by
  unfold link_targets at h
  rcases List.mem_filterMap.mp h with ⟨n, hn, hp⟩
  refine ⟨n, hn, ?_⟩
  cases hg : get_rule s n with
  | error e => simp [hg] at hp
  | ok q =>
    cases q with
    | none => simp [hg] at hp
    | some q =>
      simp only [hg, Option.some.injEq] at hp
      rw [hp]

/-- C9, as stated, fails: on `{rules:[{name:"R1",mutex:["R1"]}]}` the load
succeeds and the `disjunct_rules_` of `R1` contains `R1` itself. -/
theorem C9_self_reference_counterexample :
    load_config (sample_env [self_mutex_doc]) sample_loader = .ok self_mutex_loaded ∧
    0 ∈ get_rules self_mutex_loaded ∧
    self_mutex_loaded.disjunct_rules_of 0 = some [0] ∧
    ∃ d, self_mutex_loaded.disjunct_rules_of 0 = some d ∧ 0 ∈ d := by
  refine ⟨by decide!, by decide, by decide, [0], by decide, by decide⟩

/-- C9, amended: in the state `load_config` ends in (returning or throwing) on a
freshly constructed loader, the `disjunct_rules_` of a registry rule contains
that rule itself only if the `mutex` keys met while it was the current rule
list its own name. -/
theorem C9_self_reference_only_if_named (env : Env) (conf path : String) (mi : Int)
    (aa : Bool) (a pa : Nat) (d : List Nat)
    (hpath : get_absolute_path env conf [] = .ok path)
    (hpa : (get_rules (load_config env (JsonicControlPolicyParamLoader conf mi aa)).state)[a]?
      = some pa)
    (hd : (load_config env (JsonicControlPolicyParamLoader conf mi aa)).state.disjunct_rules_of
      pa = some d)
    (hself : pa ∈ d) :
    ∃ A, (load_config env (JsonicControlPolicyParamLoader conf mi aa)).state.name_of pa
        = some A ∧
      A ∈ all_mutex_names (rule_keys (doc_events (env.stream path).1) a) := by
  have hfresh : NoLinks (JsonicControlPolicyParamLoader conf mi aa) := by
    intro r hr
    simp [JsonicControlPolicyParamLoader] at hr
  have hnl : ∀ s : Loader, NoLinks s → s.disjunct_rules_of pa = some d → False := by
    intro s hs hds
    simp only [Loader.disjunct_rules_of, Loader.deref] at hds
    cases hr : s.heap[pa]? with
    | none => simp [hr] at hds
    | some r =>
      simp only [hr, Option.map_some', Option.some.injEq] at hds
      rw [hs r (List.getElem?_mem hr)] at hds
      rw [← hds] at hself
      simp at hself
  rw [load_config_state] at hpa hd
  cases hw : load_config_loop env (env.stream path).1 (JsonicControlPolicyParamLoader conf mi aa)
    with
  | error x =>
    exfalso
    have htry : load_config_try env (JsonicControlPolicyParamLoader conf mi aa) = .error x := by
      unfold load_config_try
      simp only [JsonicControlPolicyParamLoader] at hpath hw ⊢
      simp only [hpath, hw]
    rw [htry] at hd
    have hx : NoLinks x.2 := by
      have := run_events_state_no_links env (doc_events (env.stream path).1) _ hfresh
      rw [← load_config_loop_eq_run_events, hw] at this
      exact this
    exact hnl x.2 hx hd
  | ok s1 =>
    rw [load_config_try_after_walk (s := JsonicControlPolicyParamLoader conf mi aa) hpath hw]
      at hpa hd
    have hw' := hw
    rw [load_config_loop_eq_run_events] at hw'
    rcases fresh_walk hw' with ⟨strs, -, hr, hn, hl, hsorted, hfind⟩
    have hs1 : NoLinks s1 := by
      have := run_events_state_no_links env (doc_events (env.stream path).1) _ hfresh
      rw [hw'] at this
      exact this
    by_cases hio : (env.stream path).2 = true
    · exfalso
      simp only [hio, if_true, Run.state] at hd
      exact hnl s1 hs1 hd
    · simp only [hio, Bool.false_eq_true, if_false] at hpa hd
      have hframe := set_disjunct_rules_frame s1
      have hpa' : pa = a ∧ a < strs.length := by
        simp only [get_rules, hframe.rules_eq, hr] at hpa
        by_cases ha : a < strs.length
        · rw [List.getElem?_range' _ _ ha] at hpa
          exact ⟨by simpa using hpa.symm, ha⟩
        · rw [List.getElem?_eq_none (by simpa using Nat.le_of_not_lt ha)] at hpa
          cases hpa
      rcases hpa' with ⟨rfl, ha⟩
      have hheaplen : s1.heap.length = strs.length := by
        have := congrArg List.length hn
        simpa using this
      have hr1 : s1.heap[pa]? = some s1.heap[pa] := List.getElem?_eq_getElem (by omega)
      rcases (set_disjunct_rules_loop_links env.alloc s1.rule_mutex_map_ s1 hsorted).2 pa _ hr1
        with ⟨r1, hr1', done, hpre, -, hdone⟩
      have hr1'' : (set_disjunct_rules s1).state.heap[pa]? = some r1 := hr1'
      simp only [Loader.disjunct_rules_of, Loader.deref, hr1'', Option.map_some',
        Option.some.injEq] at hd
      rw [hs1 _ (List.getElem?_mem hr1), List.nil_append] at hdone
      rw [← hd, hdone] at hself
      rcases mem_link_targets hself with ⟨n, hnd, hg⟩
      have hg' := get_rule_loop_some hg
      refine ⟨n, ?_, ?_⟩
      · rw [load_config_state,
          load_config_try_after_walk (s := JsonicControlPolicyParamLoader conf mi aa) hpath hw]
        simp only [hio, Bool.false_eq_true, if_false]
        rw [Loader.name_of_eq, hframe.names_eq, List.getElem?_map]
        exact hg'.2
      · have hmem := hpre.subset hnd
        rw [hfind] at hmem
        have hp := pushed_rule_keys (doc_events (env.stream path).1) none 0 pa (by simp)
        rw [Nat.zero_add] at hp
        rw [hp] at hmem
        unfold entry_extend at hmem
        by_cases hnil : all_mutex_names (rule_keys (doc_events (env.stream path).1) pa) = []
        · simp [hnil] at hmem
        · simpa [hnil] using hmem

/-- C9, amended, at the document whose rule `R1` lists its own name. -/
theorem C9_self_reference_only_if_named_witness :
    ∃ A, (load_config (sample_env [self_mutex_doc])
        (JsonicControlPolicyParamLoader "policy.json" 0 false)).state.name_of 0 = some A ∧
      A ∈ all_mutex_names
        (rule_keys (doc_events ((sample_env [self_mutex_doc]).stream "./policy.json").1) 0) :=
  C9_self_reference_only_if_named (sample_env [self_mutex_doc]) "policy.json" "./policy.json"
    0 false 0 0 [0] rfl (by decide!) (by decide!) (by decide)

/-! ## Name lookup returns the first match -/

theorem get_rule_loop_eq_find? (heap : List Rule) (name : String) (ps : List Nat)
    (hvalid : ∀ p ∈ ps, p < heap.length) :
    get_rule_loop heap name ps =
      .ok (ps.find? (fun p => decide ((heap[p]?).map Rule.get_name = some name))) := by
  induction ps with
  | nil => rfl
  | cons q rest ih =>
    have hq : q < heap.length := hvalid q (List.mem_cons_self _ _)
    have ih' := ih (fun p hp => hvalid p (List.mem_cons_of_mem _ hp))
    simp only [get_rule_loop, List.getElem?_eq_getElem hq]
    by_cases hn : (heap[q]).get_name = name
    · simp [hn, List.getElem?_eq_getElem hq]
    · rw [if_neg hn, ih', List.find?_cons_of_neg]
      simp [List.getElem?_eq_getElem hq, hn]

/-- C12: on a registry of live rules, `get_rule(name)` returns the first rule
in insertion order whose name is exactly `name` (every earlier rule has another
name, so with duplicate names the earliest is returned), and returns `NULL`
exactly when no rule of the registry has that name. -/
theorem C12_get_rule_first_match (s : Loader) (name : String)
    (hvalid : ∀ p ∈ s.rules_, p < s.heap.length) :
    get_rule s name = .ok (s.rules_.find? (fun p => decide (s.name_of p = some name))) ∧
    (get_rule s name = .ok none ↔ ∀ p ∈ s.rules_, s.name_of p ≠ some name) ∧
    (∀ p, get_rule s name = .ok (some p) ↔
      ∃ pre post, s.rules_ = pre ++ p :: post ∧ s.name_of p = some name ∧
        ∀ q ∈ pre, s.name_of q ≠ some name) := by
  have h1 : get_rule s name =
      .ok (s.rules_.find? (fun p => decide (s.name_of p = some name))) :=
    get_rule_loop_eq_find? s.heap name s.rules_ hvalid
  refine ⟨h1, ?_, ?_⟩
  · rw [h1]
    simp only [Except.ok.injEq, List.find?_eq_none, decide_eq_true_eq]
  · intro p
    rw [h1]
    simp only [Except.ok.injEq, List.find?_eq_some, decide_eq_true_eq, Bool.not_eq_true',
      decide_eq_false_iff_not]
    constructor
    · rintro ⟨hp, pre, post, hsplit, hpre⟩
      exact ⟨pre, post, hsplit, hp, hpre⟩
    · rintro ⟨pre, post, hsplit, hp, hpre⟩
      exact ⟨hp, pre, post, hsplit, hpre⟩

/-- C12 on a registry with the names `A`, `B`, `A`: the first `A` is returned,
and `C` is not found. -/
theorem C12_get_rule_first_match_witness :
    get_rule duplicate_loader "A" = .ok (some 0) ∧
    (get_rule duplicate_loader "C" = .ok none ↔
      ∀ p ∈ duplicate_loader.rules_, duplicate_loader.name_of p ≠ some "C") :=
  ⟨(C12_get_rule_first_match duplicate_loader "A" (by decide)).1.trans rfl,
   (C12_get_rule_first_match duplicate_loader "C" (by decide)).2.1⟩

/-! ## Path resolution -/

theorem get_absolute_path_loop_eq_find? (env : Env) (filename : String) (dirs : List String) :
    get_absolute_path_loop env filename dirs =
      match dirs.find? (fun d => env.fs_exists (env.path_join d filename)) with
      | some d => .ok (env.path_join d filename)
      | none => .error .RuntimeException := by
  induction dirs with
  | nil => rfl
  | cons d rest ih =>
    simp only [get_absolute_path_loop]
    by_cases hd : env.fs_exists (env.path_join d filename) = true
    · simp [hd]
    · have hd' : env.fs_exists (env.path_join d filename) = false := by simpa using hd
      rw [if_neg hd, ih, List.find?_cons]
      simp only [hd']

/-- C13: `get_absolute_path` returns the join of the file name with the first
search directory, in list order, whose joined path exists; it fails, with the
not-found `RuntimeException`, exactly when no directory's joined path exists;
and an empty search list behaves as the default module path list. -/
theorem C13_get_absolute_path_first_existing (env : Env) (filename : String)
    (search_paths : List String) :
    get_absolute_path env filename search_paths =
      (match (effective_search_paths env search_paths).find?
          (fun d => env.fs_exists (env.path_join d filename)) with
        | some d => .ok (env.path_join d filename)
        | none => .error .RuntimeException) ∧
    ((∃ e, get_absolute_path env filename search_paths = .error e) ↔
      ∀ d ∈ effective_search_paths env search_paths,
        env.fs_exists (env.path_join d filename) = false) ∧
    ((∃ e, get_absolute_path env filename search_paths = .error e) →
      get_absolute_path env filename search_paths = .error .RuntimeException) ∧
    (search_paths ≠ [] → effective_search_paths env search_paths = search_paths) ∧
    get_absolute_path env filename [] =
      get_absolute_path env filename env.DEFAULT_MODULE_PATHS := by
  have h1 : get_absolute_path env filename search_paths =
      (match (effective_search_paths env search_paths).find?
          (fun d => env.fs_exists (env.path_join d filename)) with
        | some d => .ok (env.path_join d filename)
        | none => .error .RuntimeException) :=
    get_absolute_path_loop_eq_find? env filename _
  refine ⟨h1, ?_, ?_, ?_, ?_⟩
  · rw [h1]
    cases hf : (effective_search_paths env search_paths).find?
        (fun d => env.fs_exists (env.path_join d filename)) with
    | none =>
      constructor
      · intro _ d hd
        have := List.find?_eq_none.mp hf d hd
        simpa using this
      · intro _
        exact ⟨_, rfl⟩
    | some d =>
      constructor
      · rintro ⟨e, he⟩
        cases he
      · intro hall
        have hp := List.find?_some hf
        have hm := List.mem_of_find?_eq_some hf
        rw [hall d hm] at hp
        cases hp
  · rw [h1]
    cases (effective_search_paths env search_paths).find?
        (fun d => env.fs_exists (env.path_join d filename)) with
    | none => intro _; rfl
    | some d => rintro ⟨e, he⟩; cases he
  · intro hne
    cases search_paths with
    | nil => exact absurd rfl hne
    | cons a l => rfl
  · unfold get_absolute_path
    cases hD : env.DEFAULT_MODULE_PATHS with
    | nil => rfl
    | cons a l => rfl

/-! ## Unknown keys pass their value through -/

theorem events_obj_unknown (key : String) (value : Value) (rest : Pairs)
    (hkey : key ∉ recognized_keys) :
    events_obj (.cons key value rest) = events value ++ events_obj rest := by
  simp only [recognized_keys, List.mem_cons, List.mem_singleton, not_or, List.not_mem_nil,
    not_false_eq_true, and_true] at hkey
  rcases hkey with ⟨h1, h2, h3, h4, h5, h6, h7, h8, h9⟩
  have h8' : ¬ (key = MUTEX_RULES ∧ value.is_null = false) := fun h => h8 h.1
  rw [events_obj_cons]
  simp only [if_neg h1, if_neg h2, if_neg h3, if_neg h4, if_neg h5, if_neg h6, if_neg h7,
    if_neg h8', if_neg h9, if_neg h8]

/-- C17: for every loader state, every key that is none of the recognized field
names and every value, interpreting the one-pair object `{key: value}` ends
exactly as interpreting `value` itself: the same state (registry, current rule,
exclusion map, globals) or the same error. -/
theorem C17_unknown_key_passthrough (env : Env) (key : String) (value : Value)
    (lev lev1 : Int) (s : Loader) (hkey : key ∉ recognized_keys) :
    read_json env (.obj (.cons key value .nil)) lev s = read_json env value lev1 s := by
  rw [read_json_eq_run_events, read_json_eq_run_events, events,
    events_obj_unknown key value .nil hkey, events_obj, List.append_nil]

/-- C17 at `{"x": {"name": "R"}}`: the nested `name` key declares the rule. -/
theorem C17_unknown_key_passthrough_witness :
    read_json (sample_env [])
        (.obj (.cons "x" (.obj (.cons "name" (.str "R") .nil)) .nil)) (-1) sample_loader =
      .ok { heap := [Rule.mk none "R" "" none []], conf_path_ := "policy.json",
            cur_read_rule_ := some 0, rules_ := [0], rule_mutex_map_ := [], mutex_sets_ := [],
            max_iter_ := 0, attention_alloc_ := false, log_level_ := "", calls := [] } :=
  (C17_unknown_key_passthrough (sample_env []) "x" (.obj (.cons "name" (.str "R") .nil))
    (-1) 0 sample_loader (by decide)).trans (by decide!)

/-! ## The frame of the resolver -/

theorem Rule.eq_of_clear_links_eq {r r1 : Rule} (hc : r1.clear_links = r.clear_links)
    (hd : r1.disjunct_rules_ = r.disjunct_rules_) : r1 = r := by
  cases r
  cases r1
  simp only [Rule.clear_links, Rule.mk.injEq] at hc
  simp only at hd
  simp [hc.1, hc.2.1, hc.2.2.1, hc.2.2.2.1, hd]

theorem set_disjunct_rules_loop_untouched (m : List (RulePtr × List String)) (s : Loader)
    (i : Nat) (r : Rule) (hr : s.heap[i]? = some r) (hno : ¬ ∃ ns, (some i, ns) ∈ m) :
    ∃ r1 : Rule, (set_disjunct_rules_loop m s).state.heap[i]? = some r1 ∧
      r1.disjunct_rules_ = r.disjunct_rules_ := by
  induction m generalizing s r with
  | nil => exact ⟨r, by simpa [set_disjunct_rules_loop, Run.state] using hr, rfl⟩
  | cons entry rest ih =>
    rcases entry with ⟨k, ns⟩
    have hk : k ≠ some i := by
      intro hk
      exact hno ⟨ns, by rw [hk]; exact List.mem_cons_self _ _⟩
    have hrest : ¬ ∃ ns, (some i, ns) ∈ rest := by
      rintro ⟨ns1, h1⟩
      exact hno ⟨ns1, List.mem_cons_of_mem _ h1⟩
    rcases set_disjunct_rules_names_links k ns s with ⟨done, -, -, hlinks⟩
    rcases hlinks i r hr with ⟨r1, hr1, hd1⟩
    simp only [if_neg hk, List.append_nil] at hd1
    rw [set_disjunct_rules_loop]
    cases hn : set_disjunct_rules_names k ns s with
    | error x =>
      rw [hn] at hr1
      exact ⟨r1, hr1, hd1⟩
    | ok s1 =>
      rw [hn] at hr1
      simp only [Run.state] at hr1
      rcases ih s1 r1 hr1 hrest with ⟨r2, hr2, hd2⟩
      exact ⟨r2, hr2, hd2.trans hd1⟩

/-- C16: a successful run of the resolver leaves the registry, the current
rule, the exclusion map, the global parameters and every rule's name, cost,
category and source handle unchanged; it only appends to `disjunct_rules_`, and
a rule that has no entry in the exclusion map is left exactly as it was (so a
rule named in another rule's mutex list gets no reverse link). -/
theorem C16_resolver_frame (s s' : Loader) (hres : set_disjunct_rules s = .ok s') :
    get_rules s' = get_rules s ∧
    s'.members = s.members ∧
    s'.heap.map Rule.clear_links = s.heap.map Rule.clear_links ∧
    (∀ (i : Nat) (r : Rule), s.heap[i]? = some r →
      ∃ r1 : Rule, s'.heap[i]? = some r1 ∧
        r.disjunct_rules_ <+: r1.disjunct_rules_ ∧
        ((¬ ∃ ns, (some i, ns) ∈ s.rule_mutex_map_) → r1 = r)) := by
  have hframe : ResolverFrame s s' := by
    have := set_disjunct_rules_frame s
    rw [hres] at this
    exact this
  refine ⟨hframe.rules_eq, hframe.1, hframe.2.1, ?_⟩
  intro i r hr
  rcases hframe.2.2 i r hr with ⟨r1, hr1, hpre⟩
  refine ⟨r1, hr1, hpre, ?_⟩
  intro hno
  rcases set_disjunct_rules_loop_untouched s.rule_mutex_map_ s i r hr hno with ⟨r2, hr2, hd2⟩
  have hr2' : (set_disjunct_rules s).state.heap[i]? = some r2 := hr2
  rw [hres] at hr2'
  simp only [Run.state] at hr2'
  rw [hr1] at hr2'
  cases hr2'
  apply Rule.eq_of_clear_links_eq _ hd2
  have h1 : (s'.heap.map Rule.clear_links)[i]? = some r1.clear_links := by
    simp [hr1]
  have h2 : (s.heap.map Rule.clear_links)[i]? = some r.clear_links := by
    simp [hr]
  rw [hframe.2.1, h2] at h1
  exact (Option.some.inj h1).symm

/-- C16 at the round-trip document: `R2` lists `R1`; `R1`, which declares no
mutex, is unchanged by the resolver. -/
theorem C16_resolver_frame_witness :
    get_rules round_trip_loaded = get_rules round_trip_walked ∧
    round_trip_loaded.members = round_trip_walked.members ∧
    round_trip_loaded.heap.map Rule.clear_links
      = round_trip_walked.heap.map Rule.clear_links ∧
    (∃ r1 : Rule, round_trip_loaded.heap[0]? = some r1 ∧
      (Rule.mk none "R1" "fc" (some 5) []).disjunct_rules_ <+: r1.disjunct_rules_ ∧
      ((¬ ∃ ns, (some 0, ns) ∈ round_trip_walked.rule_mutex_map_) →
        r1 = Rule.mk none "R1" "fc" (some 5) [])) :=
  have h := C16_resolver_frame round_trip_walked round_trip_loaded (by decide!)
  ⟨h.1, h.2.1, h.2.2.1, h.2.2.2 0 (Rule.mk none "R1" "fc" (some 5) []) rfl⟩

/-! ## The `file` key -/

/-- C18: in a state whose current rule is the live rule `r`, a `file` key with
string value `p` calls `load_scm_file_relative(p)` once and then, when that
returns, `eval_h(r.name)` once, and stores the handle it returns as the handle
of `r`; the name, cost, category and links of `r`, every other rule and every
other member are unchanged.  When one of the two calls throws, the walk ends
there with the calls made so far recorded. -/
theorem C18_file_key_calls (env : Env) (p : String) (lev : Int) (s : Loader) (i : Nat)
    (r : Rule) (hcur : s.cur_read_rule_ = some i) (hr : s.heap[i]? = some r) :
    read_json env (.obj (.cons FILE_PATH (.str p) .nil)) lev s =
      (if env.load_scm_file_relative s.calls p = true then
        match env.eval_h (s.calls ++ [.load_scm_file_relative p]) r.get_name with
        | some h =>
          .ok { s with heap := s.heap.set i (r.set_rule_handle h),
                       calls := s.calls ++ [.load_scm_file_relative p, .eval_h r.get_name] }
        | none =>
          .error (.RuntimeException,
            { s with calls := s.calls ++ [.load_scm_file_relative p, .eval_h r.get_name] })
      else .error (.RuntimeException,
        { s with calls := s.calls ++ [.load_scm_file_relative p] })) ∧
    ∀ h, (r.set_rule_handle h).rule_handle_ = h ∧ (r.set_rule_handle h).name_ = r.name_ ∧
      (r.set_rule_handle h).cost_ = r.cost_ ∧ (r.set_rule_handle h).category_ = r.category_ ∧
      (r.set_rule_handle h).disjunct_rules_ = r.disjunct_rules_ ∧
      ∀ j, j ≠ i → (s.heap.set i (r.set_rule_handle h))[j]? = s.heap[j]? := by
  constructor
  · have hev : events (.obj (.cons FILE_PATH (.str p) .nil)) = [.file_path (.str p)] := by
      rw [events, events_obj_cons, if_neg (show ¬ FILE_PATH = RULES by decide),
        if_neg (show ¬ FILE_PATH = RULE_NAME by decide), if_pos rfl, events_obj]
      rfl
    rw [read_json_eq_run_events, hev, run_events_singleton]
    simp only [Event.apply, read_obj_file_path, Value.get_str, Loader.deref, hcur, hr]
    by_cases hl : env.load_scm_file_relative s.calls p = true
    · simp only [hl, if_true]
      cases he : env.eval_h (s.calls ++ [.load_scm_file_relative p]) r.get_name with
      | none => simp
      | some h =>
        simp only [Loader.update, hr]
        simp
    · simp only [hl]
      rfl
  · intro h
    refine ⟨rfl, rfl, rfl, rfl, rfl, ?_⟩
    intro j hj
    rw [List.getElem?_set_ne (Ne.symm hj)]

/-- C18 for the rule `R1` and the file `r1.scm`, with an evaluator that returns
the handle 7. -/
theorem C18_file_key_calls_witness :
    read_json (sample_env []) (.obj (.cons FILE_PATH (.str "r1.scm") .nil)) 0 one_rule_loader =
      .ok { heap := [Rule.mk (some 7) "R1" "" none []], conf_path_ := "policy.json",
            cur_read_rule_ := some 0, rules_ := [0], rule_mutex_map_ := [], mutex_sets_ := [],
            max_iter_ := 0, attention_alloc_ := false, log_level_ := "",
            calls := [.load_scm_file_relative "r1.scm", .eval_h "R1"] } :=
  (C18_file_key_calls (sample_env []) "r1.scm" 0 one_rule_loader 0
    (Rule.mk none "R1" "" none []) rfl rfl).1.trans (by decide!)

/-! ## The invariant of the walker -/

theorem WalkerInv.of_eq {s : Loader} (hc : s.cur_read_rule_ = s.rules_.getLast?)
    (hk : ∀ e ∈ s.rule_mutex_map_, e.1 = none ∨ ∃ p, e.1 = some p ∧ p ∈ s.rules_) :
    WalkerInv s := by
  refine ⟨?_, fun _ => hc, hk⟩
  rw [hc]
  exact List.getLast?_eq_none_iff

theorem WalkerInv.cur_eq {s : Loader} (h : WalkerInv s) :
    s.cur_read_rule_ = s.rules_.getLast? := by
  by_cases hr : s.rules_ = []
  · rw [h.1.mpr hr, hr]
    rfl
  · exact h.2.1 hr

theorem WalkerInv.cur_key {s : Loader} (h : WalkerInv s) :
    s.cur_read_rule_ = none ∨ ∃ p, s.cur_read_rule_ = some p ∧ p ∈ s.rules_ := by
  cases hc : s.cur_read_rule_ with
  | none => exact Or.inl rfl
  | some p =>
    right
    refine ⟨p, rfl, ?_⟩
    have := h.cur_eq
    rw [hc] at this
    exact List.mem_of_getLast?_eq_some this.symm

theorem Loader.update_state_members (s : Loader) (p : RulePtr) (f : Rule → Rule) :
    (s.update p f).state.members = s.members := by
  cases hu : s.update p f with
  | error x =>
    rw [Loader.update_error hu]
    rfl
  | ok s1 =>
    rcases Loader.update_ok hu with ⟨i, r, -, -, rfl⟩
    rfl

theorem read_obj_mutex_loop_state_context (env : Env) (l : List Value) (s : Loader) :
    (read_obj_mutex_loop env l s).state.cur_read_rule_ = s.cur_read_rule_ ∧
    (read_obj_mutex_loop env l s).state.rules_ = s.rules_ ∧
    ∀ x ∈ (read_obj_mutex_loop env l s).state.rule_mutex_map_,
      x.1 = s.cur_read_rule_ ∨ ∃ y ∈ s.rule_mutex_map_, y.1 = x.1 := by
  induction l generalizing s with
  | nil => exact ⟨rfl, rfl, fun x hx => Or.inr ⟨x, hx, rfl⟩⟩
  | cons y rest ih =>
    rw [read_obj_mutex_loop]
    have hidx : ∀ x ∈ map_index env.alloc s.cur_read_rule_ s.rule_mutex_map_,
        x.1 = s.cur_read_rule_ ∨ ∃ z ∈ s.rule_mutex_map_, z.1 = x.1 := by
      intro x hx
      rcases mem_map_index _ _ _ x hx with h | h
      · left; rw [h]
      · exact Or.inr ⟨x, h, rfl⟩
    cases y.get_str with
    | error x => exact ⟨rfl, rfl, hidx⟩
    | ok name =>
      simp only
      have hih := ih (Loader.mk s.heap s.conf_path_ s.cur_read_rule_ s.rules_
        (map_add env.alloc s.cur_read_rule_ s.rule_mutex_map_ name) s.mutex_sets_ s.max_iter_
        s.attention_alloc_ s.log_level_ s.calls)
      rcases hih with ⟨h1, h2, h3⟩
      refine ⟨h1, h2, ?_⟩
      intro x hx
      rcases h3 x hx with h | ⟨z, hz, hzx⟩
      · exact Or.inl h
      · have hz' : z.1 ∈ (map_push_back env.alloc s.cur_read_rule_ name
            (map_index env.alloc s.cur_read_rule_ s.rule_mutex_map_)).map Prod.fst :=
          List.mem_map_of_mem _ hz
        rw [map_push_back_keys] at hz'
        rcases List.mem_map.mp hz' with ⟨w, hw, hwz⟩
        rcases hidx w hw with h | ⟨u, hu, huw⟩
        · left; rw [← hzx, ← hwz]; exact h
        · exact Or.inr ⟨u, hu, by rw [huw, hwz, hzx]⟩

theorem Loader.update_state_context (s : Loader) (p : RulePtr) (f : Rule → Rule) :
    (s.update p f).state.cur_read_rule_ = s.cur_read_rule_ ∧
    (s.update p f).state.rules_ = s.rules_ ∧
    (s.update p f).state.rule_mutex_map_ = s.rule_mutex_map_ := by
  have h := Loader.update_state_members s p f
  refine ⟨?_, ?_, ?_⟩
  · have := congrArg Loader.cur_read_rule_ h
    simpa [Loader.members] using this
  · have := congrArg Loader.rules_ h
    simpa [Loader.members] using this
  · have := congrArg Loader.rule_mutex_map_ h
    simpa [Loader.members] using this

/-- What a key other than `name` leaves alone, whether it succeeds or throws:
the current rule and the registry; and the only key it can add to the exclusion
map is the current rule. -/
theorem Event.apply_state_context (env : Env) (e : Event) (s : Loader)
    (he : e.is_rule_name = false) :
    (e.apply env s).state.cur_read_rule_ = s.cur_read_rule_ ∧
    (e.apply env s).state.rules_ = s.rules_ ∧
    ∀ x ∈ (e.apply env s).state.rule_mutex_map_,
      x.1 = s.cur_read_rule_ ∨ ∃ y ∈ s.rule_mutex_map_, y.1 = x.1 := by
  have hsame : ∀ t : Loader, t.cur_read_rule_ = s.cur_read_rule_ → t.rules_ = s.rules_ →
      t.rule_mutex_map_ = s.rule_mutex_map_ →
      t.cur_read_rule_ = s.cur_read_rule_ ∧ t.rules_ = s.rules_ ∧
      ∀ x ∈ t.rule_mutex_map_, x.1 = s.cur_read_rule_ ∨ ∃ y ∈ s.rule_mutex_map_, y.1 = x.1 := by
    intro t h1 h2 h3
    refine ⟨h1, h2, ?_⟩
    intro x hx
    rw [h3] at hx
    exact Or.inr ⟨x, hx, rfl⟩
  have hupd : ∀ (t : Loader) (p : RulePtr) (f : Rule → Rule),
      t.cur_read_rule_ = s.cur_read_rule_ → t.rules_ = s.rules_ →
      t.rule_mutex_map_ = s.rule_mutex_map_ →
      (t.update p f).state.cur_read_rule_ = s.cur_read_rule_ ∧
      (t.update p f).state.rules_ = s.rules_ ∧
      ∀ x ∈ (t.update p f).state.rule_mutex_map_,
        x.1 = s.cur_read_rule_ ∨ ∃ y ∈ s.rule_mutex_map_, y.1 = x.1 := by
    intro t p f h1 h2 h3
    rcases Loader.update_state_context t p f with ⟨g1, g2, g3⟩
    exact hsame _ (g1.trans h1) (g2.trans h2) (g3.trans h3)
  cases e with
  | rule_name v => simp [Event.is_rule_name] at he
  | file_path v =>
    simp only [Event.apply, read_obj_file_path]
    cases v.get_str with
    | error x => exact hsame s rfl rfl rfl
    | ok path =>
      simp only
      split
      · split
        · exact hsame _ rfl rfl rfl
        · split
          · exact hsame _ rfl rfl rfl
          · exact hupd _ _ _ rfl rfl rfl
      · exact hsame _ rfl rfl rfl
  | priority v =>
    simp only [Event.apply, read_obj_priority]
    cases v.get_int with
    | error x => exact hsame s rfl rfl rfl
    | ok n => exact hupd s _ _ rfl rfl rfl
  | category v =>
    simp only [Event.apply, read_obj_category]
    cases v.get_str with
    | error x => exact hsame s rfl rfl rfl
    | ok n => exact hupd s _ _ rfl rfl rfl
  | attention_alloc v =>
    simp only [Event.apply, read_obj_attention_alloc]
    cases v.get_bool with
    | error x => exact hsame s rfl rfl rfl
    | ok n => exact hsame _ rfl rfl rfl
  | log_level v =>
    simp only [Event.apply, read_obj_log_level]
    cases v.get_str with
    | error x => exact hsame s rfl rfl rfl
    | ok n => exact hsame _ rfl rfl rfl
  | mutex_rules v =>
    simp only [Event.apply, read_obj_mutex_rules]
    cases v.get_array with
    | error x => exact hsame s rfl rfl rfl
    | ok a => exact read_obj_mutex_loop_state_context env a.toList s
  | max_iter v =>
    simp only [Event.apply, read_obj_max_iter]
    cases v.get_int with
    | error x => exact hsame s rfl rfl rfl
    | ok n => exact hsame _ rfl rfl rfl
  | mutex_null => exact hsame s rfl rfl rfl

theorem Event.apply_state_inv (env : Env) (e : Event) (s : Loader) (hinv : WalkerInv s)
    (hname : ∀ v, e = .rule_name v → ∃ n, v = .str n) : WalkerInv (e.apply env s).state := by
  by_cases he : e.is_rule_name = true
  · cases e with
    | rule_name v =>
      rcases hname v rfl with ⟨n, rfl⟩
      have hok : Event.apply env (.rule_name (.str n)) s = .ok (s.declare n) := by
        simp [Event.apply, read_obj_rule_name, Value.get_str, Loader.update, Run.andThen,
          Loader.declare, List.set_append_right, Rule.set_name]
      rw [hok]
      simp only [Run.state]
      apply WalkerInv.of_eq
      · simp [Loader.declare]
      · intro x hx
        rcases hinv.2.2 x hx with h | ⟨p, hp, hmem⟩
        · exact Or.inl h
        · exact Or.inr ⟨p, hp, by simp [Loader.declare, hmem]⟩
    | _ => simp [Event.is_rule_name] at he
  · have he' : e.is_rule_name = false := by simpa using he
    rcases Event.apply_state_context env e s he' with ⟨h1, h2, h3⟩
    apply WalkerInv.of_eq
    · rw [h1, h2]; exact hinv.cur_eq
    · intro x hx
      rw [h2]
      rcases h3 x hx with h | ⟨y, hy, hyx⟩
      · rw [h]; exact hinv.cur_key
      · rw [← hyx]; exact hinv.2.2 y hy

theorem run_events_state_inv (env : Env) (evs : List Event) (s : Loader) (hinv : WalkerInv s)
    (hnames : ∀ v ∈ name_values evs, ∃ n, v = .str n) :
    WalkerInv (run_events env evs s).state := by
  induction evs generalizing s with
  | nil => exact hinv
  | cons e rest ih =>
    have he : ∀ v, e = .rule_name v → ∃ n, v = .str n := by
      intro v hv
      apply hnames
      rw [hv]
      simp [name_values]
    have hrest : ∀ v ∈ name_values rest, ∃ n, v = .str n := by
      intro v hv
      apply hnames
      cases e <;> simp [name_values, hv]
    have h1 := Event.apply_state_inv env e s hinv he
    rw [run_events]
    cases hr : e.apply env s with
    | error x =>
      rw [hr] at h1
      exact h1
    | ok s1 =>
      rw [hr] at h1
      exact ih s1 h1 hrest

/-- C20, as stated, fails: interpreting `{"name": 5}` in the initial state
throws after `cur_read_rule_` was set to the new rule and before the rule is
registered, so the current rule is not `NULL` although the registry is empty. -/
theorem C20_invariant_broken_counterexample :
    WalkerInv sample_loader ∧
    (read_json (sample_env []) (.obj (.cons "name" (.int 5) .nil)) (-1) sample_loader).state.cur_read_rule_
      = some 0 ∧
    (read_json (sample_env []) (.obj (.cons "name" (.int 5) .nil)) (-1) sample_loader).state.rules_
      = [] ∧
    ¬ WalkerInv
      (read_json (sample_env []) (.obj (.cons "name" (.int 5) .nil)) (-1) sample_loader).state := by
  have h1 : (read_json (sample_env []) (.obj (.cons "name" (.int 5) .nil)) (-1)
      sample_loader).state.cur_read_rule_ = some 0 := by decide!
  have h2 : (read_json (sample_env []) (.obj (.cons "name" (.int 5) .nil)) (-1)
      sample_loader).state.rules_ = [] := by decide!
  refine ⟨?_, h1, h2, ?_⟩
  · exact ⟨by decide, fun h => absurd rfl h, fun e he => by cases he⟩
  · intro hinv
    have := hinv.1.mpr h2
    rw [h1] at this
    cases this

/-- C20, amended: the invariant holds in the initial state, and it holds in the
state in which the interpretation of a value ends, returning or throwing,
whenever it held before and every `name` key the value holds to be reached
carries a string (in particular after every interpretation that returns). -/
theorem C20_walker_invariant (env : Env) (conf : String) (mi : Int) (aa : Bool) (v : Value)
    (lev : Int) (s : Loader) (hinv : WalkerInv s)
    (hnames : ∀ x ∈ name_values (events v), ∃ n, x = .str n) :
    WalkerInv (JsonicControlPolicyParamLoader conf mi aa) ∧
    WalkerInv (read_json env v lev s).state ∧
    (∀ s1, read_json env v lev s = .ok s1 → WalkerInv s1) := by
  have h2 : WalkerInv (read_json env v lev s).state := by
    rw [read_json_eq_run_events]
    exact run_events_state_inv env (events v) s hinv hnames
  refine ⟨?_, h2, ?_⟩
  · exact ⟨by simp [JsonicControlPolicyParamLoader], fun h => absurd rfl h,
      fun e he => by simp [JsonicControlPolicyParamLoader] at he⟩
  · intro s1 h1
    rw [h1] at h2
    exact h2

theorem WalkerInv.fresh (conf : String) (mi : Int) (aa : Bool) :
    WalkerInv (JsonicControlPolicyParamLoader conf mi aa) :=
  ⟨by simp [JsonicControlPolicyParamLoader], fun h => absurd rfl h,
    fun e he => by simp [JsonicControlPolicyParamLoader] at he⟩

/-- C20, amended, at the round-trip document interpreted in the initial state. -/
theorem C20_walker_invariant_witness :
    WalkerInv (JsonicControlPolicyParamLoader "policy.json" 0 false) ∧
    WalkerInv round_trip_walked :=
  have h := C20_walker_invariant (sample_env []) "policy.json" 0 false round_trip_doc (-1)
    sample_loader (WalkerInv.fresh "policy.json" 0 false)
    (by
      intro x hx
      have hv : name_values (events round_trip_doc) = [.str "R1", .str "R2"] := rfl
      rw [hv] at hx
      simp only [List.mem_cons, List.mem_singleton, List.not_mem_nil, or_false] at hx
      rcases hx with rfl | rfl
      · exact ⟨"R1", rfl⟩
      · exact ⟨"R2", rfl⟩)
  ⟨h.1, h.2.2 round_trip_walked (by decide!)⟩

/-! ## `priority` and `category` go to the most recently declared rule -/

theorem events_one_pair_priority (v : Value) :
    events (.obj (.cons PRIORITY v .nil)) = [.priority v] := by
  rw [events, events_obj_cons, if_neg (show ¬ PRIORITY = RULES by decide),
    if_neg (show ¬ PRIORITY = RULE_NAME by decide),
    if_neg (show ¬ PRIORITY = FILE_PATH by decide), if_pos rfl, events_obj]
  rfl

theorem events_one_pair_category (v : Value) :
    events (.obj (.cons CATEGORY v .nil)) = [.category v] := by
  rw [events, events_obj_cons, if_neg (show ¬ CATEGORY = RULES by decide),
    if_neg (show ¬ CATEGORY = RULE_NAME by decide),
    if_neg (show ¬ CATEGORY = FILE_PATH by decide),
    if_neg (show ¬ CATEGORY = PRIORITY by decide), if_pos rfl, events_obj]
  rfl

/-- C19: in a state that satisfies the invariant of the walker and whose
registry is a non-empty sequence of live rules, a `priority` key sets the cost,
and a `category` key the category, of the last rule of the registry, the rule
declared most recently; its other fields, every other rule and every other
member of the loader are unchanged. -/
theorem C19_priority_category_last_rule (env : Env) (n : Int) (c : String) (lev : Int)
    (s : Loader) (hinv : WalkerInv s) (hvalid : ∀ p ∈ s.rules_, p < s.heap.length)
    (hne : s.rules_ ≠ []) :
    ∃ last r, s.rules_.getLast? = some last ∧ s.heap[last]? = some r ∧
      read_json env (.obj (.cons PRIORITY (.int n) .nil)) lev s =
        .ok { s with heap := s.heap.set last { r with cost_ := some (toInt32 n) } } ∧
      read_json env (.obj (.cons CATEGORY (.str c) .nil)) lev s =
        .ok { s with heap := s.heap.set last { r with category_ := c } } ∧
      ∀ (x : Rule) (j : Nat), j ≠ last → (s.heap.set last x)[j]? = s.heap[j]? := by
  have hcur := hinv.cur_eq
  cases hl : s.rules_.getLast? with
  | none => exact absurd (List.getLast?_eq_none_iff.mp hl) hne
  | some last =>
    rw [hl] at hcur
    have hmem : last ∈ s.rules_ := List.mem_of_getLast?_eq_some hl
    have hlt := hvalid last hmem
    refine ⟨last, s.heap[last], rfl, List.getElem?_eq_getElem hlt, ?_, ?_, ?_⟩
    · rw [read_json_eq_run_events, events_one_pair_priority, run_events_singleton]
      simp only [Event.apply, read_obj_priority, Value.get_int, Loader.update, hcur,
        List.getElem?_eq_getElem hlt, Rule.set_cost]
    · rw [read_json_eq_run_events, events_one_pair_category, run_events_singleton]
      simp only [Event.apply, read_obj_category, Value.get_str, Loader.update, hcur,
        List.getElem?_eq_getElem hlt, Rule.set_category]
    · intro x j hj
      rw [List.getElem?_set_ne (Ne.symm hj)]

/-- C19 with the rule `R1` declared: `priority: 7` sets the cost of `R1`; and in
`{rules:[{name:"R1"},{priority:7,name:"R2"}]}` the cost therefore goes to `R1`, not
to `R2`. -/
theorem C19_priority_category_last_rule_witness :
    (∃ last r, one_rule_loader.rules_.getLast? = some last ∧
      one_rule_loader.heap[last]? = some r ∧
      read_json (sample_env []) (.obj (.cons PRIORITY (.int 7) .nil)) 0 one_rule_loader =
        .ok { one_rule_loader with
              heap := one_rule_loader.heap.set last { r with cost_ := some (toInt32 7) } } ∧
      read_json (sample_env []) (.obj (.cons CATEGORY (.str "fc") .nil)) 0 one_rule_loader =
        .ok { one_rule_loader with
              heap := one_rule_loader.heap.set last { r with category_ := "fc" } } ∧
      ∀ (x : Rule) (j : Nat), j ≠ last →
        (one_rule_loader.heap.set last x)[j]? = one_rule_loader.heap[j]?) ∧
    read_json (sample_env []) priority_first_doc (-1) sample_loader
      = .ok priority_first_walked :=
  ⟨C19_priority_category_last_rule (sample_env []) 7 "fc" 0 one_rule_loader
    (WalkerInv.of_eq rfl (fun e he => by cases he)) (by decide) (by decide), by decide!⟩

/-! ## Duplicate and empty names -/

theorem load_config_ok_walk {env : Env} {s s' : Loader} {path : String}
    (hpath : get_absolute_path env s.conf_path_ [] = .ok path)
    (hload : load_config env s = .ok s') :
    ∃ s1, load_config_loop env (env.stream path).1 s = .ok s1 ∧ ResolverFrame s1 s' := by
  cases hw : load_config_loop env (env.stream path).1 s with
  | error x =>
    exfalso
    rcases x with ⟨e, s2⟩
    have hk : e.is_ios_failure = false := by
      rw [load_config_loop_eq_run_events] at hw
      exact run_events_error_kind hw
    have htry : load_config_try env s = .error (e, s2) := by
      unfold load_config_try
      simp only [hpath, hw]
    unfold load_config at hload
    rw [htry] at hload
    cases e <;> simp [LoadError.is_ios_failure] at hk hload
  | ok s1 =>
    refine ⟨s1, rfl, ?_⟩
    have := load_config_frame_after_walk hpath hw
    rw [hload] at this
    exact this

theorem registry_names_after_walk {env : Env} {conf : String} {mi : Int} {aa : Bool}
    {evs : List Event} {s1 s' : Loader}
    (hwalk : run_events env evs (JsonicControlPolicyParamLoader conf mi aa) = .ok s1)
    (hframe : ResolverFrame s1 s') :
    ∃ names : List String, name_values evs = names.map Value.str ∧
      (get_rules s').map s'.name_of = names.map some := by
  rcases fresh_walk hwalk with ⟨strs, hv, hr, hn, -, -, -⟩
  refine ⟨strs, hv, ?_⟩
  have hfun : s'.name_of = fun i => strs[i]? := by
    funext p
    rw [Loader.name_of_eq, hframe.names_eq, hn]
  simp only [get_rules]
  rw [hframe.rules_eq, hr, hfun]
  exact map_getElem?_range' strs

/-- C14, as stated, fails: `{rules:[{name:"R1"},{name:"R1"},{name:""}]}` loads
successfully into a registry that holds two rules named `R1` and a rule with the
empty name. -/
theorem C14_duplicate_names_counterexample :
    load_config (sample_env [duplicate_doc]) sample_loader = .ok duplicate_loaded ∧
    (get_rules duplicate_loaded).map duplicate_loaded.name_of
      = [some "R1", some "R1", some ""] ∧
    ¬ ((get_rules duplicate_loaded).map duplicate_loaded.name_of).Nodup ∧
    some "" ∈ (get_rules duplicate_loaded).map duplicate_loaded.name_of := by
  refine ⟨by decide!, by decide, by decide, by decide⟩

/-- C14, amended: after a successful load the registry holds one rule per `name`
key with exactly the names the document gives, in document order, duplicates and
the empty name included; so the names are pairwise distinct, and non-empty,
exactly when the name values of the document are. -/
theorem C14_names_as_declared (env : Env) (conf path : String) (mi : Int) (aa : Bool)
    (s' : Loader)
    (hpath : get_absolute_path env conf [] = .ok path)
    (hload : load_config env (JsonicControlPolicyParamLoader conf mi aa) = .ok s') :
    ∃ names : List String,
      name_values (doc_events (env.stream path).1) = names.map Value.str ∧
      (get_rules s').map s'.name_of = names.map some ∧
      (((get_rules s').map s'.name_of).Nodup ↔ names.Nodup) ∧
      ((∀ x ∈ (get_rules s').map s'.name_of, x ≠ some "") ↔ ∀ n ∈ names, n ≠ "") := by
  rcases load_config_ok_walk (s := JsonicControlPolicyParamLoader conf mi aa) hpath hload
    with ⟨s1, hwalk, hframe⟩
  rw [load_config_loop_eq_run_events] at hwalk
  rcases registry_names_after_walk hwalk hframe with ⟨names, hv, hnames⟩
  refine ⟨names, hv, hnames, ?_, ?_⟩
  · rw [hnames]
    exact List.nodup_map_iff (Option.some_injective _)
  · rw [hnames]
    constructor
    · intro h n hn hempty
      exact h (some n) (List.mem_map_of_mem _ hn) (by rw [hempty])
    · intro h x hx hxe
      rcases List.mem_map.mp hx with ⟨n, hn, rfl⟩
      exact h n hn (Option.some.inj hxe)

/-- C14, amended, at the document with the names `R1`, `R1` and the empty
name. -/
theorem C14_names_as_declared_witness :
    ∃ names : List String,
      name_values (doc_events ((sample_env [duplicate_doc]).stream "./policy.json").1)
        = names.map Value.str ∧
      (get_rules duplicate_loaded).map duplicate_loaded.name_of = names.map some ∧
      (((get_rules duplicate_loaded).map duplicate_loaded.name_of).Nodup ↔ names.Nodup) ∧
      ((∀ x ∈ (get_rules duplicate_loaded).map duplicate_loaded.name_of, x ≠ some "") ↔
        ∀ n ∈ names, n ≠ "") :=
  C14_names_as_declared (sample_env [duplicate_doc]) "policy.json" "./policy.json" 0 false
    duplicate_loaded rfl (by decide!)

/-! ## Keys that need a current rule, met before any rule is declared -/

theorem all_mutex_names_append (a b : List Event) :
    all_mutex_names (a ++ b) = all_mutex_names a ++ all_mutex_names b := by
  induction a with
  | nil => rfl
  | cons e rest ih => simp [all_mutex_names, ih]

theorem run_events_context_of_no_names {env : Env} {evs : List Event} {s s1 : Loader}
    (h : run_events env evs s = .ok s1) (hno : ∀ e ∈ evs, e.is_rule_name = false) :
    s1.cur_read_rule_ = s.cur_read_rule_ ∧ s1.rules_ = s.rules_ := by
  induction evs generalizing s with
  | nil =>
    simp only [run_events, Except.ok.injEq] at h
    rw [h]
    exact ⟨rfl, rfl⟩
  | cons e rest ih =>
    rw [run_events] at h
    cases he : e.apply env s with
    | error x => simp [he] at h
    | ok s2 =>
      simp only [he] at h
      have h1 := ih h (fun x hx => hno x (List.mem_cons_of_mem _ hx))
      rcases Event.apply_ok_frame he with ⟨n, rfl, -⟩ | ⟨-, hf⟩
      · have := hno _ (List.mem_cons_self _ _)
        simp [Event.is_rule_name] at this
      · exact ⟨h1.1.trans hf.cur_eq, h1.2.trans hf.rules_eq⟩

theorem set_disjunct_rules_names_ok_key {k : RulePtr} {n : String} {rest : List String}
    {s s1 : Loader} (h : set_disjunct_rules_names k (n :: rest) s = .ok s1) :
    ∃ i, k = some i := by
  rw [set_disjunct_rules_names] at h
  cases hg : get_rule s n with
  | error e => simp [hg] at h
  | ok q =>
    cases q with
    | none => simp [hg] at h
    | some p =>
      simp only [hg] at h
      cases hu : s.update k (fun c => c.add_disjunct_rule p) with
      | error x => simp [hu] at h
      | ok s2 =>
        rcases Loader.update_ok hu with ⟨i, -, hk, -, -⟩
        exact ⟨i, hk⟩

theorem set_disjunct_rules_loop_ok_keys {m : List (RulePtr × List String)} {s s1 : Loader}
    (h : set_disjunct_rules_loop m s = .ok s1) :
    ∀ e ∈ m, e.2 ≠ [] → ∃ i, e.1 = some i := by
  induction m generalizing s with
  | nil => intro e he; cases he
  | cons entry rest ih =>
    rcases entry with ⟨k, ns⟩
    rw [set_disjunct_rules_loop] at h
    cases hn : set_disjunct_rules_names k ns s with
    | error x => simp [hn] at h
    | ok s2 =>
      simp only [hn] at h
      intro e he hne
      rcases List.mem_cons.mp he with he | he
      · subst he
        cases ns with
        | nil => exact absurd rfl hne
        | cons n rest1 => exact set_disjunct_rules_names_ok_key hn
      · exact ih h e he hne

/-- C11, as stated, fails: in `{mutex:[], rules:[{name:"R1"}]}` a `mutex` key with
a non-null value is reached before any `name` key, and the load completes
successfully. -/
theorem C11_empty_mutex_counterexample :
    doc_events [mutex_first_doc] =
      [.mutex_rules (.array .nil), .rule_name (.str "R1")] ∧
    load_config (sample_env [mutex_first_doc]) sample_loader = .ok one_rule_loader := by
  refine ⟨rfl, by decide!⟩

/-- C11, amended: when a `file`, `priority` or `category` key, or a `mutex` key
whose value is neither null nor the empty array, is reached before any `name`
key, `load_config` does not complete successfully: it ends with an error.  (For
the `mutex` key the error is raised by the resolver, so the stream must not have
failed with the I/O failure that `load_config` catches.) -/
theorem C11_missing_context_fails (env : Env) (conf path : String) (mi : Int) (aa : Bool)
    (pre post : List Event) (e : Event)
    (hpath : get_absolute_path env conf [] = .ok path)
    (hev : doc_events (env.stream path).1 = pre ++ e :: post)
    (hpre : ∀ x ∈ pre, x.is_rule_name = false)
    (hneeds : e.needs_rule = true)
    (hio : e.is_mutex_rules = true → (env.stream path).2 = false) :
    ∃ x, load_config env (JsonicControlPolicyParamLoader conf mi aa) = .error x := by
  cases hload : load_config env (JsonicControlPolicyParamLoader conf mi aa) with
  | error x => exact ⟨x, rfl⟩
  | ok s' =>
    exfalso
    rcases load_config_ok_walk (s := JsonicControlPolicyParamLoader conf mi aa) hpath hload
      with ⟨s1, hwalk, -⟩
    have hwalk' := hwalk
    rw [load_config_loop_eq_run_events, hev] at hwalk'
    rcases run_events_split hwalk' with ⟨s2, s3, hpre2, he, -⟩
    have hcur : s2.cur_read_rule_ = none :=
      (run_events_context_of_no_names hpre2 hpre).1
    cases e with
    | file_path v =>
      rcases read_obj_file_path_ok he with ⟨_, i, _, _, _, hi, _⟩
      rw [hcur] at hi
      cases hi
    | priority v =>
      rcases read_obj_priority_ok he with ⟨_, i, _, _, hi, _⟩
      rw [hcur] at hi
      cases hi
    | category v =>
      rcases read_obj_category_ok he with ⟨_, i, _, _, hi, _⟩
      rw [hcur] at hi
      cases hi
    | mutex_rules v =>
      rcases read_obj_mutex_rules_ok he with ⟨a, names, rfl, hn, -⟩
      have hne : names ≠ [] := by
        intro h0
        rw [h0] at hn
        cases a with
        | nil => simp [Event.needs_rule] at hneeds
        | cons x xs => simp [Values.toList] at hn
      have hnames : mutex_names (.array a) = names := by
        show a.toList.filterMap Value.str? = names
        rw [hn, filterMap_str?_map_str]
      rcases load_config_ok (s := JsonicControlPolicyParamLoader conf mi aa) hpath (hio rfl)
        hload with ⟨s1', hwalk1, hres⟩
      rw [hwalk] at hwalk1
      cases hwalk1
      rw [load_config_loop_eq_run_events] at hwalk
      rcases fresh_walk hwalk with ⟨strs, -, -, -, -, hsorted, hfind⟩
      have hpush : pushed (doc_events (env.stream path).1) none 0 none
          = all_mutex_names pre ++ (names ++ all_mutex_names
              (post.takeWhile (fun e => !e.is_rule_name))) := by
        rw [pushed_before_first_rule, hev,
          List.takeWhile_append_of_pos (by intro x hx; simp [hpre x hx]),
          List.takeWhile_cons_of_pos (by simp [Event.is_rule_name]),
          all_mutex_names_append]
        simp [all_mutex_names, Event.mutex_names, hnames]
      have hpne : pushed (doc_events (env.stream path).1) none 0 none ≠ [] := by
        rw [hpush]
        simp [hne]
      have hf := hfind none
      simp only [entry_extend, if_neg hpne, Option.getD_none, List.nil_append] at hf
      have hmem := mem_of_map_find_eq_some hf
      rcases set_disjunct_rules_loop_ok_keys hres _ hmem hpne with ⟨i, hi⟩
      cases hi
    | _ => simp [Event.needs_rule] at hneeds

/-- C11, amended, at `{priority:3, rules:[{name:"R1"}]}`: the load ends with an
error. -/
theorem C11_missing_context_fails_witness :
    ∃ x, load_config (sample_env [priority_before_name_doc])
      (JsonicControlPolicyParamLoader "policy.json" 0 false) = .error x :=
  C11_missing_context_fails (sample_env [priority_before_name_doc]) "policy.json"
    "./policy.json" 0 false [] [.rule_name (.str "R1")] (.priority (.int 3)) rfl rfl
    (by intro x hx; cases hx) rfl (by intro h; cases h)

/-! ## The walk does not depend on the addresses of the rules -/

theorem read_obj_mutex_loop_of_strings (env : Env) (names : List String) (t : Loader) :
    read_obj_mutex_loop env (names.map Value.str) t =
      .ok { t with rule_mutex_map_ :=
        (List.foldl (map_add env.alloc t.cur_read_rule_) t.rule_mutex_map_ names) } := by
  induction names generalizing t with
  | nil => rfl
  | cons n rest ih =>
    rw [List.map_cons, read_obj_mutex_loop]
    simp only [Value.get_str]
    rw [ih]
    rfl

theorem Event.apply_sim (env : Env) (al : Allocator) {e : Event} {s s1 t : Loader}
    (hst : SameRules s t) (h : e.apply env s = .ok s1) :
    ∃ t1, e.apply { env with alloc := al } t = .ok t1 ∧ SameRules s1 t1 := by
  rcases hst with ⟨hheap, hrules, hcur, hcalls⟩
  cases e with
  | rule_name v =>
    rcases read_obj_rule_name_ok h with ⟨n, rfl, rfl⟩
    refine ⟨t.declare n, ?_, ?_⟩
    · simp [Event.apply, read_obj_rule_name, Value.get_str, Loader.update, Run.andThen,
        Loader.declare, List.set_append_right, Rule.set_name]
    · exact ⟨by simp [Loader.declare, hheap], by simp [Loader.declare, hheap, hrules],
        by simp [Loader.declare, hheap], hcalls⟩
  | file_path v =>
    rcases read_obj_file_path_ok h with ⟨path, i, r, hd, rfl, hi, hr, hl, he, rfl⟩
    refine ⟨{ t with heap := t.heap.set i (r.set_rule_handle hd),
                      calls := t.calls ++ [.load_scm_file_relative path, .eval_h r.get_name] },
      ?_, ?_⟩
    · simp only [Event.apply, read_obj_file_path, Value.get_str, Loader.deref, hcur, hi,
        hheap, hr, hcalls, hl, if_true, he, Loader.update]
      simp
    · exact ⟨by simp [hheap], hrules, hcur, by simp [hcalls]⟩
  | priority v =>
    rcases read_obj_priority_ok h with ⟨n, i, r, rfl, hi, hr, rfl⟩
    refine ⟨t.assign i (r.set_cost (toInt32 n)), ?_, ?_⟩
    · simp only [Event.apply, read_obj_priority, Value.get_int, Loader.update, hcur, hi,
        hheap, hr, Loader.assign]
    · exact ⟨by simp [Loader.assign, hheap], hrules, hcur, hcalls⟩
  | category v =>
    rcases read_obj_category_ok h with ⟨c, i, r, rfl, hi, hr, rfl⟩
    refine ⟨t.assign i (r.set_category c), ?_, ?_⟩
    · simp only [Event.apply, read_obj_category, Value.get_str, Loader.update, hcur, hi,
        hheap, hr, Loader.assign]
    · exact ⟨by simp [Loader.assign, hheap], hrules, hcur, hcalls⟩
  | attention_alloc v =>
    rcases read_obj_attention_alloc_ok h with ⟨b, rfl, rfl⟩
    exact ⟨{ t with attention_alloc_ := b }, rfl, hheap, hrules, hcur, hcalls⟩
  | log_level v =>
    rcases read_obj_log_level_ok h with ⟨l, rfl, rfl⟩
    exact ⟨{ t with log_level_ := l }, rfl, hheap, hrules, hcur, hcalls⟩
  | mutex_rules v =>
    rcases read_obj_mutex_rules_ok h with ⟨a, names, rfl, hn, rfl⟩
    refine ⟨Loader.mk t.heap t.conf_path_ t.cur_read_rule_ t.rules_
      (List.foldl (map_add al t.cur_read_rule_) t.rule_mutex_map_ names) t.mutex_sets_
      t.max_iter_ t.attention_alloc_ t.log_level_ t.calls, ?_, ?_⟩
    · simp only [Event.apply, read_obj_mutex_rules, Value.get_array]
      rw [hn]
      exact read_obj_mutex_loop_of_strings _ names t
    · exact ⟨hheap, hrules, hcur, hcalls⟩
  | max_iter v =>
    rcases read_obj_max_iter_ok h with ⟨n, rfl, rfl⟩
    exact ⟨{ t with max_iter_ := toInt32 n }, rfl, hheap, hrules, hcur, hcalls⟩
  | mutex_null =>
    simp only [Event.apply, Except.ok.injEq] at h
    subst h
    exact ⟨t, rfl, hheap, hrules, hcur, hcalls⟩

theorem run_events_sim (env : Env) (al : Allocator) {evs : List Event} {s s1 t : Loader}
    (hst : SameRules s t) (h : run_events env evs s = .ok s1) :
    ∃ t1, run_events { env with alloc := al } evs t = .ok t1 ∧ SameRules s1 t1 := by
  induction evs generalizing s t with
  | nil =>
    simp only [run_events, Except.ok.injEq] at h
    subst h
    exact ⟨t, rfl, hst⟩
  | cons e rest ih =>
    rw [run_events] at h
    cases he : e.apply env s with
    | error x => simp [he] at h
    | ok s2 =>
      simp only [he] at h
      rcases Event.apply_sim env al hst he with ⟨t2, ht2, hst2⟩
      rcases ih hst2 h with ⟨t1, ht1, hst1⟩
      refine ⟨t1, ?_, hst1⟩
      rw [run_events, ht2]
      exact ht1

/-! ## The result of a load does not depend on the order of the map -/

theorem ResolverFrame.clear_links_eq {s s1 : Loader} (h : ResolverFrame s s1) {i : Nat}
    {r r1 : Rule} (hr : s.heap[i]? = some r) (hr1 : s1.heap[i]? = some r1) :
    r1.clear_links = r.clear_links := by
  have h1 : (s1.heap.map Rule.clear_links)[i]? = some r1.clear_links := by
    simp [hr1]
  have h2 : (s.heap.map Rule.clear_links)[i]? = some r.clear_links := by
    simp [hr]
  rw [h.2.1, h2] at h1
  exact (Option.some.inj h1).symm

theorem link_targets_eq_of_same {s t : Loader} (hheap : t.heap = s.heap)
    (hrules : t.rules_ = s.rules_) (ns : List String) :
    link_targets t ns = link_targets s ns := by
  unfold link_targets
  have : ∀ n, get_rule t n = get_rule s n :=
    fun n => get_rule_congr (by rw [hheap]) hrules n
  simp only [this]

theorem set_disjunct_rules_loop_det (al1 al2 : Allocator)
    (m1 m2 : List (RulePtr × List String)) (s t s' : Loader)
    (hm1 : MapSorted al1 m1) (hm2 : MapSorted al2 m2)
    (hfind : ∀ k, map_find k m2 = map_find k m1)
    (hheap : t.heap = s.heap) (hrules : t.rules_ = s.rules_)
    (hvalid : ∀ p ∈ s.rules_, p < s.heap.length)
    (hkeys : ∀ e ∈ m1, ∃ i, e.1 = some i ∧ i < s.heap.length)
    (hok : set_disjunct_rules_loop m1 s = .ok s') :
    ∃ t', set_disjunct_rules_loop m2 t = .ok t' ∧ t'.heap = s'.heap := by
  have hmem : ∀ e ∈ m2, (e.1, e.2) ∈ m1 := by
    intro e he
    have he' : (e.1, e.2) ∈ m2 := he
    have h1 := map_find_eq_some_of_mem al2 hm2 he'
    rw [hfind] at h1
    exact mem_of_map_find_eq_some h1
  have hkeys2 : ∀ e ∈ m2, ∃ i, e.1 = some i ∧ i < t.heap.length := by
    intro e he
    rcases hkeys _ (hmem e he) with ⟨i, hi, hlt⟩
    exact ⟨i, hi, by rw [hheap]; exact hlt⟩
  have hvalid2 : ∀ p ∈ t.rules_, p < t.heap.length := by
    rw [hrules, hheap]; exact hvalid
  rcases set_disjunct_rules_loop_links al1 m1 s hm1 with ⟨hall1, hlinks1⟩
  rcases set_disjunct_rules_loop_links al2 m2 t hm2 with ⟨-, hlinks2⟩
  have hframe1 : ResolverFrame s s' := by
    have := set_disjunct_rules_loop_frame m1 s
    rw [hok] at this
    exact this
  rcases set_disjunct_rules_loop_total m2 t hvalid2 hkeys2 with ⟨t', ht'⟩ | ⟨n, s2, herr⟩
  · refine ⟨t', ht', ?_⟩
    have hframe2 : ResolverFrame t t' := by
      have := set_disjunct_rules_loop_frame m2 t
      rw [ht'] at this
      exact this
    apply List.ext_getElem?
    intro i
    cases hr : s.heap[i]? with
    | none =>
      have hle : s.heap.length ≤ i := List.getElem?_eq_none_iff.mp hr
      rw [List.getElem?_eq_none (by rw [hframe2.heap_length_eq, hheap]; exact hle),
        List.getElem?_eq_none (by rw [hframe1.heap_length_eq]; exact hle)]
    | some r =>
      rcases hlinks1 i r hr with ⟨r1, hr1, done1, -, hd1, hl1⟩
      have hrt : t.heap[i]? = some r := by rw [hheap]; exact hr
      rcases hlinks2 i r hrt with ⟨r2, hr2, done2, -, hd2, hl2⟩
      rw [hok] at hr1
      rw [ht'] at hr2
      simp only [Run.state] at hr1 hr2
      rw [hr1, hr2]
      congr 1
      apply Rule.eq_of_clear_links_eq
      · rw [hframe2.clear_links_eq hrt hr2, hframe1.clear_links_eq hr hr1]
      · rw [hl1, hl2, hd1 ⟨s', hok⟩, hd2 ⟨t', ht'⟩, hfind,
          link_targets_eq_of_same hheap hrules]
  · exfalso
    have hframe2 : ResolverFrame t s2 := by
      have := set_disjunct_rules_loop_frame m2 t
      rw [herr] at this
      exact this
    rcases set_disjunct_rules_loop_error herr with h1 | ⟨e, he, n', hn', h1, h2⟩
    · cases h1
    · rw [hframe2.get_rule_eq, get_rule_congr (by rw [hheap]) hrules] at h2
      rcases hall1 ⟨s', hok⟩ _ (hmem e he) n' hn' with ⟨p, hp⟩
      rw [hp] at h2
      cases h2

theorem get_absolute_path_loop_alloc (env : Env) (al : Allocator) (filename : String)
    (paths : List String) :
    get_absolute_path_loop { env with alloc := al } filename paths =
      get_absolute_path_loop env filename paths := by
  induction paths with
  | nil => rfl
  | cons p rest ih =>
    simp only [get_absolute_path_loop]
    rw [ih]

theorem load_config_of_walk_ios {env : Env} {s s1 : Loader} {path : String}
    (hpath : get_absolute_path env s.conf_path_ [] = .ok path)
    (hwalk : load_config_loop env (env.stream path).1 s = .ok s1)
    (hio : (env.stream path).2 = true) : load_config env s = .ok s1 := by
  unfold load_config
  rw [load_config_try_after_walk hpath hwalk]
  simp only [hio, if_true]

/-- C15: when a load into a freshly constructed loader succeeds, a load of the
same configuration into another freshly constructed loader, whatever the
addresses of its rule objects (hence whatever the order in which the resolver
meets the entries of the exclusion map) and whatever the indeterminate initial
values of its global parameters, succeeds too and ends with the same rule
objects (names, costs, categories, handles, and the same links in the same
order) and the same registry. -/
theorem C15_load_deterministic (env : Env) (al : Allocator) (conf path : String)
    (mi1 mi2 : Int) (aa1 aa2 : Bool) (s' : Loader)
    (hpath : get_absolute_path env conf [] = .ok path)
    (hload : load_config env (JsonicControlPolicyParamLoader conf mi1 aa1) = .ok s') :
    ∃ t', load_config { env with alloc := al } (JsonicControlPolicyParamLoader conf mi2 aa2)
        = .ok t' ∧
      t'.heap = s'.heap ∧ get_rules t' = get_rules s' := by
  rcases load_config_ok_walk (s := JsonicControlPolicyParamLoader conf mi1 aa1) hpath hload
    with ⟨s1, hwalk, hframe⟩
  have hwalk' := hwalk
  rw [load_config_loop_eq_run_events] at hwalk'
  have hsame : SameRules (JsonicControlPolicyParamLoader conf mi1 aa1)
      (JsonicControlPolicyParamLoader conf mi2 aa2) := ⟨rfl, rfl, rfl, rfl⟩
  rcases run_events_sim env al hsame hwalk' with ⟨t1, hwalk2, hheap, hrules, -, -⟩
  have hpath2 : get_absolute_path { env with alloc := al }
      (JsonicControlPolicyParamLoader conf mi2 aa2).conf_path_ [] = .ok path := by
    rw [← hpath]
    unfold get_absolute_path
    exact get_absolute_path_loop_alloc env al _ _
  have hwalk2' : load_config_loop { env with alloc := al }
      (({ env with alloc := al } : Env).stream path).1
      (JsonicControlPolicyParamLoader conf mi2 aa2) = .ok t1 := by
    rw [load_config_loop_eq_run_events]
    exact hwalk2
  by_cases hio : (env.stream path).2 = true
  · have h1 := load_config_of_walk_ios (s := JsonicControlPolicyParamLoader conf mi1 aa1)
      hpath hwalk hio
    rw [hload] at h1
    cases h1
    exact ⟨t1, load_config_of_walk_ios hpath2 hwalk2' hio, hheap, hrules⟩
  · have hio' : (env.stream path).2 = false := by simpa using hio
    have hres : set_disjunct_rules s1 = .ok s' := by
      rw [← load_config_eq_resolver (s := JsonicControlPolicyParamLoader conf mi1 aa1)
        hpath hio' hwalk]
      exact hload
    rcases fresh_walk hwalk' with ⟨strs, hv, hr, hn, -, hsorted1, hfind1⟩
    rcases fresh_walk hwalk2 with ⟨-, -, -, -, -, hsorted2, hfind2⟩
    have hheaplen : s1.heap.length = strs.length := by
      have := congrArg List.length hn
      simpa using this
    have hvalid : ∀ p ∈ s1.rules_, p < s1.heap.length := by
      intro p hp
      rw [hr] at hp
      rw [hheaplen]
      simpa using (List.mem_range'_1.mp hp).2
    have hkeys : ∀ e ∈ s1.rule_mutex_map_, ∃ i, e.1 = some i ∧ i < s1.heap.length := by
      intro e he
      have he' : (e.1, e.2) ∈ s1.rule_mutex_map_ := he
      have h1 := map_find_eq_some_of_mem env.alloc hsorted1 he'
      rw [hfind1] at h1
      have h2 := entry_extend_none_eq_some h1
      have hne : e.2 ≠ [] := by rw [← h2.1]; exact h2.2
      rcases set_disjunct_rules_loop_ok_keys hres e he hne with ⟨i, hi⟩
      refine ⟨i, hi, ?_⟩
      rcases pushed_key _ _ _ _ h2.2 with hk | ⟨j, hj, -, hlt⟩
      · rw [hi] at hk
        cases hk
      · rw [hi] at hj
        cases hj
        have hlen : (name_values (doc_events (env.stream path).1)).length = strs.length := by
          rw [hv, List.length_map]
        omega
    have hfind : ∀ k, map_find k t1.rule_mutex_map_ = map_find k s1.rule_mutex_map_ := by
      intro k
      rw [hfind1, hfind2]
    rcases set_disjunct_rules_loop_det env.alloc al s1.rule_mutex_map_ t1.rule_mutex_map_
      s1 t1 s' hsorted1 hsorted2 hfind hheap hrules hvalid hkeys hres with ⟨t', ht', hheap'⟩
    have hframe2 : ResolverFrame t1 t' := by
      have := set_disjunct_rules_loop_frame t1.rule_mutex_map_ t1
      rw [ht'] at this
      exact this
    refine ⟨t', ?_, hheap', ?_⟩
    · rw [load_config_eq_resolver hpath2 hio' hwalk2']
      exact ht'
    · simp only [get_rules]
      rw [hframe2.rules_eq, hframe.rules_eq, hrules]

/-- C15 at a document in which two rules list each other, for an allocator
that orders the two rules the other way round: the load ends with the same rule
objects and registry. -/
theorem C15_load_deterministic_witness :
    ∃ t', load_config { sample_env [mutual_doc] with alloc := swapped_alloc }
        (JsonicControlPolicyParamLoader "policy.json" 5 true) = .ok t' ∧
      t'.heap = mutual_loaded.heap ∧ get_rules t' = get_rules mutual_loaded :=
  C15_load_deterministic (sample_env [mutual_doc]) swapped_alloc "policy.json" "./policy.json"
    0 5 false true mutual_loaded rfl (by decide!)

end ControlPolicy
